import Mathlib

/-!
# Distributed concurrent file system: storage server and name server

A shallow embedding of the storage server's sentence/word tokenizer
(`src/storage_server/file_parser.c`), of its modification log and sentence
locks (`src/storage_server/storage_server.c`), of the WRITE session and of UNDO
(`handle_ss_write`, `handle_ss_undo` in `src/storage_server/file_ops.c`), and of
the name server's access lists, file table, trie
(`src/common/data_structures.c`), command handlers
(`src/name_server/client_handler.c`), registration of storage servers
(`src/name_server/ss_handler.c`) and saved state
(`src/name_server/persistence.c`).

Conventions of the embedding.

* A C string is a `List Char`: the bytes before the terminating NUL.  Reading
  the first byte of an empty string yields the NUL byte, `Char.ofNat 0`.
* `int` values are `Int`; the counters of the program (sentence counts, log
  ids) stay far below `2^31`, so no wrap-around is modelled.
* The storage directory is a map from the files it holds to their content. A
  file name without `/` names the file of that name, and the sibling backup of
  `f` is the file `f ++ ".undo"` of the same directory.
* `handle_ss_write` blocks in the middle (it waits for the client's updates),
  so it is split in two steps, `handle_ss_write_begin` (lines 128-180) and
  `handle_ss_write_commit` (lines 221-291); each step runs as one atomic
  transition of the server state.
* Library calls that can fail for reasons outside the program (`fopen`,
  `rename`) take a flag that tells whether they succeed. The step
  `handle_ss_write_commit_at` takes the two files its paths name and both
  flags; `handle_ss_write_commit` is that step for a plain file name whose
  backup can be written.
* Names of files and users in the name server are `String`s that fit their
  buffers (`MAX_FILENAME_LEN`, `MAX_USERNAME_LEN`), so `strncpy` copies them
  whole. A linked list is a `List` in list order, a `TrieNode*` is a
  `TrieNode`, a record reached through a pointer is written back with
  `ht_store`, and `time(NULL)` is the argument `now` of a handler.
* A command handler of the name server returns the reply it sends to the
  client, the new state, and the messages it sends to storage servers.
* The metadata file is the text `nm_save_files` writes; `fgets` reads it in
  strings of at most `BUFFER_SIZE - 1` bytes. `%d` and `%ld` print, and `atoi`
  and `atol` read, numbers within the range of their type.
-/

namespace DCFS

/-! ## Tokenizer (`file_parser.c`) -/

/-- `is_delimiter` of `file_parser.c`: the three sentence delimiters. -/
def is_delimiter (c : Char) : Bool :=
  c == '.' || c == '!' || c == '?'

/-- `isspace` of `<ctype.h>` in the C locale: space, `\t`, `\n`, `\v`, `\f`, `\r`. -/
def isspace (c : Char) : Bool :=
  c == ' ' || c == '\t' || c == '\n' || c == Char.ofNat 11 || c == Char.ofNat 12 || c == '\r'

/-- Loop of `split_into_sentences`.  `cur` is the text between `start` and `p`;
`skip` tells that `start` is ahead of `p`, which happens right after a
delimiter while the bytes under `p` are the whitespace `start` has skipped. -/
def split_into_sentences_loop (cur : List Char) (skip : Bool) : List Char → List (List Char)
  | [] => if cur = [] then [] else [cur]
  | c :: rest =>
    if is_delimiter c then
      (cur ++ [c]) :: split_into_sentences_loop [] true rest
    else if skip && isspace c then
      split_into_sentences_loop [] true rest
    else
      split_into_sentences_loop (cur ++ [c]) false rest

/-- `split_into_sentences`: a sentence ends at each delimiter (included), the
whitespace that follows a delimiter is dropped, and the text after the last
delimiter, if any, is a last sentence. -/
def split_into_sentences (content : List Char) : List (List Char) :=
  split_into_sentences_loop [] false content

/-- Loop of `split_into_words`.  `cur` is the text between `start` and `p`; it
is non-empty exactly when `in_word` is set. -/
def split_into_words_loop (cur : List Char) : List Char → List (List Char)
  | [] => if cur = [] then [] else [cur]
  | c :: rest =>
    if isspace c then
      if cur = [] then split_into_words_loop [] rest
      else cur :: split_into_words_loop [] rest
    else if is_delimiter c then
      if cur = [] then [c] :: split_into_words_loop [] rest
      else cur :: [c] :: split_into_words_loop [] rest
    else
      split_into_words_loop (cur ++ [c]) rest

/-- `split_into_words`: whitespace separates words and every delimiter is a word
of its own. -/
def split_into_words (sentence : List Char) : List (List Char) :=
  split_into_words_loop [] sentence

/-- First byte of a C string (`s[0]`): the NUL byte when the string is empty. -/
def first_char (s : List Char) : Char :=
  s.headD (Char.ofNat 0)

/-- `join_words`: the words in order, with a space after a word unless it is the
last one or the next word starts with a delimiter. -/
def join_words : List (List Char) → List Char
  | [] => []
  | [w] => w
  | w :: next :: rest =>
    if !is_delimiter (first_char next) then w ++ ' ' :: join_words (next :: rest)
    else w ++ join_words (next :: rest)

/-- `join_sentences`: the sentences in order, with a space after a sentence
unless it is the last one or the next sentence starts with a space. -/
def join_sentences : List (List Char) → List Char
  | [] => []
  | [s] => s
  | s :: next :: rest =>
    if first_char next != ' ' then s ++ ' ' :: join_sentences (next :: rest)
    else s ++ join_sentences (next :: rest)

/-- Loop of `strtok_r(rest, " ", &rest)` in `split_string`: tokens are the
maximal runs of bytes other than the separator; `cur` is the run being read. -/
def split_string_loop (delim : Char) (cur : List Char) : List Char → List (List Char)
  | [] => if cur = [] then [] else [cur]
  | c :: rest =>
    if c == delim then
      if cur = [] then split_string_loop delim [] rest
      else cur :: split_string_loop delim [] rest
    else
      split_string_loop delim (cur ++ [c]) rest

/-- `split_string(str, " ", &count)` of `common.c`, for a one-byte separator. -/
def split_string (str : List Char) (delim : Char) : List (List Char) :=
  split_string_loop delim [] str

/-- `apply_single_update`: insert the words of `new_content` before word
`word_idx` of sentence `sent_num`; `none` is the `NULL` result. -/
def apply_single_update (current_content : List Char) (sent_num word_idx : Int)
    (new_content : List Char) : Option (List Char) :=
  let sentences := split_into_sentences current_content
  let sentence_count : Int := sentences.length
  if sent_num < 0 ∨ sent_num > sentence_count then none
  else
    let sentences := if sent_num = sentence_count then sentences ++ [[]] else sentences
    let words := split_into_words (sentences.getD sent_num.toNat [])
    let word_count : Int := words.length
    if word_idx < 0 ∨ word_idx > word_count then none
    else
      let new_words := split_string new_content ' '
      let final_words := words.take word_idx.toNat ++ new_words ++ words.drop word_idx.toNat
      let new_sentence := join_words final_words
      let sentences := sentences.set sent_num.toNat new_sentence
      let final_content := join_sentences sentences
      let final_sentences := split_into_sentences final_content
      some (join_sentences final_sentences)

/-! ## File utilities (`common.c`, `undo_handler.c`) -/

/-- The storage directory: the content of each file that exists. -/
abbrev Disk := String → Option (List Char)

/-- `get_file_content`: the bytes of the file, `none` (`NULL`) when it cannot be
opened. -/
def get_file_content (disk : Disk) (filepath : String) : Option (List Char) :=
  disk filepath

/-- `get_file_size`: the size reported by `stat`, `0` when the file is absent. -/
def get_file_size (disk : Disk) (filepath : String) : Int :=
  match disk filepath with
  | some content => content.length
  | none => 0

/-- Loop of `get_word_count`: a word ends at whitespace or at `.`, `!`, `?`. -/
def get_word_count_loop (in_word : Bool) (count : Int) : List Char → Int
  | [] => if in_word then count + 1 else count
  | c :: rest =>
    if isspace c || c == '.' || c == '!' || c == '?' then
      if in_word then get_word_count_loop false (count + 1) rest
      else get_word_count_loop false count rest
    else get_word_count_loop true count rest

/-- `get_word_count`: `0` when the file cannot be opened. -/
def get_word_count (disk : Disk) (filepath : String) : Int :=
  match disk filepath with
  | some content => get_word_count_loop false 0 content
  | none => 0

/-- `get_char_count`: the file size. -/
def get_char_count (disk : Disk) (filepath : String) : Int :=
  get_file_size disk filepath

/-- `create_undo_backup`: remove the old backup, then copy the file to the
backup path when the file exists. `backup_ok` tells whether
`fopen(undo_filepath, "w")` succeeds; when it fails (result `0`) the old backup
is gone and nothing is copied. -/
def create_undo_backup (disk : Disk) (filepath undo_filepath : String) (backup_ok : Bool) :
    Disk :=
  let unlinked := Function.update disk undo_filepath none
  match unlinked filepath with
  | none => unlinked
  | some content =>
    if backup_ok then Function.update unlinked undo_filepath (some content) else unlinked

/-! ## Modification log and sentence locks (`storage_server.c`) -/

/-- One entry of the modification log. -/
structure ModificationLogNode where
  id : Int
  filename : String
  original_sentence_index : Int
  sentence_delta : Int
  deriving DecidableEq, Repr

/-- One held sentence lock. -/
structure SentenceLockNode where
  filename : String
  sentence_num : Int
  deriving DecidableEq, Repr

/-- The state of a storage server that the WRITE path reads and writes: the
storage directory, the sentence locks (newest first), the modification log
(oldest first) and the id of the next log entry. -/
structure StorageServer where
  disk : Disk
  sentence_locks_head : List SentenceLockNode
  mod_log_head : List ModificationLogNode
  next_log_id : Int

/-- `ss_create`: no lock, an empty log, ids start at `0`; the directory holds
whatever files it held. -/
def ss_create (disk : Disk) : StorageServer :=
  { disk := disk, sentence_locks_head := [], mod_log_head := [], next_log_id := 0 }

/-- `log_modification`: nothing for a zero delta, else a new entry at the tail
of the log with the next id. -/
def log_modification (ss : StorageServer) (filename : String) (index delta : Int) :
    StorageServer :=
  if delta = 0 then ss
  else
    { ss with
      mod_log_head := ss.mod_log_head ++
        [{ id := ss.next_log_id, filename := filename,
           original_sentence_index := index, sentence_delta := delta }]
      next_log_id := ss.next_log_id + 1 }

/-- `get_current_log_id`: the id the next log entry will get. -/
def get_current_log_id (ss : StorageServer) : Int :=
  ss.next_log_id

/-- Loop of `get_sentence_shift` over the log, `shift` being the running sum. -/
def get_sentence_shift_loop (filename : String) (original_index start_log_id : Int)
    (shift : Int) : List ModificationLogNode → Int
  | [] => shift
  | curr :: next =>
    if curr.id ≥ start_log_id then
      if curr.filename = filename then
        if curr.original_sentence_index < original_index then
          get_sentence_shift_loop filename original_index start_log_id
            (shift + curr.sentence_delta) next
        else get_sentence_shift_loop filename original_index start_log_id shift next
      else get_sentence_shift_loop filename original_index start_log_id shift next
    else get_sentence_shift_loop filename original_index start_log_id shift next

/-- `get_sentence_shift`: the deltas of the entries logged since `start_log_id`
for this file at an index below `original_index`, summed. -/
def get_sentence_shift (ss : StorageServer) (filename : String)
    (original_index start_log_id : Int) : Int :=
  get_sentence_shift_loop filename original_index start_log_id 0 ss.mod_log_head

/-- The search loop of `try_lock_sentence`: is the pair in the list? -/
def sentence_lock_held (filename : String) (sent_num : Int) :
    List SentenceLockNode → Bool
  | [] => false
  | curr :: next =>
    if curr.filename = filename ∧ curr.sentence_num = sent_num then true
    else sentence_lock_held filename sent_num next

/-- `try_lock_sentence`: `false` (`0`) and no change when the pair is held, else
the pair becomes the head of the list and the result is `true` (`1`). -/
def try_lock_sentence (ss : StorageServer) (filename : String) (sent_num : Int) :
    Bool × StorageServer :=
  if sentence_lock_held filename sent_num ss.sentence_locks_head then (false, ss)
  else
    (true, { ss with
      sentence_locks_head :=
        { filename := filename, sentence_num := sent_num } :: ss.sentence_locks_head })

/-- Loop of `unlock_sentence`: unlink the first node that holds the pair. -/
def unlock_sentence_loop (filename : String) (sent_num : Int) :
    List SentenceLockNode → List SentenceLockNode
  | [] => []
  | curr :: next =>
    if curr.filename = filename ∧ curr.sentence_num = sent_num then next
    else curr :: unlock_sentence_loop filename sent_num next

/-- `unlock_sentence`. -/
def unlock_sentence (ss : StorageServer) (filename : String) (sent_num : Int) :
    StorageServer :=
  { ss with sentence_locks_head := unlock_sentence_loop filename sent_num ss.sentence_locks_head }

/-! ## The WRITE session (`handle_ss_write` in `file_ops.c`) -/

/-- One buffered update of a session. -/
structure UpdateNode where
  word_idx : Int
  content : List Char
  deriving DecidableEq, Repr

/-- What a WRITE session keeps between its start and its commit. -/
structure WriteSession where
  filename : String
  sent_num : Int
  start_log_id : Int
  deriving DecidableEq, Repr

/-- The "delimiter check" of `handle_ss_write`: the largest sentence index a
session may ask for. -/
def max_valid_index (check_content : List Char) : Int :=
  let temp_sents := split_into_sentences check_content
  let initial_sent_count : Int := temp_sents.length
  if initial_sent_count > 0 then
    let last_sent := temp_sents.getLastD []
    let last_char := first_char (last_sent.reverse.dropWhile isspace)
    if !is_delimiter last_char then initial_sent_count - 1 else initial_sent_count
  else initial_sent_count

/-- Result of the first step of a WRITE: the reply sent to the client, the new
server state, and the session when one was opened. -/
structure BeginResult where
  reply : String
  ss : StorageServer
  session : Option WriteSession

/-- Lines 128-180 of `handle_ss_write`: snapshot the log id, take the sentence
lock (`423` when it is held), validate the index (`400` and unlock when it is
out of range), else acknowledge. -/
def handle_ss_write_begin (ss : StorageServer) (filename : String) (sent_num : Int) :
    BeginResult :=
  let start_log_id := get_current_log_id ss
  let locked := try_lock_sentence ss filename sent_num
  if !locked.1 then
    { reply := "423 ERROR: This sentence is being edited by another user.",
      ss := locked.2, session := none }
  else
    let ss := locked.2
    let check_content := (get_file_content ss.disk filename).getD []
    let max_valid_index := max_valid_index check_content
    if sent_num < 0 ∨ sent_num > max_valid_index then
      { reply := "400 ERROR: Sentence index out of range (Previous sentence might be incomplete).",
        ss := unlock_sentence ss filename sent_num, session := none }
    else
      { reply := "202 ACK_WRITE: Ready for updates.",
        ss := ss,
        session := some { filename := filename, sent_num := sent_num,
                          start_log_id := start_log_id } }

/-- The update loop of the commit: each update is applied to the content the
previous one produced; `none` when one of them fails (`apply_error`). -/
def apply_updates (current_content : List Char) (real_sent_num : Int) :
    List UpdateNode → Option (List Char)
  | [] => some current_content
  | curr :: next =>
    match apply_single_update current_content real_sent_num curr.word_idx curr.content with
    | none => none
    | some updated_content => apply_updates updated_content real_sent_num next

/-- The `INFO_UPDATE filename size words chars` message. -/
structure InfoUpdate where
  filename : String
  size : Int
  words : Int
  chars : Int
  deriving DecidableEq, Repr

/-- Result of the commit step: the reply sent to the client, the new server
state, and the message sent to the name server, if any. -/
structure CommitResult where
  reply : String
  ss : StorageServer
  info_update : Option InfoUpdate

/-- Lines 221-291 of `handle_ss_write`, for the updates `updates` buffered in
arrival order.  `filepath` and `undo_filepath` are the files that the paths
`storage_path/filename` and `storage_path/filename.undo` of line 121-125 name;
the sentence lock and the log are kept under the name the client sent.
`backup_ok` tells whether the backup can be written (the result of
`create_undo_backup` is not looked at), `fopen_ok` whether
`fopen(filepath, "w")` succeeds. -/
def handle_ss_write_commit_at (filepath undo_filepath : String) (backup_ok : Bool)
    (ss : StorageServer) (sess : WriteSession)
    (updates : List UpdateNode) (fopen_ok : Bool) : CommitResult :=
  let ss := { ss with disk := create_undo_backup ss.disk filepath undo_filepath backup_ok }
  let current_content := (get_file_content ss.disk filepath).getD []
  let count_before : Int := (split_into_sentences current_content).length
  let shift := get_sentence_shift ss sess.filename sess.sent_num sess.start_log_id
  let real_sent_num := sess.sent_num + shift
  match apply_updates current_content real_sent_num updates with
  | none =>
    { reply := "500 ERROR: Invalid update application during commit.",
      ss := unlock_sentence ss sess.filename sess.sent_num, info_update := none }
  | some current_content =>
    if fopen_ok then
      let ss := { ss with disk := Function.update ss.disk filepath (some current_content) }
      let count_after : Int := (split_into_sentences current_content).length
      let delta := count_after - count_before
      let ss := log_modification ss sess.filename real_sent_num delta
      { reply := "200 OK: Write Successful!",
        ss := unlock_sentence ss sess.filename sess.sent_num,
        info_update := some
          { filename := sess.filename, size := current_content.length,
            words := get_word_count ss.disk filepath,
            chars := get_char_count ss.disk filepath } }
    else
      { reply := "500 ERROR: Failed to write file.",
        ss := unlock_sentence ss sess.filename sess.sent_num, info_update := none }

/-- The commit of a session whose file name is a plain name of the storage
directory (the path names the file of that name, and the backup its sibling
`filename.undo`) and whose backup can be written. -/
def handle_ss_write_commit (ss : StorageServer) (sess : WriteSession)
    (updates : List UpdateNode) (fopen_ok : Bool) : CommitResult :=
  handle_ss_write_commit_at sess.filename (sess.filename ++ ".undo") true ss sess updates
    fopen_ok

/-! ## Undo and the commands of the name server (`undo_handler.c`, `file_ops.c`,
`storage_server.c`) -/

/-- `perform_undo`: `false` (`0`) when the backup does not exist or the rename
fails, else the backup is renamed over the file. `rename_ok` tells whether
`rename` succeeds. -/
def perform_undo (disk : Disk) (filepath undo_filepath : String) (rename_ok : Bool) :
    Bool × Disk :=
  match disk undo_filepath with
  | none => (false, disk)
  | some backup =>
    if rename_ok then
      (true, Function.update (Function.update disk filepath (some backup)) undo_filepath none)
    else (false, disk)

/-- Result of an UNDO: the reply sent to the client, the new server state, and
the message sent to the name server, if any. -/
structure UndoResult where
  reply : String
  ss : StorageServer
  info_update : Option InfoUpdate

/-- `handle_ss_undo` of `file_ops.c`. -/
def handle_ss_undo (ss : StorageServer) (filename : String) (rename_ok : Bool) : UndoResult :=
  let filepath := filename
  let undo_filepath := filename ++ ".undo"
  let undone := perform_undo ss.disk filepath undo_filepath rename_ok
  if undone.1 then
    let ss := { ss with disk := undone.2 }
    { reply := "200 OK: Undo Successful!",
      ss := ss,
      info_update := some
        { filename := filename, size := get_file_size ss.disk filepath,
          words := get_word_count ss.disk filepath,
          chars := get_char_count ss.disk filepath } }
  else
    { reply := "404 ERROR: No undo history.", ss := ss, info_update := none }

/-- The `CREATE` command of the name server in `ss_listen_to_nm`: the file is
opened for writing, which leaves it empty, and closed; the reply is the
acknowledgement sent back. `fopen_ok` tells whether `fopen` succeeds. -/
def ss_listen_to_nm_create (ss : StorageServer) (filename : String) (fopen_ok : Bool) :
    String × StorageServer :=
  if fopen_ok then
    ("ACK_CREATE OK", { ss with disk := Function.update ss.disk filename (some []) })
  else ("ACK_CREATE FAIL", ss)

/-- The `DELETE` command of the name server in `ss_listen_to_nm`: the file and
its backup are unlinked. -/
def ss_listen_to_nm_delete (ss : StorageServer) (filename : String) : String × StorageServer :=
  ("ACK_DELETE OK",
    { ss with disk :=
        Function.update (Function.update ss.disk filename none) (filename ++ ".undo") none })

/-! ## Interleavings of sessions -/

/-- A storage server together with the WRITE sessions that are open (between
their acknowledgement and their commit), newest first. -/
structure World where
  ss : StorageServer
  open_sessions : List WriteSession

/-- A client starts a WRITE session. -/
def World.begin (s : World) (filename : String) (sent_num : Int) : World :=
  let r := handle_ss_write_begin s.ss filename sent_num
  { ss := r.ss,
    open_sessions := match r.session with
      | some sess => sess :: s.open_sessions
      | none => s.open_sessions }

/-- An open session commits the updates it has buffered and ends. -/
def World.commit (s : World) (sess : WriteSession) (updates : List UpdateNode)
    (fopen_ok : Bool) : World :=
  { ss := (handle_ss_write_commit s.ss sess updates fopen_ok).ss,
    open_sessions := s.open_sessions.erase sess }

/-- The states a storage server reaches from its creation by session starts and
commits of open sessions, in any order. -/
inductive Reachable : World → Prop
  | init (disk : Disk) : Reachable { ss := ss_create disk, open_sessions := [] }
  | begin {s : World} (filename : String) (sent_num : Int) :
      Reachable s → Reachable (s.begin filename sent_num)
  | commit {s : World} (sess : WriteSession) (updates : List UpdateNode) (fopen_ok : Bool) :
      Reachable s → sess ∈ s.open_sessions → Reachable (s.commit sess updates fopen_ok)

/-- The sentence a session would edit if it committed now: its requested index
plus the shift of the log entries appended since its start. -/
def effective_target (ss : StorageServer) (sess : WriteSession) : Int :=
  sess.sent_num + get_sentence_shift ss sess.filename sess.sent_num sess.start_log_id

/-! ## Name server data structures (`data_structures.c`) -/

/-- A `TrieNode*`: `null`, or a node with its children, indexed by byte, and its
`is_end_of_file` flag. -/
inductive TrieNode where
  | null : TrieNode
  | node (children : Nat → TrieNode) (is_end_of_file : Bool) : TrieNode

/-- `TRIE_ALPHABET_SIZE`. -/
def TRIE_ALPHABET_SIZE : Nat := 256

/-- `trie_create_node`: a node without children that ends no name. -/
def trie_create_node : TrieNode :=
  TrieNode.node (fun _ => TrieNode.null) false

/-- Is the pointer `NULL`? -/
def TrieNode.is_null : TrieNode → Bool
  | TrieNode.null => true
  | TrieNode.node _ _ => false

/-- Loop of `trie_insert` from node `curr` over the rest of the name: missing
children are created on the way and the last node is marked. -/
def trie_insert_loop : TrieNode → List Char → TrieNode
  | TrieNode.null, _ => TrieNode.null
  | TrieNode.node children _, [] => TrieNode.node children true
  | TrieNode.node children is_end_of_file, c :: rest =>
    TrieNode.node
      (Function.update children c.toNat
        (trie_insert_loop
          (if (children c.toNat).is_null then trie_create_node else children c.toNat) rest))
      is_end_of_file

/-- `trie_insert`, on the root of the trie. -/
def trie_insert (root : TrieNode) (filename : String) : TrieNode :=
  trie_insert_loop root filename.data

/-- Loop of `trie_search` from node `curr` over the rest of the name. -/
def trie_search_loop : TrieNode → List Char → Bool
  | TrieNode.null, _ => false
  | TrieNode.node _ is_end_of_file, [] => is_end_of_file
  | TrieNode.node children _, c :: rest => trie_search_loop (children c.toNat) rest

/-- `trie_search`, on the root of the trie. -/
def trie_search (root : TrieNode) (filename : String) : Bool :=
  trie_search_loop root filename.data

/-- `_trie_delete_helper` on the rest of the key: the result tells whether the
caller is to free the node, and gives the node as the call leaves it. -/
def trie_delete_helper : TrieNode → List Char → Bool × TrieNode
  | TrieNode.null, _ => (false, TrieNode.null)
  | TrieNode.node children is_end_of_file, [] =>
    if is_end_of_file then
      if (List.range TRIE_ALPHABET_SIZE).any fun i => !(children i).is_null then
        (false, TrieNode.node children false)
      else (true, TrieNode.node children false)
    else (false, TrieNode.node children is_end_of_file)
  | TrieNode.node children is_end_of_file, c :: rest =>
    if (trie_delete_helper (children c.toNat) rest).1 then
      (is_end_of_file == false,
        TrieNode.node (Function.update children c.toNat TrieNode.null) is_end_of_file)
    else
      (false,
        TrieNode.node
          (Function.update children c.toNat (trie_delete_helper (children c.toNat) rest).2)
          is_end_of_file)

/-- `trie_delete`, on the root of the trie; the root itself is never freed. -/
def trie_delete (root : TrieNode) (filename : String) : TrieNode :=
  (trie_delete_helper root filename.data).2

/-- One entry of an access list. -/
structure AccessNode where
  username : String
  permission : Char
  deriving DecidableEq, Repr

/-- The search loop of `add_access`: the list with the permission of the first
entry of the user replaced, `none` when the user has no entry. -/
def add_access_loop (username : String) (perm : Char) : List AccessNode → Option (List AccessNode)
  | [] => none
  | curr :: next =>
    if curr.username = username then some ({ curr with permission := perm } :: next)
    else (add_access_loop username perm next).map fun updated => curr :: updated

/-- `add_access`: update the entry of the user, or add a new entry at the head. -/
def add_access (head : List AccessNode) (username : String) (perm : Char) : List AccessNode :=
  match add_access_loop username perm head with
  | some updated => updated
  | none => { username := username, permission := perm } :: head

/-- `remove_access`: unlink the first entry of the user. -/
def remove_access : List AccessNode → String → List AccessNode
  | [], _ => []
  | curr :: next, username =>
    if curr.username = username then next else curr :: remove_access next username

/-- `get_access`: the permission of the first entry of the user, the NUL byte
when there is none. -/
def get_access : List AccessNode → String → Char
  | [], _ => Char.ofNat 0
  | curr :: next, username =>
    if curr.username = username then curr.permission else get_access next username

/-- `FileMetadata`; times are seconds. -/
structure FileMetadata where
  filename : String
  owner : String
  access_list_head : List AccessNode
  ss_ip : String
  ss_client_port : Int
  size : Int
  word_count : Int
  char_count : Int
  created_at : Int
  last_modified : Int
  last_accessed : Int
  deriving DecidableEq, Repr

/-- `HT_SIZE`. -/
def HT_SIZE : Nat := 1024

/-- The hash table: the chain of each bucket. -/
structure HashTable where
  buckets : Nat → List FileMetadata

/-- `ht_create`: every bucket is empty. -/
def ht_create : HashTable :=
  { buckets := fun _ => [] }

/-- Loop of `hash_function` (djb2) on an `unsigned long` of 64 bits, for names
of ASCII bytes. -/
def hash_function_loop (hash : Nat) : List Char → Nat
  | [] => hash
  | c :: rest => hash_function_loop ((hash * 32 + hash + c.toNat) % 2 ^ 64) rest

/-- `hash_function`: the index of the bucket of a key. -/
def hash_function (key : String) : Nat :=
  hash_function_loop 5381 key.data % HT_SIZE

/-- The search loop shared by `ht_insert`, `ht_get` and `ht_delete`: the first
metadata of the chain with the file name. -/
def chain_find (filename : String) : List FileMetadata → Option FileMetadata
  | [] => none
  | curr :: next => if curr.filename = filename then some curr else chain_find filename next

/-- `ht_insert`: `false` (`0`) and no change when the bucket holds the file
name, else the metadata becomes the head of its bucket. -/
def ht_insert (table : HashTable) (metadata : FileMetadata) : Bool × HashTable :=
  match chain_find metadata.filename (table.buckets (hash_function metadata.filename)) with
  | some _ => (false, table)
  | none =>
    (true, HashTable.mk (Function.update table.buckets (hash_function metadata.filename)
      (metadata :: table.buckets (hash_function metadata.filename))))

/-- `ht_get`. -/
def ht_get (table : HashTable) (filename : String) : Option FileMetadata :=
  chain_find filename (table.buckets (hash_function filename))

/-- Loop of `ht_delete`: unlink the first metadata with the file name. -/
def chain_delete (filename : String) : List FileMetadata → List FileMetadata
  | [] => []
  | curr :: next =>
    if curr.filename = filename then next else curr :: chain_delete filename next

/-- `ht_delete`. -/
def ht_delete (table : HashTable) (filename : String) : HashTable :=
  HashTable.mk (Function.update table.buckets (hash_function filename)
    (chain_delete filename (table.buckets (hash_function filename))))

/-- A write through the pointer `ht_get` returned: the first metadata of the
chain with the file name is replaced. -/
def chain_store (metadata : FileMetadata) : List FileMetadata → List FileMetadata
  | [] => []
  | curr :: next =>
    if curr.filename = metadata.filename then metadata :: next
    else curr :: chain_store metadata next

/-- The table after the fields of a metadata record it holds were written in
place. -/
def ht_store (table : HashTable) (metadata : FileMetadata) : HashTable :=
  HashTable.mk (Function.update table.buckets (hash_function metadata.filename)
    (chain_store metadata (table.buckets (hash_function metadata.filename))))

/-! ## Name server (`name_server.h`, `ss_handler.c`, `client_handler.c`) -/

/-- A connected storage server. -/
structure StorageServerInfo where
  socket : Int
  ip : String
  client_port : Int
  deriving DecidableEq, Repr

/-- The state of the name server the command handlers read and write: the file
table, the root of the file trie, the live storage servers (newest first), the
users ever seen and the round-robin counter. -/
structure NameServer where
  file_table : HashTable
  file_trie : TrieNode
  ss_list_head : List StorageServerInfo
  all_users_list : List String
  next_ss_index : Int

/-- Result of a command: the reply sent to the client, the new state, and the
messages sent to storage servers, each with the socket it is sent on. The write
of the metadata file that follows a change is not part of the state. -/
structure CommandResult where
  reply : String
  nm : NameServer
  sent : List (Int × String)

/-- `get_ss_for_new_file`: round-robin over the live storage servers. -/
def get_ss_for_new_file (nm : NameServer) : Option StorageServerInfo × NameServer :=
  if nm.ss_list_head = [] then (none, nm)
  else
    let count : Int := nm.ss_list_head.length
    let next_ss_index := if nm.next_ss_index ≥ count then 0 else nm.next_ss_index
    (nm.ss_list_head.get? next_ss_index.toNat, { nm with next_ss_index := next_ss_index + 1 })

/-- `check_access`: the owner has every permission, a `W` grant gives both, an
`R` grant gives `R`. -/
def check_access (metadata : FileMetadata) (username : String) (required_perm : Char) : Bool :=
  if metadata.owner = username then true
  else
    let perm := get_access metadata.access_list_head username
    if required_perm = 'R' ∧ (perm = 'R' ∨ perm = 'W') then true
    else if required_perm = 'W' ∧ perm = 'W' then true
    else false

/-- The loop over the live storage servers in `handle_read_write_stream` and in
the DELETE branch: the first one with the ip and port of the metadata. -/
def find_ss (ip : String) (client_port : Int) : List StorageServerInfo → Option StorageServerInfo
  | [] => none
  | ss :: next =>
    if ss.ip = ip ∧ ss.client_port = client_port then some ss else find_ss ip client_port next

/-- `handle_read_write_stream`, for the arguments `args` of the command (the
command name first) at time `now`. -/
def handle_read_write_stream (nm : NameServer) (username : String) (args : List String)
    (now : Int) : CommandResult :=
  match args with
  | cmd :: filename :: _ =>
    match ht_get nm.file_table filename with
    | none => { reply := "404 ERROR: File not found.", nm := nm, sent := [] }
    | some meta =>
      let perm : Char := if cmd = "WRITE" ∨ cmd = "UNDO" then 'W' else 'R'
      if check_access meta username perm = false then
        { reply := "401 ERROR: " ++ String.singleton perm ++ " access denied.",
          nm := nm, sent := [] }
      else
        let meta := { meta with last_accessed := now }
        let nm := { nm with file_table := ht_store nm.file_table meta }
        match find_ss meta.ss_ip meta.ss_client_port nm.ss_list_head with
        | none =>
          { reply := "503 ERROR: Storage server for this file is offline.",
            nm := nm, sent := [] }
        | some _ =>
          { reply := "202 OK " ++ meta.ss_ip ++ ":" ++ toString meta.ss_client_port,
            nm := nm, sent := [] }
  | _ => { reply := "400 ERROR: Missing filename.", nm := nm, sent := [] }

/-- `handle_create_delete`, for the arguments `args` of the command at time
`now`; `is_create` tells CREATE from DELETE. -/
def handle_create_delete (nm : NameServer) (username : String) (args : List String)
    (is_create : Bool) (now : Int) : CommandResult :=
  match args with
  | _ :: filename :: _ =>
    if is_create then
      match ht_get nm.file_table filename with
      | some _ => { reply := "409 ERROR: File already exists.", nm := nm, sent := [] }
      | none =>
        match get_ss_for_new_file nm with
        | (none, nm) =>
          { reply := "503 ERROR: No storage servers available.", nm := nm, sent := [] }
        | (some ss, nm) =>
          let meta : FileMetadata :=
            { filename := filename, owner := username,
              access_list_head := add_access [] username 'W',
              ss_ip := ss.ip, ss_client_port := ss.client_port,
              size := 0, word_count := 0, char_count := 0,
              created_at := now, last_modified := now, last_accessed := now }
          { reply := "201 OK: File created successfully!",
            nm := { nm with
              file_table := (ht_insert nm.file_table meta).2
              file_trie := trie_insert nm.file_trie filename },
            sent := [(ss.socket, "CREATE " ++ filename)] }
    else
      match ht_get nm.file_table filename with
      | none => { reply := "404 ERROR: File not found.", nm := nm, sent := [] }
      | some meta =>
        if meta.owner ≠ username then
          { reply := "401 ERROR: Only the owner can delete a file.", nm := nm, sent := [] }
        else
          { reply := "200 OK: File deleted successfully.",
            nm := { nm with
              file_table := ht_delete nm.file_table filename
              file_trie := trie_delete nm.file_trie filename },
            sent :=
              match find_ss meta.ss_ip meta.ss_client_port nm.ss_list_head with
              | some ss => [(ss.socket, "DELETE " ++ filename)]
              | none => [] }
  | _ => { reply := "400 ERROR: Usage: CREATE/DELETE <filename>", nm := nm, sent := [] }

/-- The parsing step of `handle_access`: the file name, the target user and the
permission flag of a well-formed command, else the reply that refuses it. -/
def parse_access (args : List String) : Except String (String × String × Char) :=
  if args.head? = some "ADDACCESS" ∧ args.length = 4 then
    let perm : Char :=
      if args.getD 1 "" = "-W" then 'W' else if args.getD 1 "" = "-R" then 'R' else Char.ofNat 0
    if perm = Char.ofNat 0 then
      Except.error "400 ERROR: Invalid permission flag. Use -R or -W."
    else Except.ok (args.getD 2 "", args.getD 3 "", perm)
  else if args.head? = some "REMACCESS" ∧ args.length = 3 then
    Except.ok (args.getD 1 "", args.getD 2 "", Char.ofNat 0)
  else
    Except.error ("400 ERROR: Usage:\n  ADDACCESS -R|-W <filename> <username>\n"
      ++ "  REMACCESS <filename> <username>")

/-- `handle_access`, for the arguments `args` of an ADDACCESS or REMACCESS
command. -/
def handle_access (nm : NameServer) (username : String) (args : List String) :
    CommandResult :=
  match parse_access args with
  | Except.error reply => { reply := reply, nm := nm, sent := [] }
  | Except.ok (filename, target_user, perm) =>
    match ht_get nm.file_table filename with
    | none => { reply := "404 ERROR: File not found.", nm := nm, sent := [] }
    | some meta =>
      if meta.owner ≠ username then
        { reply := "401 ERROR: Only the owner can change permissions.", nm := nm, sent := [] }
      else if args.head? = some "ADDACCESS" then
        let meta := { meta with
          access_list_head := add_access meta.access_list_head target_user perm }
        { reply := "200 OK: Access granted.",
          nm := { nm with file_table := ht_store nm.file_table meta }, sent := [] }
      else
        let meta := { meta with
          access_list_head := remove_access meta.access_list_head target_user }
        { reply := "200 OK: Access removed.",
          nm := { nm with file_table := ht_store nm.file_table meta }, sent := [] }

/-- `nm_create` before it loads the saved state: an empty file table, a trie of
its root alone, no storage server, no user, the round-robin counter at 0. -/
def nm_create_empty : NameServer :=
  { file_table := ht_create, file_trie := trie_create_node, ss_list_head := [],
    all_users_list := [], next_ss_index := 0 }

/-! ## Registration of a storage server (`ss_handler.c`) -/

/-- Loop of `atoi` of the C library over the digits: the value read so far is
`acc`; reading stops at the first byte that is not a digit. -/
def atoi_loop (acc : Int) : List Char → Int
  | [] => acc
  | c :: rest =>
    if '0' ≤ c ∧ c ≤ '9' then atoi_loop (acc * 10 + (c.toNat - 48 : Nat)) rest else acc

/-- `atoi` (and `atol`) of the C library, for values in range: leading white
space is skipped, an optional sign is read, then the digits. -/
def atoi (s : List Char) : Int :=
  match s.dropWhile isspace with
  | '-' :: rest => - atoi_loop 0 rest
  | '+' :: rest => atoi_loop 0 rest
  | rest => atoi_loop 0 rest

/-- `add_ss`: the new storage server becomes the head of the live list. -/
def add_ss (nm : NameServer) (sock : Int) (ip : String) (client_port : Int) : NameServer :=
  { nm with ss_list_head := { socket := sock, ip := ip, client_port := client_port }
      :: nm.ss_list_head }

/-- The loop of `remove_ss`: unlink the first storage server on the socket. -/
def remove_ss_loop (sock : Int) : List StorageServerInfo → List StorageServerInfo
  | [] => []
  | curr :: next => if curr.socket = sock then next else curr :: remove_ss_loop sock next

/-- `remove_ss`. -/
def remove_ss (nm : NameServer) (sock : Int) : NameServer :=
  { nm with ss_list_head := remove_ss_loop sock nm.ss_list_head }

/-- The parsing steps of `nm_handle_ss_init` on the message received: the client
port and the advertised file names of `INIT_SS <client_port> [file1,file2]`,
none when the message is refused. The third word loses its last byte and its
first byte and is then split at the commas. -/
def parse_init_ss (buffer : List Char) : Option (Int × List String) :=
  match split_string buffer ' ' with
  | cmd :: client_port :: file_list_str :: _ =>
    if cmd ≠ "INIT_SS".toList then none
    else
      some (atoi client_port,
        (split_string (file_list_str.dropLast.drop 1) ',').map fun file => String.mk file)
  | _ => none

/-- The metadata with its location replaced. -/
def with_location (metadata : FileMetadata) (ss_ip : String) (ss_client_port : Int) :
    FileMetadata :=
  { metadata with ss_ip := ss_ip, ss_client_port := ss_client_port }

/-- The loop of `nm_handle_ss_init` over the advertised files: a file that has
metadata gets the location of the new storage server, a file that has none is
logged as an orphan. -/
def reconcile_files (ss_ip : String) (client_port : Int) :
    HashTable → List String → HashTable
  | table, [] => table
  | table, file :: rest =>
    match ht_get table file with
    | some meta =>
      reconcile_files ss_ip client_port
        (ht_store table (with_location meta ss_ip client_port)) rest
    | none => reconcile_files ss_ip client_port table rest

/-- Result of a registration: the reply sent to the storage server when its
message is refused, and the new state. -/
structure SsInitResult where
  reply : Option String
  nm : NameServer

/-- `nm_handle_ss_init` on the first message `buffer` of a storage server
connected from `ss_ip` on socket `ss_sock`. -/
def nm_handle_ss_init (nm : NameServer) (ss_sock : Int) (ss_ip : String)
    (buffer : List Char) : SsInitResult :=
  match parse_init_ss buffer with
  | none => { reply := some "400 ERROR: Invalid INIT_SS", nm := nm }
  | some (client_port, files) =>
    let nm := add_ss nm ss_sock ss_ip client_port
    { reply := none,
      nm := { nm with file_table := reconcile_files ss_ip client_port nm.file_table files } }

/-- The records `handle_view` and `nm_save_files` visit, in the order of their
loops: bucket after bucket, each chain from its head. -/
def ht_entries (table : HashTable) : List FileMetadata :=
  (List.range HT_SIZE).flatMap table.buckets

/-- The file names `handle_view` lists for a user: of the records visited, those
the user may read, or all of them with the flag `a`. -/
def view_names (nm : NameServer) (username : String) (show_all : Bool) : List String :=
  ((ht_entries nm.file_table).filter fun meta =>
    show_all || check_access meta username 'R').map fun meta => meta.filename

/-! ## The saved state of the name server (`persistence.c`) -/

/-- The conversion `%d` (and `%ld`) of `fprintf`: the decimal digits, after a
minus sign for a negative number. -/
def print_int (n : Int) : List Char :=
  (toString n).data

/-- The loop of `nm_save_files` over an access list: `%s,%c;` for each entry. -/
def save_access_list : List AccessNode → List Char
  | [] => []
  | anode :: next =>
    anode.username.data ++ [','] ++ [anode.permission] ++ [';'] ++ save_access_list next

/-- The line `nm_save_files` writes for one record:
`filename|owner|ss_ip|ss_port|access_list|size|words|chars|mod_time` and a line
feed. -/
def save_record (meta : FileMetadata) : List Char :=
  meta.filename.data ++ ['|'] ++ meta.owner.data ++ ['|'] ++ meta.ss_ip.data ++ ['|']
    ++ print_int meta.ss_client_port ++ ['|']
    ++ save_access_list meta.access_list_head
    ++ ['|'] ++ print_int meta.size ++ ['|'] ++ print_int meta.word_count ++ ['|']
    ++ print_int meta.char_count ++ ['|'] ++ print_int meta.last_modified ++ ['\n']

/-- `nm_save_files`: the text written to the metadata file when it can be
opened, one line for each record of the file table. -/
def nm_save_files (nm : NameServer) : List Char :=
  ((ht_entries nm.file_table).map save_record).flatten

/-- `BUFFER_SIZE` of `common.h`, the size of the line buffer of
`nm_load_files`. -/
def BUFFER_SIZE : Nat := 4096

/-- The strings successive calls of `fgets(line, BUFFER_SIZE, f)` return: a call
stops after a line feed or when it has read `BUFFER_SIZE - 1` bytes, so a longer
line comes in pieces; the rest after the last line feed is returned when it is
not empty. `cur` is the string being read. -/
def fgets_lines_loop (cur : List Char) : List Char → List (List Char)
  | [] => if cur = [] then [] else [cur]
  | c :: rest =>
    if c = '\n' ∨ cur.length + 1 = BUFFER_SIZE - 1 then
      (cur ++ [c]) :: fgets_lines_loop [] rest
    else fgets_lines_loop (cur ++ [c]) rest

/-- The strings `fgets` returns on a file, call after call. -/
def fgets_lines (text : List Char) : List (List Char) :=
  fgets_lines_loop [] text

/-- `trim_newline`: the string is cut at its first `\r` or `\n`. -/
def trim_newline (str : List Char) : List Char :=
  str.takeWhile fun c => c != '\r' && c != '\n'

/-- The loop of `nm_load_files` over the entries of the access field: an entry
of two parts is added with `add_access`, the permission being the first byte of
the second part. -/
def load_access_list (head : List AccessNode) : List (List Char) → List AccessNode
  | [] => head
  | access_part :: rest =>
    match split_string access_part ',' with
    | [user, perm] =>
      load_access_list (add_access head (String.mk user) (first_char perm)) rest
    | _ => load_access_list head rest

/-- The body of the loop of `nm_load_files` on one line, already trimmed: the
record it builds, none when the line has fewer than 9 fields. -/
def load_record (line : List Char) (now : Int) : Option FileMetadata :=
  match split_string line '|' with
  | filename :: owner :: ss_ip :: ss_port :: access :: size :: words :: chars :: mod_time
      :: _ =>
    some
      { filename := String.mk filename, owner := String.mk owner, ss_ip := String.mk ss_ip,
        ss_client_port := atoi ss_port,
        access_list_head :=
          load_access_list (add_access [] (String.mk owner) 'W') (split_string access ';'),
        size := atoi size, word_count := atoi words, char_count := atoi chars,
        last_modified := atoi mod_time, created_at := now, last_accessed := now }
  | _ => none

/-- The loop of `nm_load_files` over the lines of the file. -/
def nm_load_files_loop (now : Int) : NameServer → List (List Char) → NameServer
  | nm, [] => nm
  | nm, line :: rest =>
    match load_record (trim_newline line) now with
    | none => nm_load_files_loop now nm rest
    | some meta =>
      nm_load_files_loop now
        { nm with
          file_table := (ht_insert nm.file_table meta).2
          file_trie := trie_insert nm.file_trie meta.filename }
        rest

/-- `nm_load_files` at time `now`: `file` is the text of the metadata file, none
when the file cannot be opened. -/
def nm_load_files (nm : NameServer) (file : Option (List Char)) (now : Int) : NameServer :=
  match file with
  | none => nm
  | some text => nm_load_files_loop now nm (fgets_lines text)

/-! ## Shapes of sentences and words -/

/-- A complete sentence: text without delimiter followed by one delimiter. -/
def Complete (s : List Char) : Prop :=
  ∃ body d, s = body ++ [d] ∧ is_delimiter d = true ∧ ∀ c ∈ body, is_delimiter c = false

/-- The sentence does not start with whitespace. -/
def NoWsHead (s : List Char) : Prop :=
  ∀ c, s.head? = some c → isspace c = false

/-- Shape of a sentence list produced by the tokenizer: every sentence but the
last is complete, the last one is complete or a non-empty text without
delimiter; no sentence starts with whitespace, the first one excepted when
`strict` is `false`. -/
inductive WellFormed : Bool → List (List Char) → Prop
  | nil (strict : Bool) : WellFormed strict []
  | last (strict : Bool) (s : List Char) : s ≠ [] → (∀ c ∈ s, is_delimiter c = false) →
      (strict = true → NoWsHead s) → WellFormed strict [s]
  | cons (strict : Bool) (s : List Char) (rest : List (List Char)) : Complete s →
      (strict = true → NoWsHead s) → WellFormed true rest → WellFormed strict (s :: rest)

/-- Does the text end with a delimiter? -/
def ends_with_delimiter (s : List Char) : Bool :=
  match s.getLast? with
  | some c => is_delimiter c
  | none => false

/-- The words the word round trip is stated for: non-empty, without whitespace,
and either one delimiter or free of delimiters. -/
def GoodWord (w : List Char) : Prop :=
  w ≠ [] ∧ (∀ c ∈ w, isspace c = false) ∧
    ((w.length = 1 ∧ ∀ c ∈ w, is_delimiter c = true) ∨ ∀ c ∈ w, is_delimiter c = false)

instance (w : List Char) : Decidable (GoodWord w) := by
  unfold GoodWord
  infer_instance

/-- Does the word start with a delimiter? -/
def starts_with_delimiter (w : List Char) : Bool :=
  match w.head? with
  | some c => is_delimiter c
  | none => false

/-! ## Formulations of the specification -/

/-- The joining rule in the words of the specification: the words in order, each
word after the first preceded by one space unless its first character is a
delimiter. -/
def join_words_spec : List (List Char) → List Char
  | [] => []
  | w :: rest =>
    w ++ (rest.map fun v => if starts_with_delimiter v then v else ' ' :: v).flatten

/-- The last non-whitespace byte of a sentence, if it has one. -/
def last_non_whitespace (s : List Char) : Option Char :=
  (s.filter fun c => !isspace c).getLast?

/-- The largest valid index in the words of the specification: `0` for no
sentence, the sentence count when the last non-whitespace byte of the last
sentence is a delimiter, the count minus one when it is not (also when the
sentence has no such byte). -/
def max_valid_spec (content : List Char) : Int :=
  match (split_into_sentences content).getLast? with
  | none => 0
  | some last =>
    match last_non_whitespace last with
    | some c =>
      if is_delimiter c then (split_into_sentences content).length
      else (split_into_sentences content).length - 1
    | none => (split_into_sentences content).length - 1

/-- The number of words of the sentence an update targets; the sentence one past
the end is the empty sentence an append starts from. -/
def target_word_count (content : List Char) (sent_num : Int) : Int :=
  (split_into_words ((split_into_sentences content).getD sent_num.toNat [])).length

/-- The left fold of `apply_single_update` over the updates, in arrival order. -/
def fold_updates (content : List Char) (n : Int) (updates : List UpdateNode) :
    Option (List Char) :=
  updates.foldlM (fun c u => apply_single_update c n u.word_idx u.content) content

/-- What a client asks of one WRITE session: the sentence index and the updates
it sends before `ETIRW`. -/
structure WriteRequest where
  sent_num : Int
  updates : List UpdateNode
  deriving DecidableEq, Repr

/-- One whole WRITE session with nothing in between its start and its commit,
on a file that can be written. -/
def run_session (f : String) (ss : StorageServer) (req : WriteRequest) : StorageServer :=
  match (handle_ss_write_begin ss f req.sent_num).session with
  | none => (handle_ss_write_begin ss f req.sent_num).ss
  | some sess =>
    (handle_ss_write_commit (handle_ss_write_begin ss f req.sent_num).ss sess req.updates true).ss

/-- The file after one session as a function of the file before it and of the
request alone: unchanged when the index is refused or an update fails, else the
fold of the updates. -/
def session_result (file : Option (List Char)) (req : WriteRequest) : Option (List Char) :=
  if req.sent_num < 0 ∨ req.sent_num > max_valid_index (file.getD []) then file
  else
    match fold_updates (file.getD []) req.sent_num req.updates with
    | some final => some final
    | none => file

/-! ## Sessions seen from one another -/

/-- The lock pair of a session: its file and the sentence index it asked for. -/
def WriteSession.lock (sess : WriteSession) : SentenceLockNode :=
  ⟨sess.filename, sess.sent_num⟩

/-- The lock list holds exactly the requested pairs of the open sessions, once
each. -/
def LocksMatchSessions (s : World) : Prop :=
  s.ss.sentence_locks_head.Nodup ∧ (s.open_sessions.map WriteSession.lock).Nodup ∧
    ∀ k, k ∈ s.ss.sentence_locks_head ↔ k ∈ s.open_sessions.map WriteSession.lock

/-- The commit of one session: the session, the updates it buffered, whether
the backup can be written and whether the file can be written. -/
structure SessionCommit where
  sess : WriteSession
  updates : List UpdateNode
  backup_ok : Bool
  fopen_ok : Bool
  deriving DecidableEq, Repr

/-- The server after the commit `c`. -/
def after_commit (ss : StorageServer) (c : SessionCommit) : StorageServer :=
  (handle_ss_write_commit_at c.sess.filename (c.sess.filename ++ ".undo") c.backup_ok ss
    c.sess c.updates c.fopen_ok).ss

/-- The server after a sequence of commits, in order. -/
def run_commits (ss : StorageServer) (commits : List SessionCommit) : StorageServer :=
  commits.foldl after_commit ss

/-- The sentences of file `f`, an absent file counting as empty. -/
def file_sentences (ss : StorageServer) (f : String) : List (List Char) :=
  split_into_sentences ((get_file_content ss.disk f).getD [])

/-- The last `k` sentences of a list. -/
def last_sentences (k : Nat) (sentences : List (List Char)) : List (List Char) :=
  sentences.drop (sentences.length - k)

/-- Seen from the open session `mine`, the commit `c` made in state `ss` leaves
the sentence of `mine` in place. The commit is on the file of `mine`. When its
translated index is below the translated index of `mine`, the sentences from
the one of `mine` to the end of the file are after the commit what they were
before it; else the sentences up to and including the one of `mine` are what
they were. And when the commit changes the number of sentences, its translated
index is below the index `mine` asked for, so that the log counts it for
`mine`, or it is the translated index of `mine` or above it. A commit that
writes nothing meets all three. -/
def keeps_in_place (mine : WriteSession) (ss : StorageServer) (c : SessionCommit) : Bool :=
  decide (c.sess.filename = mine.filename) &&
    (if effective_target ss c.sess < effective_target ss mine then
      decide (last_sentences
          ((file_sentences ss mine.filename).length - (effective_target ss mine).toNat)
          (file_sentences (after_commit ss c) mine.filename)
        = last_sentences
          ((file_sentences ss mine.filename).length - (effective_target ss mine).toNat)
          (file_sentences ss mine.filename))
    else
      decide ((file_sentences (after_commit ss c) mine.filename).take
          ((effective_target ss mine).toNat + 1)
        = (file_sentences ss mine.filename).take ((effective_target ss mine).toNat + 1))) &&
    (decide ((file_sentences (after_commit ss c) mine.filename).length
        = (file_sentences ss mine.filename).length) ||
      decide (effective_target ss c.sess < mine.sent_num) ||
      decide (effective_target ss mine ≤ effective_target ss c.sess))

/-- Every commit of the sequence, made in the state the commits before it
produce, leaves the sentence of the session `mine` in place. -/
def leave_in_place (mine : WriteSession) : StorageServer → List SessionCommit → Bool
  | _, [] => true
  | ss, c :: rest => keeps_in_place mine ss c && leave_in_place mine (after_commit ss c) rest

/-- Every update of the list, applied in order to sentence `m`, has a word index
within the sentence and before its last word. -/
def inserts_before_last_word (content : List Char) (m : Int) : List UpdateNode → Bool
  | [] => true
  | u :: rest =>
    decide (0 ≤ u.word_idx) && decide (u.word_idx < target_word_count content m) &&
      match apply_single_update content m u.word_idx u.content with
      | some next => inserts_before_last_word next m rest
      | none => true

/-- The state of file `f` seen from a session opened on sentence `n` when the
next log id was `k`: the sentence `sx` of the session is in the file, at the
translated index, which is not below `n`. -/
def Tracks (f : String) (n : Nat) (k : Int) (sx : List Char) (st : StorageServer) : Prop :=
  ∃ q r : List (List Char),
    file_sentences st f = q ++ sx :: r ∧
      (n : Int) + get_sentence_shift st f n k = q.length ∧ n ≤ q.length ∧
      (∀ e ∈ st.mod_log_head, e.id < st.next_log_id) ∧ k ≤ st.next_log_id

/-! ## Examples -/

/-- The storage directory of the examples: `a.txt` holds `content`. -/
def example_disk (content : List Char) : Disk :=
  fun f => if f = "a.txt" then some content else none

/-- The server of scenario S3: `a.txt` holds `hello world.` and sentence 0 is
locked by a first writer. -/
def S3_server : StorageServer :=
  (handle_ss_write_begin (ss_create (example_disk "hello world.".toList)) "a.txt" 0).ss

/-- Scenario S4, the server once writer X (sentence 2) and writer Y (sentence 0)
have both started on `A. B. C.`. -/
def S4_started : BeginResult :=
  handle_ss_write_begin
    (handle_ss_write_begin (ss_create (example_disk "A. B. C.".toList)) "a.txt" 2).ss "a.txt" 0

/-- Scenario S4, the commit of writer Y with the update `(0, "start.")`. -/
def S4_commit_Y : CommitResult :=
  handle_ss_write_commit S4_started.ss ⟨"a.txt", 0, 0⟩ [⟨0, "start.".toList⟩] true

/-- Scenario S4, the commit of writer X with the update `(0, "!")`. -/
def S4_commit_X : CommitResult :=
  handle_ss_write_commit S4_commit_Y.ss ⟨"a.txt", 2, 0⟩ [⟨0, "!".toList⟩] true

/-- A reachable state with two open sessions on one sentence: on `A. B. C.`,
X opens sentence 2, Y opens sentence 0 and commits `(0, "start.")`, then Z opens
sentence 3. -/
def shifted_overlap : World :=
  (((World.mk (ss_create (example_disk "A. B. C.".toList)) []).begin "a.txt" 2).begin "a.txt" 0
    |>.commit ⟨"a.txt", 0, 0⟩ [⟨0, "start.".toList⟩] true).begin "a.txt" 3

/-- The server of the drift example: on `A. B.`, X has opened sentence 1 and Y
has opened sentence 0. -/
def drift_started : BeginResult :=
  handle_ss_write_begin
    (handle_ss_write_begin (ss_create (example_disk "A. B.".toList)) "a.txt" 1).ss "a.txt" 0

/-- The drift example, the commit of Y with the update `(2, "x")`, which puts
`x` after the delimiter of sentence 0. -/
def drift_commit_Y : CommitResult :=
  handle_ss_write_commit drift_started.ss ⟨"a.txt", 0, 0⟩ [⟨2, "x".toList⟩] true

/-- The gap example: on `A. B. C. D.`, X has opened sentence 3, Z sentence 2
and Y sentence 0. -/
def gap_started : BeginResult :=
  handle_ss_write_begin
    (handle_ss_write_begin
      (handle_ss_write_begin (ss_create (example_disk "A. B. C. D.".toList)) "a.txt" 3).ss
      "a.txt" 2).ss
    "a.txt" 0

/-- The gap example, the commit of Y with the update `(0, "s.")`. -/
def gap_commit_Y : CommitResult :=
  handle_ss_write_commit gap_started.ss ⟨"a.txt", 0, 0⟩ [⟨0, "s.".toList⟩] true

/-- The gap example, the commit of Z with the update `(0, "x.")`: the sentence
Z asked for is now at index 3, the index X asked for. -/
def gap_commit_Z : CommitResult :=
  handle_ss_write_commit gap_commit_Y.ss ⟨"a.txt", 2, 0⟩ [⟨0, "x.".toList⟩] true

/-- The overlap example: from `shifted_overlap`, where X is open on sentence 2
of what was `A. B. C.` and Z has opened sentence 3 of `start. A. B. C.`, Z
commits the update `(0, "!")` on the sentence X holds. -/
def overlap_commit_Z : CommitResult :=
  handle_ss_write_commit shifted_overlap.ss ⟨"a.txt", 3, 1⟩ [⟨0, "!".toList⟩] true

/-- Four commits of other sessions while X is open on sentence 2 of
`A. B. C. D.`: a whole sentence put after sentence 1, a word put after
sentence 0, a commit that fails, and a sentence appended to the file. -/
def commits_in_place : List SessionCommit :=
  [⟨⟨"a.txt", 1, 0⟩, [⟨2, "x.".toList⟩], true, true⟩,
    ⟨⟨"a.txt", 0, 0⟩, [⟨2, "y".toList⟩], true, true⟩,
    ⟨⟨"a.txt", 0, 0⟩, [⟨9, "z".toList⟩], true, true⟩,
    ⟨⟨"a.txt", 5, 1⟩, [⟨0, "end.".toList⟩], false, true⟩]

/-! ## Joining sentences, as worded -/

/-- Does the text start with a space? -/
def starts_with_space (s : List Char) : Bool :=
  match s.head? with
  | some c => c == ' '
  | none => false

/-- Does the text start with a whitespace character? -/
def starts_with_whitespace (s : List Char) : Bool :=
  match s.head? with
  | some c => isspace c
  | none => false

/-- A joining rule in the words of the specification: the sentences in order,
each sentence after the first preceded by one space unless `suppress` holds of
it. -/
def join_with_space_unless (suppress : List Char → Bool) : List (List Char) → List Char
  | [] => []
  | s :: rest => s ++ (rest.map fun t => if suppress t then t else ' ' :: t).flatten

/-! ## Undo and the log: formulations and examples -/

/-- Scenario S1: `a.txt` is empty, a writer opens sentence 0 and commits the
update `(0, "hello world.")`. -/
def S1_commit : CommitResult :=
  handle_ss_write_commit
    (handle_ss_write_begin (ss_create (example_disk [])) "a.txt" 0).ss
    ⟨"a.txt", 0, 0⟩ [⟨0, "hello world.".toList⟩] true

/-- Scenario S5: on `hello world.` a writer opens sentence 0 and commits two
updates. -/
def S5_commit : CommitResult :=
  handle_ss_write_commit S3_server ⟨"a.txt", 0, 0⟩
    [⟨0, "oh".toList⟩, ⟨4, "again. bye".toList⟩] true

/-- Scenario S5 when the backup `a.txt.undo` cannot be written. -/
def S5_commit_without_backup : CommitResult :=
  handle_ss_write_commit_at "a.txt" "a.txt.undo" false S3_server ⟨"a.txt", 0, 0⟩
    [⟨0, "oh".toList⟩, ⟨4, "again. bye".toList⟩] true

/-- The sum of `sentence_delta` over the log entries of file `f`. -/
def log_delta_sum (ss : StorageServer) (f : String) : Int :=
  ((ss.mod_log_head.filter fun e => e.filename = f).map fun e => e.sentence_delta).sum

/-- The number of sentences of file `f`, an absent file counting as empty. -/
def sentence_count (ss : StorageServer) (f : String) : Int :=
  (split_into_sentences ((get_file_content ss.disk f).getD [])).length

/-- A file name without `/`: the path `storage_path/filename` then names the
file of that name in the storage directory, and no other name does. -/
def plain_file_name (filename : String) : Prop :=
  '/' ∉ filename.data

instance (filename : String) : Decidable (plain_file_name filename) := by
  unfold plain_file_name; infer_instance

/-- The states a storage server reaches from the creation of file `f`, at a time
when the log holds no entry of `f`, by WRITE commits and, when `undos` is set,
by UNDOs; commits and UNDOs may be on any file. Files are named by plain file
names, and the backup of a commit may or may not be written. -/
inductive CreatedThen (f : String) (undos : Bool) : StorageServer → Prop
  | created (ss : StorageServer) : plain_file_name f →
      (∀ e ∈ ss.mod_log_head, e.filename ≠ f) →
      CreatedThen f undos (ss_listen_to_nm_create ss f true).2
  | commit {ss : StorageServer} (sess : WriteSession) (updates : List UpdateNode)
      (backup_ok fopen_ok : Bool) : plain_file_name sess.filename → CreatedThen f undos ss →
      CreatedThen f undos
        (handle_ss_write_commit_at sess.filename (sess.filename ++ ".undo") backup_ok ss sess
          updates fopen_ok).ss
  | undo {ss : StorageServer} (filename : String) (rename_ok : Bool) : undos = true →
      CreatedThen f undos ss → CreatedThen f undos (handle_ss_undo ss filename rename_ok).ss

/-- A write, an UNDO and a second write on a file just created: `a.` is written
and undone, then `b.` is written. -/
def write_undo_write : StorageServer :=
  (handle_ss_write_commit
    (handle_ss_undo
      (handle_ss_write_commit (ss_listen_to_nm_create (ss_create (example_disk [])) "a.txt" true).2
        ⟨"a.txt", 0, 0⟩ [⟨0, "a.".toList⟩] true).ss
      "a.txt" true).ss
    ⟨"a.txt", 0, 1⟩ [⟨0, "b.".toList⟩] true).ss

/-- Two writes on a file just created, with no UNDO. -/
def write_write : StorageServer :=
  (handle_ss_write_commit
    (handle_ss_write_commit (ss_listen_to_nm_create (ss_create (example_disk [])) "a.txt" true).2
      ⟨"a.txt", 0, 0⟩ [⟨0, "a. b.".toList⟩] true).ss
    ⟨"a.txt", 1, 1⟩ [⟨1, "! c".toList⟩] true).ss

/-- A run of UNDOs, each with the file it names and whether its `rename`
succeeds. -/
def undo_all (ss : StorageServer) : List (String × Bool) → StorageServer
  | [] => ss
  | (filename, rename_ok) :: rest => undo_all (handle_ss_undo ss filename rename_ok).ss rest

/-- A file is created, `a.` is written to it, it is deleted and created again. -/
def write_delete_create : StorageServer :=
  (ss_listen_to_nm_create
    (ss_listen_to_nm_delete
      (handle_ss_write_commit (ss_listen_to_nm_create (ss_create (example_disk [])) "a.txt" true).2
        ⟨"a.txt", 0, 0⟩ [⟨0, "a.".toList⟩] true).ss
      "a.txt").2
    "a.txt" true).2

/-- Beside `a.txt`, which holds `x. y.`, the file `a.txt.undo` is created; then a
write on `a.txt` commits. -/
def write_beside_backup : StorageServer :=
  (handle_ss_write_commit
    (ss_listen_to_nm_create (ss_create (example_disk "x. y.".toList)) "a.txt.undo" true).2
    ⟨"a.txt", 0, 0⟩ [⟨0, "z".toList⟩] true).ss

/-- A write on the file `a.txt`, just created, by a session that names it
`./a.txt`: the path `storage_path/./a.txt` is the file `a.txt`, the log entry
carries the name the client sent. -/
def write_by_path : StorageServer :=
  (handle_ss_write_commit_at "a.txt" "a.txt.undo" true
    (ss_listen_to_nm_create (ss_create (example_disk [])) "a.txt" true).2
    ⟨"./a.txt", 0, 0⟩ [⟨0, "a.".toList⟩] true).ss

/-! ## Access lists as the specification words them -/

/-- The user names of an access list, in list order. -/
def access_usernames (head : List AccessNode) : List String :=
  head.map fun node => node.username

/-- The access list maps the user to the permission: looked up as an association
list of (user name, permission) pairs. -/
def access_list_maps (head : List AccessNode) (user : String) (perm : Char) : Prop :=
  (head.map fun node => (node.username, node.permission)).lookup user = some perm

instance (head : List AccessNode) (user : String) (perm : Char) :
    Decidable (access_list_maps head user perm) := by
  unfold access_list_maps; infer_instance

/-- An access list with the users alice (`R`), bob (`W`) and carol (`R`). -/
def example_access_list : List AccessNode :=
  [⟨"alice", 'R'⟩, ⟨"bob", 'W'⟩, ⟨"carol", 'R'⟩]

/-- Metadata of `a.txt`, owned by alice, stored on 10.0.0.1:9001, with the
access list given. -/
def example_metadata (access_list_head : List AccessNode) : FileMetadata :=
  { filename := "a.txt", owner := "alice", access_list_head := access_list_head,
    ss_ip := "10.0.0.1", ss_client_port := 9001, size := 0, word_count := 0,
    char_count := 0, created_at := 0, last_modified := 0, last_accessed := 0 }

/-! ## Routing and owner operations, as worded -/

/-- The permission a routed command requires: `W` for WRITE and UNDO, `R` for
READ and STREAM; other commands are not routed. -/
def required_permission (cmd : String) : Option Char :=
  if cmd = "WRITE" ∨ cmd = "UNDO" then some 'W'
  else if cmd = "READ" ∨ cmd = "STREAM" then some 'R'
  else none

/-- A live storage server has the ip and the client port. -/
def storage_server_live (nm : NameServer) (ip : String) (client_port : Int) : Prop :=
  ∃ ss ∈ nm.ss_list_head, ss.ip = ip ∧ ss.client_port = client_port

/-- The status code of a reply: its first three characters. -/
def reply_status (reply : String) : String :=
  String.mk (reply.data.take 3)

/-- A name server that knows alice and bob, holds the file `a.txt` of
`example_metadata` alone, and has the storage servers given. -/
def example_nm (access_list_head : List AccessNode) (ss_list_head : List StorageServerInfo) :
    NameServer :=
  { file_table := (ht_insert ht_create (example_metadata access_list_head)).2,
    file_trie := trie_insert trie_create_node "a.txt",
    ss_list_head := ss_list_head,
    all_users_list := ["bob", "alice"],
    next_ss_index := 0 }

/-- The storage server of `example_metadata`, connected on socket 5. -/
def example_ss : StorageServerInfo :=
  { socket := 5, ip := "10.0.0.1", client_port := 9001 }

/-! ## The shift and the log, as worded -/

/-- The shift in the words of the specification: the sum of `sentence_delta`
over the log entries with an id from `start_id` on, of the file, at an index
below `n`. -/
def shift_spec (log : List ModificationLogNode) (filename : String) (n start_id : Int) : Int :=
  ((log.filter fun e =>
      decide (start_id ≤ e.id ∧ e.filename = filename ∧ e.original_sentence_index < n)).map
    fun e => e.sentence_delta).sum

/-- One operation of the storage server: the start or the commit of a WRITE
session, an UNDO, or a CREATE or DELETE sent by the name server. -/
inductive StorageServerStep : StorageServer → StorageServer → Prop
  | begin (ss : StorageServer) (filename : String) (sent_num : Int) :
      StorageServerStep ss (handle_ss_write_begin ss filename sent_num).ss
  | commit (ss : StorageServer) (sess : WriteSession) (updates : List UpdateNode)
      (fopen_ok : Bool) :
      StorageServerStep ss (handle_ss_write_commit ss sess updates fopen_ok).ss
  | undo (ss : StorageServer) (filename : String) (rename_ok : Bool) :
      StorageServerStep ss (handle_ss_undo ss filename rename_ok).ss
  | create (ss : StorageServer) (filename : String) (fopen_ok : Bool) :
      StorageServerStep ss (ss_listen_to_nm_create ss filename fopen_ok).2
  | delete (ss : StorageServer) (filename : String) :
      StorageServerStep ss (ss_listen_to_nm_delete ss filename).2

/-- The state `s1` is reached from `s0` by operations of the storage server. -/
def ReachedFrom (s0 s1 : StorageServer) : Prop :=
  Relation.ReflTransGen StorageServerStep s0 s1

/-- A log of three entries: two of `a.txt`, one of `b.txt`. -/
def example_log : List ModificationLogNode :=
  [⟨0, "a.txt", 0, 2⟩, ⟨1, "b.txt", 0, 5⟩, ⟨2, "a.txt", 1, 1⟩]

/-- The ids are strictly increasing along the log and all below `next_log_id`. -/
def LogOrdered (ss : StorageServer) : Prop :=
  ss.mod_log_head.Pairwise (fun a b => a.id < b.id) ∧
    ∀ e ∈ ss.mod_log_head, e.id < ss.next_log_id

/-- The log of `s1` is the log of `s0` followed by the entries `added`. -/
def LogAppended (s0 s1 : StorageServer) (added : List ModificationLogNode) : Prop :=
  s1.mod_log_head = s0.mod_log_head ++ added

/-- What one operation does to the log: entries are added at the tail, each with
an id from the former `next_log_id` on and below the new one, which is not
smaller. -/
def StepLog (s0 s1 : StorageServer) : Prop :=
  ∃ added : List ModificationLogNode, LogAppended s0 s1 added ∧
    added.Pairwise (fun a b => a.id < b.id) ∧
    (∀ e ∈ added, s0.next_log_id ≤ e.id ∧ e.id < s1.next_log_id) ∧
    s0.next_log_id ≤ s1.next_log_id

/-! ## Commands of the owner and CREATE, as worded -/

/-- The permission an ADDACCESS flag stands for. -/
def flag_permission (flag : String) : Option Char :=
  if flag = "-R" then some 'R' else if flag = "-W" then some 'W' else none

/-- The metadata with its access list replaced. -/
def with_access_list (metadata : FileMetadata) (access_list_head : List AccessNode) :
    FileMetadata :=
  { metadata with access_list_head := access_list_head }

/-- The name server with its file table replaced. -/
def with_file_table (nm : NameServer) (file_table : HashTable) : NameServer :=
  { nm with file_table := file_table }

/-- The results of `k` consecutive calls of `get_ss_for_new_file`, first call
first. -/
def create_picks (nm : NameServer) : Nat → List (Option StorageServerInfo)
  | 0 => []
  | k + 1 => (get_ss_for_new_file nm).1 :: create_picks (get_ss_for_new_file nm).2 k

/-- The position `get_ss_for_new_file` reads: the counter, snapped to 0 when it
is at or past the number of live storage servers. -/
def snapped_index (nm : NameServer) : Nat :=
  if nm.next_ss_index ≥ (nm.ss_list_head.length : Int) then 0 else nm.next_ss_index.toNat

/-- Three live storage servers. -/
def example_ss_list : List StorageServerInfo :=
  [⟨7, "10.0.0.3", 9003⟩, ⟨6, "10.0.0.2", 9002⟩, ⟨5, "10.0.0.1", 9001⟩]

/-! ## Registration of a storage server: examples -/

/-- Scenario S6: the name server holds `x.txt`, owned by alice, on storage server
A (10.0.0.1:9001), which is not live. -/
def S6_nm : NameServer :=
  { nm_create_empty with
    file_table := (ht_insert ht_create
      ⟨"x.txt", "alice", [⟨"alice", 'W'⟩], "10.0.0.1", 9001, 0, 0, 0, 0, 0, 0⟩).2
    file_trie := trie_insert trie_create_node "x.txt" }

/-- Scenario S6: storage server B (10.0.0.2, client port 9002) registers on
socket 6 and advertises `x.txt` and `y.txt`. -/
def S6_registered : SsInitResult :=
  nm_handle_ss_init S6_nm 6 "10.0.0.2" "INIT_SS 9002 [x.txt,y.txt]".toList

/-- Storage server B registers and advertises `a.txt` while the example name
server holds `a.txt` on storage server A, which is live. -/
def second_registration : SsInitResult :=
  nm_handle_ss_init (example_nm example_access_list [example_ss]) 6 "10.0.0.2"
    "INIT_SS 9002 [a.txt]".toList

/-- Two records that differ at most in their location. -/
def SameButLocation (m1 m2 : FileMetadata) : Prop :=
  m1.filename = m2.filename ∧ m1.owner = m2.owner ∧
    m1.access_list_head = m2.access_list_head ∧ m1.size = m2.size ∧
    m1.word_count = m2.word_count ∧ m1.char_count = m2.char_count ∧
    m1.created_at = m2.created_at ∧ m1.last_modified = m2.last_modified ∧
    m1.last_accessed = m2.last_accessed

/-! ## The trie after CREATE and DELETE -/

/-- A name server just created, with the example storage server connected. -/
def nm_one_ss : NameServer :=
  { nm_create_empty with ss_list_head := [example_ss] }

/-- Alice creates `ab` and then `ac`. -/
def created_ab_ac : NameServer :=
  (handle_create_delete
    (handle_create_delete nm_one_ss "alice" ["CREATE", "ab"] true 7).nm
    "alice" ["CREATE", "ac"] true 8).nm

/-- Alice then deletes `ab`. -/
def deleted_ab : CommandResult :=
  handle_create_delete created_ab_ac "alice" ["DELETE", "ab"] false 9

/-! ## Text without its whitespace -/

/-- The text with all whitespace removed. -/
def remove_whitespace (s : List Char) : List Char :=
  s.filter fun c => !isspace c

/-- The texts of a list, each without its whitespace, one after the other. -/
def remove_whitespace_all (l : List (List Char)) : List Char :=
  (l.map remove_whitespace).flatten

/-! ## Persistence, as worded -/

/-- A name that can be saved: not empty and without `|`, `,`, `;` or a line
break. -/
def PlainName (s : String) : Prop :=
  s.data ≠ [] ∧ ∀ c ∈ s.data, c ≠ '|' ∧ c ≠ ',' ∧ c ≠ ';' ∧ c ≠ '\n' ∧ c ≠ '\r'

/-- The name server after a restart: `nm_load_files` at time `now` on the text
`nm_save_files` wrote for `nm`. -/
def reloaded (nm : NameServer) (now : Int) : NameServer :=
  nm_load_files nm_create_empty (some (nm_save_files nm)) now

/-- Alice creates `a.txt` and then removes her own entry from its access
list. -/
def owner_unlisted : NameServer :=
  (handle_access (handle_create_delete nm_one_ss "alice" ["CREATE", "a.txt"] true 7).nm
    "alice" ["REMACCESS", "a.txt", "alice"]).nm

/-- Alice creates `a.txt` and then grants herself `R`. -/
def owner_reads : NameServer :=
  (handle_access (handle_create_delete nm_one_ss "alice" ["CREATE", "a.txt"] true 7).nm
    "alice" ["ADDACCESS", "-R", "a.txt", "alice"]).nm

/-- Alice creates `a.txt` and grants bob `R`. -/
def shared_file : NameServer :=
  (handle_access (handle_create_delete nm_one_ss "alice" ["CREATE", "a.txt"] true 7).nm
    "alice" ["ADDACCESS", "-R", "a.txt", "bob"]).nm

/-- A record that can be saved: its file name, owner and ip are plain names, its
access list is not empty, lists plain user names with `R` or `W`, and lists no
user twice. -/
def SavableRecord (m : FileMetadata) : Prop :=
  PlainName m.filename ∧ PlainName m.owner ∧ PlainName m.ss_ip ∧
    m.access_list_head ≠ [] ∧
    (∀ a ∈ m.access_list_head,
      PlainName a.username ∧ (a.permission = 'R' ∨ a.permission = 'W')) ∧
    (access_usernames m.access_list_head).Nodup

/-- Every record of the table is in the bucket of its file name, as `ht_insert`
puts it. -/
def WellFormedTable (table : HashTable) : Prop :=
  ∀ i, ∀ m ∈ table.buckets i, hash_function m.filename = i

/-- The access list a load builds from a saved one: the owner with `W` first,
then every saved entry in order through `add_access`. -/
def load_grants (owner : String) (saved : List AccessNode) : List AccessNode :=
  saved.foldl (fun head a => add_access head a.username a.permission) (add_access [] owner 'W')

/-- The record a load builds from a saved one at time `now`. -/
def loaded_record (now : Int) (m : FileMetadata) : FileMetadata :=
  { m with
    access_list_head := load_grants m.owner m.access_list_head
    created_at := now
    last_accessed := now }

/-- The entry of an access list in the saved text, without its `;`. -/
def saved_grant (a : AccessNode) : List Char :=
  a.username.data ++ [',', a.permission]

/-- The line of a record in the saved text, without its line feed. -/
def record_body (meta : FileMetadata) : List Char :=
  meta.filename.data ++ '|' :: (meta.owner.data ++ '|' :: (meta.ss_ip.data ++ '|' ::
    (print_int meta.ss_client_port ++ '|' :: (save_access_list meta.access_list_head ++ '|' ::
      (print_int meta.size ++ '|' :: (print_int meta.word_count ++ '|' ::
        (print_int meta.char_count ++ '|' :: print_int meta.last_modified)))))))

instance (s : String) : Decidable (PlainName s) := by
  unfold PlainName; infer_instance

instance (m : FileMetadata) : Decidable (SavableRecord m) := by
  unfold SavableRecord; infer_instance

/-- A name server that holds the one record given. -/
def nm_of_record (m : FileMetadata) : NameServer :=
  { nm_create_empty with file_table := (ht_insert ht_create m).2 }

/-- A user name of 250 bytes. -/
def long_user (c : Char) : String :=
  String.mk (List.replicate 250 c)

/-- The access list of a file alice shares (`R`) with the users of a list of
bytes, the name of each being 250 times that byte. -/
def long_access_list (users : List Char) : List AccessNode :=
  ⟨"alice", 'W'⟩ :: users.map fun c => ⟨long_user c, 'R'⟩

/-- The record of `a.txt`, owned by alice and shared with 17 users whose names
have 250 bytes each. -/
def long_record : FileMetadata :=
  example_metadata (long_access_list "bcdefghijklmnopqr".toList)

/-! # Theorems -/

/-! ## Characters -/

theorem isspace_of_is_delimiter {c : Char} (h : is_delimiter c = true) : isspace c = false := by
  simp only [is_delimiter, Bool.or_eq_true, beq_iff_eq] at h
  rcases h with (h | h) | h <;> subst h <;> decide

theorem is_delimiter_space : is_delimiter ' ' = false := by decide
theorem isspace_space : isspace ' ' = true := by decide


/-! ## Sentence tokenizer -/

theorem split_loop_body (body : List Char) (hb : ∀ c ∈ body, is_delimiter c = false)
    (d : Char) (hd : is_delimiter d = true) (rest : List Char) :
    ∀ cur, split_into_sentences_loop cur false (body ++ d :: rest)
      = (cur ++ body ++ [d]) :: split_into_sentences_loop [] true rest := by
  induction body with
  | nil => intro cur; simp [split_into_sentences_loop, hd]
  | cons b body ih =>
    intro cur
    have hb1 : is_delimiter b = false := hb b (by simp)
    have := ih (fun c hc => hb c (by simp [hc])) (cur ++ [b])
    simp [split_into_sentences_loop, hb1, this]

theorem split_loop_complete {s : List Char} (hs : Complete s) (strict : Bool)
    (hh : strict = true → NoWsHead s) (rest : List Char) :
    split_into_sentences_loop [] strict (s ++ rest)
      = s :: split_into_sentences_loop [] true rest := by
  obtain ⟨body, d, rfl, hd, hb⟩ := hs
  cases strict with
  | false => simpa using split_loop_body body hb d hd rest []
  | true =>
    cases body with
    | nil => simp [split_into_sentences_loop, hd]
    | cons b body =>
      have hb1 : is_delimiter b = false := hb b (by simp)
      have hw : isspace b = false := hh rfl b (by simp)
      have := split_loop_body body (fun c hc => hb c (by simp [hc])) d hd rest [b]
      simpa [split_into_sentences_loop, hb1, hw] using this

theorem split_loop_skip_space (rest : List Char) :
    split_into_sentences_loop [] true (' ' :: rest) = split_into_sentences_loop [] true rest := by
  simp [split_into_sentences_loop, is_delimiter_space, isspace_space]

theorem split_loop_nodelim (s : List Char) (hs : ∀ c ∈ s, is_delimiter c = false) :
    ∀ cur, split_into_sentences_loop cur false s = if cur ++ s = [] then [] else [cur ++ s] := by
  induction s with
  | nil => intro cur; simp [split_into_sentences_loop]
  | cons b s ih =>
    intro cur
    have hb1 : is_delimiter b = false := hs b (by simp)
    have := ih (fun c hc => hs c (by simp [hc])) (cur ++ [b])
    simp [split_into_sentences_loop, hb1, this]

theorem split_loop_last {s : List Char} (hne : s ≠ []) (hs : ∀ c ∈ s, is_delimiter c = false)
    (strict : Bool) (hh : strict = true → NoWsHead s) :
    split_into_sentences_loop [] strict s = [s] := by
  cases strict with
  | false => simpa [hne] using split_loop_nodelim s hs []
  | true =>
    cases s with
    | nil => exact absurd rfl hne
    | cons b s =>
      have hb1 : is_delimiter b = false := hs b (by simp)
      have hw : isspace b = false := hh rfl b (by simp)
      have := split_loop_nodelim s (fun c hc => hs c (by simp [hc])) [b]
      simpa [split_into_sentences_loop, hb1, hw] using this

theorem join_sentences_cons_cons (s next : List Char) (rest : List (List Char))
    (h : first_char next ≠ ' ') :
    join_sentences (s :: next :: rest) = s ++ ' ' :: join_sentences (next :: rest) := by
  simp [join_sentences, h]

theorem first_char_ne_space {s : List Char} (hne : s ≠ []) (h : NoWsHead s) :
    first_char s ≠ ' ' := by
  cases s with
  | nil => exact absurd rfl hne
  | cons b s =>
    have hw : isspace b = false := h b (by simp)
    intro hb
    simp [first_char] at hb
    subst hb
    simp [isspace_space] at hw

theorem Complete.ne_nil {s : List Char} (h : Complete s) : s ≠ [] := by
  obtain ⟨body, d, rfl, _, _⟩ := h
  simp

theorem WellFormed.head_ne_nil {strict : Bool} {s : List Char} {rest : List (List Char)}
    (h : WellFormed strict (s :: rest)) : s ≠ [] := by
  cases h with
  | last _ _ hne _ _ => exact hne
  | cons _ _ _ hc _ _ => exact hc.ne_nil

theorem WellFormed.head_noWs {s : List Char} {rest : List (List Char)}
    (h : WellFormed true (s :: rest)) : NoWsHead s := by
  cases h with
  | last _ _ _ _ hh => exact hh rfl
  | cons _ _ _ _ hh _ => exact hh rfl

/-- Tokenizing the join of a well-formed sentence list gives the list back. -/
theorem split_join_wellFormed : ∀ (l : List (List Char)) (strict : Bool),
    WellFormed strict l → split_into_sentences_loop [] strict (join_sentences l) = l := by
  intro l
  induction l with
  | nil => intro strict _; simp [join_sentences, split_into_sentences_loop]
  | cons s rest ih =>
    intro strict h
    cases h with
    | last _ _ hne hs hh => simpa [join_sentences] using split_loop_last hne hs strict hh
    | cons _ _ _ hc hh hrest =>
      cases rest with
      | nil =>
        have := split_loop_complete hc strict hh []
        simpa [join_sentences, split_into_sentences_loop] using this
      | cons next rest =>
        have h1 : first_char next ≠ ' ' := first_char_ne_space hrest.head_ne_nil hrest.head_noWs
        rw [join_sentences_cons_cons _ _ _ h1, split_loop_complete hc strict hh,
          split_loop_skip_space, ih true hrest]

/-- The tokenizer produces well-formed sentence lists. -/
theorem split_loop_wellFormed : ∀ (content cur : List Char) (skip strict : Bool),
    (∀ c ∈ cur, is_delimiter c = false) → (skip = true → cur = []) →
    (strict = true → (cur ≠ [] → NoWsHead cur) ∧ (cur = [] → skip = true)) →
    WellFormed strict (split_into_sentences_loop cur skip content) := by
  intro content
  induction content with
  | nil =>
    intro cur skip strict hcur _ hstrict
    by_cases hc : cur = []
    · simp [split_into_sentences_loop, hc]; exact WellFormed.nil _
    · simp only [split_into_sentences_loop, hc, if_false]
      exact WellFormed.last _ _ hc hcur (fun hs => (hstrict hs).1 hc)
  | cons c content ih =>
    intro cur skip strict hcur hskip hstrict
    by_cases hd : is_delimiter c = true
    · simp only [split_into_sentences_loop, hd, if_true]
      refine WellFormed.cons _ _ _ ⟨cur, c, rfl, hd, hcur⟩ ?_ ?_
      · intro hs x hx
        by_cases hc : cur = []
        · subst hc
          simp at hx
          subst hx
          exact isspace_of_is_delimiter hd
        · apply (hstrict hs).1 hc
          cases cur with
          | nil => exact absurd rfl hc
          | cons a cur => simpa using hx
      · exact ih [] true true (by simp) (fun _ => rfl) (fun _ => ⟨fun h => absurd rfl h, fun _ => rfl⟩)
    · have hd' : is_delimiter c = false := by simpa using hd
      by_cases hsk : (skip && isspace c) = true
      · simp only [split_into_sentences_loop, hd', hsk, if_true, Bool.false_eq_true, if_false]
        have hskip' : skip = true := by
          simp only [Bool.and_eq_true] at hsk
          exact hsk.1
        have hcur' : cur = [] := hskip hskip'
        exact ih [] true strict (by simp) (fun _ => rfl)
          (fun _ => ⟨fun h => absurd rfl h, fun _ => rfl⟩)
      · simp only [split_into_sentences_loop, hd', hsk, Bool.false_eq_true, if_false]
        refine ih (cur ++ [c]) false strict ?_ (fun h => by simp at h) ?_
        · intro x hx
          simp only [List.mem_append, List.mem_singleton] at hx
          rcases hx with hx | hx
          · exact hcur x hx
          · subst hx; exact hd'
        · intro hs
          refine ⟨fun _ => ?_, fun h => by simp at h⟩
          intro x hx
          by_cases hc : cur = []
          · subst hc
            simp at hx
            subst hx
            have hskip' : skip = true := (hstrict hs).2 rfl
            simpa [hskip'] using hsk
          · apply (hstrict hs).1 hc
            cases cur with
            | nil => exact absurd rfl hc
            | cons a cur => simpa using hx

theorem split_into_sentences_wellFormed (content : List Char) :
    WellFormed false (split_into_sentences content) :=
  split_loop_wellFormed content [] false false (by simp) (by simp) (by simp)

theorem split_join_split (content : List Char) :
    split_into_sentences (join_sentences (split_into_sentences content))
      = split_into_sentences content :=
  split_join_wellFormed _ false (split_into_sentences_wellFormed content)

/-- C9. Sentence round trip: for every content, tokenizing the join of its
sentences yields the same number of sentences, and sentence by sentence the same
bytes. -/
theorem sentence_round_trip (content : List Char) :
    (split_into_sentences (join_sentences (split_into_sentences content))).length
        = (split_into_sentences content).length ∧
      ∀ i : Nat, (split_into_sentences (join_sentences (split_into_sentences content)))[i]?
        = (split_into_sentences content)[i]? := by
  simp [split_join_split]

/-! ## Word tokenizer -/

theorem is_delimiter_first_char (w : List Char) :
    is_delimiter (first_char w) = starts_with_delimiter w := by
  cases w with
  | nil => simp [first_char, starts_with_delimiter]; decide
  | cons c w => simp [first_char, starts_with_delimiter]

theorem join_words_eq_spec (ws : List (List Char)) : join_words ws = join_words_spec ws := by
  induction ws with
  | nil => rfl
  | cons w rest ih =>
    cases rest with
    | nil => simp [join_words, join_words_spec]
    | cons next rest =>
      simp only [join_words, is_delimiter_first_char, ih]
      by_cases h : starts_with_delimiter next = true <;> simp [join_words_spec, h]

theorem words_loop_absorb (w : List Char) (hs : ∀ c ∈ w, isspace c = false)
    (hd : ∀ c ∈ w, is_delimiter c = false) (rest : List Char) :
    ∀ cur, split_into_words_loop cur (w ++ rest) = split_into_words_loop (cur ++ w) rest := by
  induction w with
  | nil => intro cur; simp
  | cons b w ih =>
    intro cur
    have h1 : isspace b = false := hs b (by simp)
    have h2 : is_delimiter b = false := hd b (by simp)
    have := ih (fun c hc => hs c (by simp [hc])) (fun c hc => hd c (by simp [hc])) (cur ++ [b])
    simp [split_into_words_loop, h1, h2, this]

theorem words_loop_space (cur rest : List Char) (hne : cur ≠ []) :
    split_into_words_loop cur (' ' :: rest) = cur :: split_into_words_loop [] rest := by
  simp [split_into_words_loop, isspace_space, hne]

theorem words_loop_nil_space (rest : List Char) :
    split_into_words_loop [] (' ' :: rest) = split_into_words_loop [] rest := by
  simp [split_into_words_loop, isspace_space]

theorem words_loop_delimiter (cur rest : List Char) (d : Char) (hd : is_delimiter d = true) :
    split_into_words_loop cur (d :: rest)
      = (if cur = [] then [] else [cur]) ++ [d] :: split_into_words_loop [] rest := by
  by_cases h : cur = [] <;>
    simp [split_into_words_loop, isspace_of_is_delimiter hd, hd, h]

theorem GoodWord.starts_with_delimiter_iff {w : List Char} (h : GoodWord w) :
    starts_with_delimiter w = true ↔ ∃ d, is_delimiter d = true ∧ w = [d] := by
  constructor
  · intro hs
    rcases h.2.2 with h' | h'
    · cases w with
      | nil => simp [starts_with_delimiter] at hs
      | cons c w =>
        have hw : w = [] := by simpa using h'.1
        subst hw
        exact ⟨c, h'.2 c (by simp), rfl⟩
    · cases w with
      | nil => simp [starts_with_delimiter] at hs
      | cons c w =>
        simp [starts_with_delimiter] at hs
        have := h' c (by simp)
        simp [hs] at this
  · rintro ⟨d, hd, rfl⟩
    simpa [starts_with_delimiter] using hd

theorem GoodWord.no_delimiter {w : List Char} (h : GoodWord w)
    (hs : starts_with_delimiter w = false) : ∀ c ∈ w, is_delimiter c = false := by
  rcases h.2.2 with h' | h'
  · cases w with
    | nil => exact fun c hc => by simp at hc
    | cons c w =>
      have := h'.2 c (by simp)
      simp [starts_with_delimiter, this] at hs
  · exact h'

theorem join_words_cons_head (d : Char) (v : List Char) (rest : List (List Char)) :
    join_words ((d :: v) :: rest) = d :: join_words (v :: rest) := by
  cases rest with
  | nil => simp [join_words]
  | cons next rest => by_cases h : is_delimiter (first_char next) = true <;> simp [join_words, h]

theorem words_loop_flush (cur rest : List Char) (hne : cur ≠ []) (d : Char)
    (hd : is_delimiter d = true) :
    split_into_words_loop cur (d :: rest) = cur :: split_into_words_loop [] (d :: rest) := by
  simp [split_into_words_loop, isspace_of_is_delimiter hd, hd, hne]

theorem words_loop_nil_delimiter (rest : List Char) (d : Char) (hd : is_delimiter d = true) :
    split_into_words_loop [] (d :: rest) = [d] :: split_into_words_loop [] rest := by
  simp [split_into_words_loop, isspace_of_is_delimiter hd, hd]

/-- Tokenizing the join of good words gives the words back. -/
theorem split_join_words : ∀ ws : List (List Char), (∀ w ∈ ws, GoodWord w) →
    split_into_words_loop [] (join_words ws) = ws := by
  intro ws
  induction ws with
  | nil => intro _; simp [join_words, split_into_words_loop]
  | cons w rest ih =>
    intro hall
    have hw : GoodWord w := hall w (by simp)
    have ih' := ih (fun v hv => hall v (by simp [hv]))
    by_cases hs : starts_with_delimiter w = true
    · obtain ⟨d, hd, rfl⟩ := hw.starts_with_delimiter_iff.1 hs
      cases rest with
      | nil =>
        rw [join_words, words_loop_nil_delimiter _ _ hd]
        simp [split_into_words_loop]
      | cons next rest =>
        rw [join_words]
        by_cases hsn : is_delimiter (first_char next) = true
        · simp only [hsn, Bool.not_true, Bool.false_eq_true, if_false, List.singleton_append]
          rw [words_loop_nil_delimiter _ _ hd, ih']
        · simp only [Bool.not_eq_true] at hsn
          simp only [hsn, Bool.not_false, if_true, List.singleton_append]
          rw [words_loop_nil_delimiter _ _ hd, words_loop_nil_space, ih']
    · have hs' : starts_with_delimiter w = false := by simpa using hs
      have habs := fun r => words_loop_absorb w hw.2.1 (hw.no_delimiter hs') r []
      simp only [List.nil_append] at habs
      cases rest with
      | nil =>
        have := habs []
        simp only [List.append_nil] at this
        rw [join_words, this]
        simp [split_into_words_loop, hw.1]
      | cons next rest =>
        have hn : GoodWord next := hall next (by simp)
        rw [join_words]
        by_cases hsn : starts_with_delimiter next = true
        · obtain ⟨d, hd, rfl⟩ := hn.starts_with_delimiter_iff.1 hsn
          have hfc : is_delimiter (first_char [d]) = true := by simpa [first_char] using hd
          simp only [hfc, Bool.not_true, Bool.false_eq_true, if_false]
          rw [habs, join_words_cons_head] at *
          rw [words_loop_flush _ _ hw.1 _ hd, ih']
        · have hfc : is_delimiter (first_char next) = false := by
            rw [is_delimiter_first_char]; simpa using hsn
          simp only [hfc, Bool.not_false, if_true]
          rw [habs, words_loop_space _ _ hw.1, ih']

/-- C10. Word round trip: for words that are non-empty, free of whitespace and
either a single delimiter or free of delimiters, `join_words` is the join by one
space with no space before a word that starts with a delimiter, and
`split_into_words` gives the words back; `["hello", "."]` joins to `hello.`,
which splits to `["hello", "."]`. -/
theorem word_round_trip (ws : List (List Char)) (h : ∀ w ∈ ws, GoodWord w) :
    join_words ws = join_words_spec ws ∧ split_into_words (join_words ws) = ws ∧
      join_words ["hello".toList, ".".toList] = "hello.".toList ∧
      split_into_words "hello.".toList = ["hello".toList, ".".toList] :=
  ⟨join_words_eq_spec ws, split_join_words ws h, by decide, by decide⟩

theorem word_round_trip_witness :
    (∀ w ∈ ["the".toList, "end".toList, ".".toList], GoodWord w) ∧
      join_words ["the".toList, "end".toList, ".".toList] = "the end.".toList ∧
      split_into_words "the end.".toList = ["the".toList, "end".toList, ".".toList] := by
  have h : ∀ w ∈ ["the".toList, "end".toList, ".".toList], GoodWord w := by decide
  have r := word_round_trip _ h
  refine ⟨h, by decide, ?_⟩
  have e : join_words ["the".toList, "end".toList, ".".toList] = "the end.".toList := by decide
  rw [← e]
  exact r.2.1

/-! ## Locks, log and disk -/

theorem sentence_lock_held_iff (f : String) (n : Int) (l : List SentenceLockNode) :
    sentence_lock_held f n l = true ↔ (⟨f, n⟩ : SentenceLockNode) ∈ l := by
  induction l with
  | nil => simp [sentence_lock_held]
  | cons curr next ih =>
    obtain ⟨g, m⟩ := curr
    by_cases h : g = f ∧ m = n
    · obtain ⟨rfl, rfl⟩ := h
      simp [sentence_lock_held]
    · have h2 : (⟨f, n⟩ : SentenceLockNode) ≠ ⟨g, m⟩ := by
        intro e
        injection e with e1 e2
        exact h ⟨e1.symm, e2.symm⟩
      simp [sentence_lock_held, h, ih, h2]

theorem unlock_sentence_loop_eq_erase (f : String) (n : Int) (l : List SentenceLockNode) :
    unlock_sentence_loop f n l = l.erase ⟨f, n⟩ := by
  induction l with
  | nil => simp [unlock_sentence_loop]
  | cons curr next ih =>
    obtain ⟨g, m⟩ := curr
    by_cases h : g = f ∧ m = n
    · obtain ⟨rfl, rfl⟩ := h
      simp [unlock_sentence_loop]
    · have h2 : (⟨g, m⟩ : SentenceLockNode) ≠ ⟨f, n⟩ := by
        intro e
        injection e with e1 e2
        exact h ⟨e1, e2⟩
      simp [unlock_sentence_loop, h, ih, List.erase_cons_tail, h2]

theorem undo_path_ne (f : String) : f ++ ".undo" ≠ f := by
  intro h
  have := congrArg String.length h
  simp [String.length_append] at this
  revert this
  decide

theorem create_undo_backup_apart (disk : Disk) (f g : String) (backup_ok : Bool)
    (h : g ≠ f ++ ".undo") :
    create_undo_backup disk f (f ++ ".undo") backup_ok g = disk g := by
  have hf : Function.update disk (f ++ ".undo") none f = disk f := by
    simp [Function.update, (undo_path_ne f).symm]
  simp only [create_undo_backup, hf]
  cases disk f <;> cases backup_ok <;> simp [Function.update, h]

theorem create_undo_backup_file (disk : Disk) (f : String) (backup_ok : Bool) :
    create_undo_backup disk f (f ++ ".undo") backup_ok f = disk f :=
  create_undo_backup_apart disk f f backup_ok (undo_path_ne f).symm

theorem create_undo_backup_other (disk : Disk) (f g : String) (h : g ≠ f ++ ".undo") :
    create_undo_backup disk f (f ++ ".undo") true g = disk g :=
  create_undo_backup_apart disk f g true h

theorem create_undo_backup_same (disk : Disk) (f : String) :
    create_undo_backup disk f (f ++ ".undo") true f = disk f :=
  create_undo_backup_other disk f f (undo_path_ne f).symm

theorem create_undo_backup_written (disk : Disk) (f : String) (content : List Char)
    (h : disk f = some content) :
    create_undo_backup disk f (f ++ ".undo") true (f ++ ".undo") = some content := by
  have hf : Function.update disk (f ++ ".undo") none f = disk f := by
    simp [Function.update, (undo_path_ne f).symm]
  simp [create_undo_backup, hf, h]

theorem create_undo_backup_failed (disk : Disk) (f : String) :
    create_undo_backup disk f (f ++ ".undo") false (f ++ ".undo") = none := by
  have hf : Function.update disk (f ++ ".undo") none f = disk f := by
    simp [Function.update, (undo_path_ne f).symm]
  simp only [create_undo_backup, hf]
  cases disk f <;> simp [Function.update]

/-! ## The two steps of a WRITE session -/

theorem begin_of_held (ss : StorageServer) (f : String) (n : Int)
    (h : (⟨f, n⟩ : SentenceLockNode) ∈ ss.sentence_locks_head) :
    handle_ss_write_begin ss f n =
      ⟨"423 ERROR: This sentence is being edited by another user.", ss, none⟩ := by
  have h1 := (sentence_lock_held_iff f n _).2 h
  simp [handle_ss_write_begin, try_lock_sentence, h1]

theorem begin_of_out_of_range (ss : StorageServer) (f : String) (n : Int)
    (h : (⟨f, n⟩ : SentenceLockNode) ∉ ss.sentence_locks_head)
    (hr : n < 0 ∨ n > max_valid_index ((ss.disk f).getD [])) :
    handle_ss_write_begin ss f n =
      ⟨"400 ERROR: Sentence index out of range (Previous sentence might be incomplete).",
        ss, none⟩ := by
  have h1 : sentence_lock_held f n ss.sentence_locks_head = false := by
    rw [← Bool.not_eq_true, sentence_lock_held_iff]; exact h
  simp [handle_ss_write_begin, try_lock_sentence, h1, get_file_content, hr, unlock_sentence,
    unlock_sentence_loop]

theorem begin_of_in_range (ss : StorageServer) (f : String) (n : Int)
    (h : (⟨f, n⟩ : SentenceLockNode) ∉ ss.sentence_locks_head)
    (hr : 0 ≤ n ∧ n ≤ max_valid_index ((ss.disk f).getD [])) :
    handle_ss_write_begin ss f n =
      ⟨"202 ACK_WRITE: Ready for updates.",
        { ss with sentence_locks_head := ⟨f, n⟩ :: ss.sentence_locks_head },
        some ⟨f, n, ss.next_log_id⟩⟩ := by
  have h1 : sentence_lock_held f n ss.sentence_locks_head = false := by
    rw [← Bool.not_eq_true, sentence_lock_held_iff]; exact h
  have hr' : ¬ (n < 0 ∨ n > max_valid_index ((ss.disk f).getD [])) := by omega
  simp [handle_ss_write_begin, try_lock_sentence, h1, get_file_content, hr', get_current_log_id]

theorem log_modification_disk (ss : StorageServer) (f : String) (i d : Int) :
    (log_modification ss f i d).disk = ss.disk := by
  unfold log_modification
  split <;> rfl

theorem log_modification_locks (ss : StorageServer) (f : String) (i d : Int) :
    (log_modification ss f i d).sentence_locks_head = ss.sentence_locks_head := by
  unfold log_modification
  split <;> rfl

theorem get_sentence_shift_disk (ss : StorageServer) (d : Disk) (f : String) (n k : Int) :
    get_sentence_shift { ss with disk := d } f n k = get_sentence_shift ss f n k := rfl

theorem commit_at_of_apply_none (ss : StorageServer) (sess : WriteSession)
    (updates : List UpdateNode) (backup_ok fopen_ok : Bool)
    (h : apply_updates ((ss.disk sess.filename).getD []) (effective_target ss sess) updates
      = none) :
    handle_ss_write_commit_at sess.filename (sess.filename ++ ".undo") backup_ok ss sess
        updates fopen_ok =
      ⟨"500 ERROR: Invalid update application during commit.",
        { ss with
          disk := create_undo_backup ss.disk sess.filename (sess.filename ++ ".undo")
            backup_ok
          sentence_locks_head := ss.sentence_locks_head.erase ⟨sess.filename, sess.sent_num⟩ },
        none⟩ := by
  simp only [effective_target] at h
  simp only [handle_ss_write_commit_at, get_file_content, create_undo_backup_file,
    get_sentence_shift_disk, h, unlock_sentence, unlock_sentence_loop_eq_erase]

theorem commit_at_of_write_failure (ss : StorageServer) (sess : WriteSession)
    (updates : List UpdateNode) (backup_ok : Bool) (final : List Char)
    (h : apply_updates ((ss.disk sess.filename).getD []) (effective_target ss sess) updates
      = some final) :
    handle_ss_write_commit_at sess.filename (sess.filename ++ ".undo") backup_ok ss sess
        updates false =
      ⟨"500 ERROR: Failed to write file.",
        { ss with
          disk := create_undo_backup ss.disk sess.filename (sess.filename ++ ".undo")
            backup_ok
          sentence_locks_head := ss.sentence_locks_head.erase ⟨sess.filename, sess.sent_num⟩ },
        none⟩ := by
  simp only [effective_target] at h
  simp [handle_ss_write_commit_at, get_file_content, create_undo_backup_file,
    get_sentence_shift_disk, h, unlock_sentence, unlock_sentence_loop_eq_erase]

theorem commit_at_of_success (ss : StorageServer) (sess : WriteSession)
    (updates : List UpdateNode) (backup_ok : Bool) (final : List Char)
    (h : apply_updates ((ss.disk sess.filename).getD []) (effective_target ss sess) updates
      = some final) :
    handle_ss_write_commit_at sess.filename (sess.filename ++ ".undo") backup_ok ss sess
        updates true =
      ⟨"200 OK: Write Successful!",
        unlock_sentence
          (log_modification
            { ss with
              disk := Function.update
                (create_undo_backup ss.disk sess.filename (sess.filename ++ ".undo")
                  backup_ok)
                sess.filename (some final) }
            sess.filename (effective_target ss sess)
            ((split_into_sentences final).length
              - (split_into_sentences ((ss.disk sess.filename).getD [])).length))
          sess.filename sess.sent_num,
        some ⟨sess.filename, final.length, get_word_count_loop false 0 final, final.length⟩⟩ := by
  simp only [effective_target] at h
  simp [handle_ss_write_commit_at, get_file_content, create_undo_backup_file,
    get_sentence_shift_disk, h, effective_target, get_word_count, get_char_count, get_file_size,
    log_modification_disk]

theorem commit_of_apply_none (ss : StorageServer) (sess : WriteSession)
    (updates : List UpdateNode) (fopen_ok : Bool)
    (h : apply_updates ((ss.disk sess.filename).getD []) (effective_target ss sess) updates
      = none) :
    handle_ss_write_commit ss sess updates fopen_ok =
      ⟨"500 ERROR: Invalid update application during commit.",
        { ss with
          disk := create_undo_backup ss.disk sess.filename (sess.filename ++ ".undo") true
          sentence_locks_head := ss.sentence_locks_head.erase ⟨sess.filename, sess.sent_num⟩ },
        none⟩ :=
  commit_at_of_apply_none ss sess updates true fopen_ok h

theorem commit_of_write_failure (ss : StorageServer) (sess : WriteSession)
    (updates : List UpdateNode) (final : List Char)
    (h : apply_updates ((ss.disk sess.filename).getD []) (effective_target ss sess) updates
      = some final) :
    handle_ss_write_commit ss sess updates false =
      ⟨"500 ERROR: Failed to write file.",
        { ss with
          disk := create_undo_backup ss.disk sess.filename (sess.filename ++ ".undo") true
          sentence_locks_head := ss.sentence_locks_head.erase ⟨sess.filename, sess.sent_num⟩ },
        none⟩ :=
  commit_at_of_write_failure ss sess updates true final h

theorem commit_of_success (ss : StorageServer) (sess : WriteSession)
    (updates : List UpdateNode) (final : List Char)
    (h : apply_updates ((ss.disk sess.filename).getD []) (effective_target ss sess) updates
      = some final) :
    handle_ss_write_commit ss sess updates true =
      ⟨"200 OK: Write Successful!",
        unlock_sentence
          (log_modification
            { ss with
              disk := Function.update
                (create_undo_backup ss.disk sess.filename (sess.filename ++ ".undo") true)
                sess.filename (some final) }
            sess.filename (effective_target ss sess)
            ((split_into_sentences final).length
              - (split_into_sentences ((ss.disk sess.filename).getD [])).length))
          sess.filename sess.sent_num,
        some ⟨sess.filename, final.length, get_word_count_loop false 0 final, final.length⟩⟩ :=
  commit_at_of_success ss sess updates true final h

theorem commit_at_backup (ss : StorageServer) (sess : WriteSession)
    (updates : List UpdateNode) (backup_ok fopen_ok : Bool) :
    (handle_ss_write_commit_at sess.filename (sess.filename ++ ".undo") backup_ok ss sess
        updates fopen_ok).ss.disk (sess.filename ++ ".undo")
      = create_undo_backup ss.disk sess.filename (sess.filename ++ ".undo") backup_ok
          (sess.filename ++ ".undo") := by
  cases ha : apply_updates ((ss.disk sess.filename).getD []) (effective_target ss sess)
      updates with
  | none => rw [commit_at_of_apply_none ss sess updates backup_ok fopen_ok ha]
  | some final =>
    cases fopen_ok with
    | false => rw [commit_at_of_write_failure ss sess updates backup_ok final ha]
    | true =>
      rw [commit_at_of_success ss sess updates backup_ok final ha]
      simp only [unlock_sentence, log_modification_disk]
      simp [Function.update, undo_path_ne]

theorem commit_at_written (ss : StorageServer) (sess : WriteSession)
    (updates : List UpdateNode) (backup_ok fopen_ok : Bool)
    (h : (handle_ss_write_commit_at sess.filename (sess.filename ++ ".undo") backup_ok ss
        sess updates fopen_ok).reply = "200 OK: Write Successful!") :
    (handle_ss_write_commit_at sess.filename (sess.filename ++ ".undo") backup_ok ss sess
        updates fopen_ok).ss.disk sess.filename
      = apply_updates ((ss.disk sess.filename).getD []) (effective_target ss sess)
          updates := by
  cases ha : apply_updates ((ss.disk sess.filename).getD []) (effective_target ss sess)
      updates with
  | none =>
    rw [commit_at_of_apply_none ss sess updates backup_ok fopen_ok ha] at h
    exact absurd (show "500 ERROR: Invalid update application during commit."
      = "200 OK: Write Successful!" from h) (by decide)
  | some final =>
    cases fopen_ok with
    | false =>
      rw [commit_at_of_write_failure ss sess updates backup_ok final ha] at h
      exact absurd (show "500 ERROR: Failed to write file."
        = "200 OK: Write Successful!" from h) (by decide)
    | true =>
      rw [commit_at_of_success ss sess updates backup_ok final ha]
      simp only [unlock_sentence, log_modification_disk]
      simp [Function.update]

/-! ## Phase 0: index validation -/

theorem head_dropWhile_eq_head_filter (p : Char → Bool) (l : List Char) :
    (l.dropWhile p).head? = (l.filter fun c => !p c).head? := by
  induction l with
  | nil => rfl
  | cons a l ih =>
    by_cases h : p a = true
    · simp [List.dropWhile, List.filter, h, ih]
    · simp [List.dropWhile, List.filter, h]

theorem first_char_last_non_whitespace (s : List Char) :
    first_char (s.reverse.dropWhile isspace) = (last_non_whitespace s).getD (Char.ofNat 0) := by
  have h : (s.reverse.dropWhile isspace).head? = last_non_whitespace s := by
    rw [head_dropWhile_eq_head_filter, last_non_whitespace, ← List.head?_reverse,
      List.filter_reverse]
  unfold first_char
  rw [← h]
  cases (s.reverse.dropWhile isspace) <;> rfl

theorem max_valid_index_eq_spec (content : List Char) :
    max_valid_index content = max_valid_spec content := by
  unfold max_valid_index max_valid_spec
  rcases List.eq_nil_or_concat (split_into_sentences content) with h | ⟨l, last, h⟩
  · simp [h]
  · have hnul : is_delimiter (Char.ofNat 0) = false := by decide
    simp only [h, first_char_last_non_whitespace]
    have hpos : (0 : Int) < ((l.concat last).length : Int) := by simp
    have hlast : (l.concat last).getLast? = some last := by simp
    have hlastD : (l.concat last).getLastD [] = last := by simp
    simp only [gt_iff_lt, hpos, if_true, hlast, hlastD]
    cases hl : last_non_whitespace last with
    | none => simp [hnul]
    | some c => by_cases hc : is_delimiter c = true <;> simp [hc]

/-- C8. Phase-0 index validation: when the sentence lock is free, the session is
acknowledged (`202`) exactly when `0 <= n <= max_valid`, and is refused with
`400` otherwise, `max_valid` being `0` for no sentence, the sentence count when
the last non-whitespace byte of the last sentence is a delimiter and the count
minus one when it is not. -/
theorem phase0_index_validation (ss : StorageServer) (f : String) (n : Int)
    (content : List Char) (hcontent : (get_file_content ss.disk f).getD [] = content)
    (hfree : (⟨f, n⟩ : SentenceLockNode) ∉ ss.sentence_locks_head) :
    ((handle_ss_write_begin ss f n).reply = "202 ACK_WRITE: Ready for updates." ↔
        0 ≤ n ∧ n ≤ max_valid_spec content) ∧
      (¬ (0 ≤ n ∧ n ≤ max_valid_spec content) →
        (handle_ss_write_begin ss f n).reply =
          "400 ERROR: Sentence index out of range (Previous sentence might be incomplete).") := by
  rw [← max_valid_index_eq_spec, ← hcontent]
  by_cases hr : 0 ≤ n ∧ n ≤ max_valid_index ((ss.disk f).getD [])
  · simp [begin_of_in_range ss f n hfree hr, get_file_content, hr]
  · have hr2 : n < 0 ∨ n > max_valid_index ((ss.disk f).getD []) := by omega
    simp only [begin_of_out_of_range ss f n hfree hr2, get_file_content, hr, iff_false,
      not_false_eq_true, true_implies, and_true]
    decide

theorem phase0_index_validation_witness :
    max_valid_spec "A. B".toList = 1 ∧
      (handle_ss_write_begin (ss_create (example_disk "A. B".toList)) "a.txt" 1).reply
        = "202 ACK_WRITE: Ready for updates." ∧
      (handle_ss_write_begin (ss_create (example_disk "A. B".toList)) "a.txt" 2).reply
        = "400 ERROR: Sentence index out of range (Previous sentence might be incomplete)." := by
  have h1 := phase0_index_validation (ss_create (example_disk "A. B".toList)) "a.txt" 1
    "A. B".toList (by decide) (by decide)
  have h2 := phase0_index_validation (ss_create (example_disk "A. B".toList)) "a.txt" 2
    "A. B".toList (by decide) (by decide)
  exact ⟨by decide, h1.1.2 (by decide), h2.2 (by decide)⟩

/-! ## Scenario S4 -/

set_option maxRecDepth 100000 in
/-- C2. Scenario S4: on `A. B. C.` with an empty log, X opens sentence 2 and Y
opens sentence 0; Y commits `(0, "start.")`, the content becomes
`start. A. B. C.` and the log gets one entry with index 0 and delta +1; X then
commits `(0, "!")` with shift 1 at sentence 3, and the content is
`start. A. B. ! C.`. -/
theorem scenario_S4 :
    (handle_ss_write_begin (ss_create (example_disk "A. B. C.".toList)) "a.txt" 2).session
        = some ⟨"a.txt", 2, 0⟩ ∧
      S4_started.session = some ⟨"a.txt", 0, 0⟩ ∧
      S4_commit_Y.reply = "200 OK: Write Successful!" ∧
      S4_commit_Y.ss.disk "a.txt" = some "start. A. B. C.".toList ∧
      S4_commit_Y.ss.mod_log_head = [⟨0, "a.txt", 0, 1⟩] ∧
      get_sentence_shift S4_commit_Y.ss "a.txt" 2 0 = 1 ∧
      effective_target S4_commit_Y.ss ⟨"a.txt", 2, 0⟩ = 3 ∧
      S4_commit_X.reply = "200 OK: Write Successful!" ∧
      S4_commit_X.ss.disk "a.txt" = some "start. A. B. ! C.".toList := by
  decide

/-! ## Sentence locks -/

/-- C5. While the pair `(filename, n)` is locked, a new WRITE request for it is
answered `423 ERROR: This sentence is being edited by another user.` and leaves
the whole server state (locks, files, log) as it was; a request for a pair that
is not locked takes the lock. -/
theorem locked_sentence_refused (ss : StorageServer) (f : String) (n : Int) :
    ((⟨f, n⟩ : SentenceLockNode) ∈ ss.sentence_locks_head →
        (handle_ss_write_begin ss f n).reply
            = "423 ERROR: This sentence is being edited by another user." ∧
          (handle_ss_write_begin ss f n).ss = ss ∧
          (handle_ss_write_begin ss f n).session = none) ∧
      ((⟨f, n⟩ : SentenceLockNode) ∉ ss.sentence_locks_head →
        try_lock_sentence ss f n =
            (true, { ss with sentence_locks_head := ⟨f, n⟩ :: ss.sentence_locks_head }) ∧
          (handle_ss_write_begin ss f n).reply
            ≠ "423 ERROR: This sentence is being edited by another user." ∧
          ((handle_ss_write_begin ss f n).reply = "202 ACK_WRITE: Ready for updates." →
            (⟨f, n⟩ : SentenceLockNode) ∈ (handle_ss_write_begin ss f n).ss.sentence_locks_head))
      := by
  refine ⟨fun h => by simp [begin_of_held ss f n h], fun h => ?_⟩
  have h1 : sentence_lock_held f n ss.sentence_locks_head = false := by
    rw [← Bool.not_eq_true, sentence_lock_held_iff]; exact h
  refine ⟨by simp [try_lock_sentence, h1], ?_⟩
  by_cases hr : 0 ≤ n ∧ n ≤ max_valid_index ((ss.disk f).getD [])
  · rw [begin_of_in_range ss f n h hr]
    refine ⟨?_, fun _ => by simp⟩
    show "202 ACK_WRITE: Ready for updates."
      ≠ "423 ERROR: This sentence is being edited by another user."
    decide
  · have hr2 : n < 0 ∨ n > max_valid_index ((ss.disk f).getD []) := by omega
    rw [begin_of_out_of_range ss f n h hr2]
    refine ⟨?_, fun h => absurd h ?_⟩
    · show "400 ERROR: Sentence index out of range (Previous sentence might be incomplete)."
        ≠ "423 ERROR: This sentence is being edited by another user."
      decide
    · show "400 ERROR: Sentence index out of range (Previous sentence might be incomplete)."
        ≠ "202 ACK_WRITE: Ready for updates."
      decide

theorem locked_sentence_refused_witness :
    (⟨"a.txt", 0⟩ : SentenceLockNode) ∈ S3_server.sentence_locks_head ∧
      (handle_ss_write_begin S3_server "a.txt" 0).reply
        = "423 ERROR: This sentence is being edited by another user." ∧
      (⟨"a.txt", 1⟩ : SentenceLockNode) ∉ S3_server.sentence_locks_head ∧
      (try_lock_sentence S3_server "a.txt" 1).1 = true := by
  have h0 : (⟨"a.txt", 0⟩ : SentenceLockNode) ∈ S3_server.sentence_locks_head := by decide
  have h1 : (⟨"a.txt", 1⟩ : SentenceLockNode) ∉ S3_server.sentence_locks_head := by decide
  refine ⟨h0, ((locked_sentence_refused S3_server "a.txt" 0).1 h0).1, h1, ?_⟩
  rw [((locked_sentence_refused S3_server "a.txt" 1).2 h1).1]

/-! ## Atomic commit -/

theorem apply_updates_append (c : List Char) (n : Int) (pre post : List UpdateNode) :
    apply_updates c n (pre ++ post) =
      (apply_updates c n pre).bind fun working => apply_updates working n post := by
  induction pre generalizing c with
  | nil => simp [apply_updates]
  | cons u pre ih =>
    simp only [List.cons_append, apply_updates]
    cases apply_single_update c n u.word_idx u.content with
    | none => simp
    | some c1 => simpa using ih c1

theorem apply_single_update_eq_none_iff (c : List Char) (n i : Int) (w : List Char) :
    apply_single_update c n i w = none ↔
      (n < 0 ∨ n > (split_into_sentences c).length ∨ i < 0 ∨ i > target_word_count c n) := by
  unfold apply_single_update target_word_count
  by_cases h1 : n < 0 ∨ n > ((split_into_sentences c).length : Int)
  · simp only [h1, if_true, true_iff]
    rcases h1 with h | h
    · exact Or.inl h
    · exact Or.inr (Or.inl h)
  · have hsent : (if n = ((split_into_sentences c).length : Int)
        then split_into_sentences c ++ [[]] else split_into_sentences c).getD n.toNat []
        = (split_into_sentences c).getD n.toNat [] := by
      split
      · rename_i he
        have : n.toNat = (split_into_sentences c).length := by omega
        simp [this, List.getD_eq_getElem?_getD]
      · rfl
    simp only [h1, if_false, hsent]
    split
    · rename_i h2
      simp only [true_iff]
      rcases h2 with h | h
      · exact Or.inr (Or.inr (Or.inl h))
      · exact Or.inr (Or.inr (Or.inr h))
    · rename_i h2
      simp only [reduceCtorEq, false_iff]
      omega

/-- C4. Commit is atomic: when some buffered update cannot be applied to the
working content the earlier updates produced (its word index is below 0 or above
the word count of the target sentence, or the translated sentence index is
outside `[0, sentence count]`), the commit replies `500`, and every file but the
undo backup, the modification log and the log id counter are what they were. -/
theorem commit_atomic (ss : StorageServer) (sess : WriteSession)
    (pre post : List UpdateNode) (u : UpdateNode) (fopen_ok : Bool) (working : List Char)
    (hpre : apply_updates ((get_file_content ss.disk sess.filename).getD [])
      (effective_target ss sess) pre = some working)
    (hbad : effective_target ss sess < 0 ∨
      effective_target ss sess > (split_into_sentences working).length ∨
      u.word_idx < 0 ∨ u.word_idx > target_word_count working (effective_target ss sess)) :
    (handle_ss_write_commit ss sess (pre ++ u :: post) fopen_ok).reply
        = "500 ERROR: Invalid update application during commit." ∧
      (handle_ss_write_commit ss sess (pre ++ u :: post) fopen_ok).ss.disk sess.filename
        = ss.disk sess.filename ∧
      (∀ g, g ≠ sess.filename ++ ".undo" →
        (handle_ss_write_commit ss sess (pre ++ u :: post) fopen_ok).ss.disk g = ss.disk g) ∧
      (handle_ss_write_commit ss sess (pre ++ u :: post) fopen_ok).ss.mod_log_head
        = ss.mod_log_head ∧
      (handle_ss_write_commit ss sess (pre ++ u :: post) fopen_ok).ss.next_log_id
        = ss.next_log_id := by
  have hnone : apply_updates ((ss.disk sess.filename).getD []) (effective_target ss sess)
      (pre ++ u :: post) = none := by
    simp only [get_file_content] at hpre
    rw [apply_updates_append, hpre]
    simp only [Option.some_bind, apply_updates]
    rw [(apply_single_update_eq_none_iff _ _ _ _).2 hbad]
  rw [commit_of_apply_none ss sess _ fopen_ok hnone]
  exact ⟨rfl, create_undo_backup_same _ _, fun g hg => create_undo_backup_other _ _ g hg,
    rfl, rfl⟩

set_option maxRecDepth 100000 in
theorem commit_atomic_witness :
    apply_updates "hello world.".toList 0 [⟨0, "big".toList⟩] = some "big hello world.".toList ∧
      (7 : Int) > target_word_count "big hello world.".toList 0 ∧
      (handle_ss_write_commit S3_server ⟨"a.txt", 0, 0⟩
          ([⟨0, "big".toList⟩] ++ ⟨7, "x".toList⟩ :: []) true).reply
        = "500 ERROR: Invalid update application during commit." ∧
      (handle_ss_write_commit S3_server ⟨"a.txt", 0, 0⟩
          ([⟨0, "big".toList⟩] ++ ⟨7, "x".toList⟩ :: []) true).ss.disk "a.txt"
        = some "hello world.".toList := by
  have h := commit_atomic S3_server ⟨"a.txt", 0, 0⟩ [⟨0, "big".toList⟩] [] ⟨7, "x".toList⟩
    true "big hello world.".toList (by decide) (by decide)
  exact ⟨by decide, by decide, h.1, h.2.1⟩

/-! ## Release of the sentence lock -/

theorem commit_cases (ss : StorageServer) (sess : WriteSession) (updates : List UpdateNode)
    (fopen_ok : Bool) :
    (handle_ss_write_commit ss sess updates fopen_ok).reply ∈
        ["200 OK: Write Successful!", "500 ERROR: Invalid update application during commit.",
          "500 ERROR: Failed to write file."] ∧
      (handle_ss_write_commit ss sess updates fopen_ok).ss.sentence_locks_head
        = ss.sentence_locks_head.erase ⟨sess.filename, sess.sent_num⟩ := by
  cases h : apply_updates ((ss.disk sess.filename).getD []) (effective_target ss sess) updates with
  | none => simp [commit_of_apply_none ss sess updates fopen_ok h]
  | some final =>
    cases fopen_ok with
    | false => simp [commit_of_write_failure ss sess updates final h]
    | true =>
      simp [commit_of_success ss sess updates final h, unlock_sentence,
        unlock_sentence_loop_eq_erase, log_modification_locks]

theorem begin_session_some (ss : StorageServer) (f : String) (n : Int) (sess : WriteSession)
    (h : (handle_ss_write_begin ss f n).session = some sess) :
    sess = ⟨f, n, ss.next_log_id⟩ ∧
      (⟨f, n⟩ : SentenceLockNode) ∉ ss.sentence_locks_head ∧
      (handle_ss_write_begin ss f n).ss
        = { ss with sentence_locks_head := ⟨f, n⟩ :: ss.sentence_locks_head } := by
  by_cases hl : (⟨f, n⟩ : SentenceLockNode) ∈ ss.sentence_locks_head
  · rw [begin_of_held ss f n hl] at h
    simp at h
  · by_cases hr : 0 ≤ n ∧ n ≤ max_valid_index ((ss.disk f).getD [])
    · rw [begin_of_in_range ss f n hl hr] at h ⊢
      simp at h
      exact ⟨h.symm, hl, rfl⟩
    · have hr2 : n < 0 ∨ n > max_valid_index ((ss.disk f).getD []) := by omega
      rw [begin_of_out_of_range ss f n hl hr2] at h
      simp at h

theorem begin_session_none (ss : StorageServer) (f : String) (n : Int)
    (h : (handle_ss_write_begin ss f n).session = none) :
    (handle_ss_write_begin ss f n).ss = ss := by
  by_cases hl : (⟨f, n⟩ : SentenceLockNode) ∈ ss.sentence_locks_head
  · rw [begin_of_held ss f n hl]
  · by_cases hr : 0 ≤ n ∧ n ≤ max_valid_index ((ss.disk f).getD [])
    · rw [begin_of_in_range ss f n hl hr] at h
      simp at h
    · have hr2 : n < 0 ∨ n > max_valid_index ((ss.disk f).getD []) := by omega
      rw [begin_of_out_of_range ss f n hl hr2]

theorem begin_reply_400 (ss : StorageServer) (f : String) (n : Int)
    (h : (handle_ss_write_begin ss f n).reply
      = "400 ERROR: Sentence index out of range (Previous sentence might be incomplete).") :
    (handle_ss_write_begin ss f n).session = none := by
  by_cases hl : (⟨f, n⟩ : SentenceLockNode) ∈ ss.sentence_locks_head
  · rw [begin_of_held ss f n hl]
  · by_cases hr : 0 ≤ n ∧ n ≤ max_valid_index ((ss.disk f).getD [])
    · rw [begin_of_in_range ss f n hl hr] at h
      have hne : "202 ACK_WRITE: Ready for updates." ≠
          "400 ERROR: Sentence index out of range (Previous sentence might be incomplete)." := by
        decide
      exact absurd h hne
    · have hr2 : n < 0 ∨ n > max_valid_index ((ss.disk f).getD []) := by omega
      rw [begin_of_out_of_range ss f n hl hr2]

/-- C7. A WRITE session releases its sentence lock whatever its outcome: after a
`400` the lock list is the one before the request; a session that was opened and
then commits (`200`, or `500` for a failed update or a failed file write) leaves
the lock list as it was before it began; and at any state a commit removes the
session's own pair from the lock list and no other. -/
theorem sentence_lock_released (ss t : StorageServer) (f : String) (n : Int)
    (sess : WriteSession) (updates : List UpdateNode) (fopen_ok : Bool) :
    ((handle_ss_write_begin ss f n).reply
          = "400 ERROR: Sentence index out of range (Previous sentence might be incomplete)." →
        (handle_ss_write_begin ss f n).ss.sentence_locks_head = ss.sentence_locks_head) ∧
      ((handle_ss_write_begin ss f n).session = some sess →
        (handle_ss_write_commit (handle_ss_write_begin ss f n).ss sess updates
          fopen_ok).ss.sentence_locks_head = ss.sentence_locks_head) ∧
      (handle_ss_write_commit t sess updates fopen_ok).reply ∈
        ["200 OK: Write Successful!", "500 ERROR: Invalid update application during commit.",
          "500 ERROR: Failed to write file."] ∧
      (handle_ss_write_commit t sess updates fopen_ok).ss.sentence_locks_head
        = t.sentence_locks_head.erase ⟨sess.filename, sess.sent_num⟩ ∧
      (∀ k : SentenceLockNode, k ≠ ⟨sess.filename, sess.sent_num⟩ →
        (k ∈ (handle_ss_write_commit t sess updates fopen_ok).ss.sentence_locks_head ↔
          k ∈ t.sentence_locks_head)) ∧
      (t.sentence_locks_head.Nodup → (⟨sess.filename, sess.sent_num⟩ : SentenceLockNode) ∉
        (handle_ss_write_commit t sess updates fopen_ok).ss.sentence_locks_head) := by
  refine ⟨fun h => ?_, fun h => ?_, (commit_cases t sess updates fopen_ok).1,
    (commit_cases t sess updates fopen_ok).2, fun k hk => ?_, fun hnd => ?_⟩
  · rw [begin_session_none ss f n (begin_reply_400 ss f n h)]
  · obtain ⟨rfl, _, hss⟩ := begin_session_some ss f n sess h
    rw [(commit_cases _ _ updates fopen_ok).2, hss]
    simp
  · rw [(commit_cases t sess updates fopen_ok).2]
    exact List.mem_erase_of_ne hk
  · rw [(commit_cases t sess updates fopen_ok).2]
    exact fun hmem => (List.Nodup.mem_erase_iff hnd).1 hmem |>.1 rfl

set_option maxRecDepth 100000 in
theorem sentence_lock_released_witness :
    (handle_ss_write_begin (ss_create (example_disk "A.".toList)) "a.txt" 2).reply
        = "400 ERROR: Sentence index out of range (Previous sentence might be incomplete)." ∧
      (handle_ss_write_begin (ss_create (example_disk "A.".toList)) "a.txt" 2).ss.sentence_locks_head
        = [] ∧
      (handle_ss_write_begin S3_server "a.txt" 1).session = some ⟨"a.txt", 1, 0⟩ ∧
      (handle_ss_write_commit (handle_ss_write_begin S3_server "a.txt" 1).ss ⟨"a.txt", 1, 0⟩
          [⟨0, "bye.".toList⟩] true).ss.sentence_locks_head = [⟨"a.txt", 0⟩] := by
  have h400 : (handle_ss_write_begin (ss_create (example_disk "A.".toList)) "a.txt" 2).reply
      = "400 ERROR: Sentence index out of range (Previous sentence might be incomplete)." := by
    decide
  have hsome : (handle_ss_write_begin S3_server "a.txt" 1).session = some ⟨"a.txt", 1, 0⟩ := by
    decide
  have h := sentence_lock_released S3_server S3_server "a.txt" 1 ⟨"a.txt", 1, 0⟩
    [⟨0, "bye.".toList⟩] true
  have h2 := sentence_lock_released (ss_create (example_disk "A.".toList)) S3_server "a.txt" 2
    ⟨"a.txt", 1, 0⟩ [] true
  exact ⟨h400, h2.1 h400, hsome, h.2.1 hsome⟩

/-! ## Single-writer commits -/

theorem apply_updates_eq_fold (c : List Char) (n : Int) (updates : List UpdateNode) :
    apply_updates c n updates = fold_updates c n updates := by
  unfold fold_updates
  induction updates generalizing c with
  | nil => rfl
  | cons u rest ih =>
    simp only [apply_updates, List.foldlM_cons]
    cases apply_single_update c n u.word_idx u.content with
    | none => rfl
    | some c1 => simpa using ih c1

theorem shift_loop_of_old_entries (f : String) (n k : Int) (log : List ModificationLogNode)
    (h : ∀ e ∈ log, e.id < k) (acc : Int) :
    get_sentence_shift_loop f n k acc log = acc := by
  induction log generalizing acc with
  | nil => rfl
  | cons e log ih =>
    have he : ¬ e.id ≥ k := by
      have := h e (by simp)
      omega
    simp only [get_sentence_shift_loop, he, if_false]
    exact ih (fun x hx => h x (by simp [hx])) acc

theorem effective_target_of_old_entries (ss : StorageServer) (sess : WriteSession)
    (h : ∀ e ∈ ss.mod_log_head, e.id < sess.start_log_id) :
    effective_target ss sess = sess.sent_num := by
  simp [effective_target, get_sentence_shift, shift_loop_of_old_entries _ _ _ _ h]

theorem log_modification_ids (ss : StorageServer) (f : String) (i d : Int)
    (h : ∀ e ∈ ss.mod_log_head, e.id < ss.next_log_id) :
    ∀ e ∈ (log_modification ss f i d).mod_log_head, e.id < (log_modification ss f i d).next_log_id := by
  unfold log_modification
  split
  · exact h
  · intro e he
    simp only [List.mem_append, List.mem_singleton] at he
    rcases he with he | he
    · have := h e he
      show e.id < ss.next_log_id + 1
      omega
    · subst he
      show ss.next_log_id < ss.next_log_id + 1
      omega

theorem commit_log_ids (ss : StorageServer) (sess : WriteSession) (updates : List UpdateNode)
    (fopen_ok : Bool) (h : ∀ e ∈ ss.mod_log_head, e.id < ss.next_log_id) :
    ∀ e ∈ (handle_ss_write_commit ss sess updates fopen_ok).ss.mod_log_head,
      e.id < (handle_ss_write_commit ss sess updates fopen_ok).ss.next_log_id := by
  cases ha : apply_updates ((ss.disk sess.filename).getD []) (effective_target ss sess) updates with
  | none => rw [commit_of_apply_none ss sess updates fopen_ok ha]; exact h
  | some final =>
    cases fopen_ok with
    | false => rw [commit_of_write_failure ss sess updates final ha]; exact h
    | true =>
      rw [commit_of_success ss sess updates final ha]
      exact log_modification_ids _ _ _ _ h

theorem run_session_spec (f : String) (ss : StorageServer) (req : WriteRequest)
    (hlog : ∀ e ∈ ss.mod_log_head, e.id < ss.next_log_id) (hlocks : ss.sentence_locks_head = []) :
    (∀ e ∈ (run_session f ss req).mod_log_head, e.id < (run_session f ss req).next_log_id) ∧
      (run_session f ss req).sentence_locks_head = [] ∧
      (run_session f ss req).disk f = session_result (ss.disk f) req := by
  have hfree : (⟨f, req.sent_num⟩ : SentenceLockNode) ∉ ss.sentence_locks_head := by
    simp [hlocks]
  by_cases hr : 0 ≤ req.sent_num ∧ req.sent_num ≤ max_valid_index ((ss.disk f).getD [])
  · have hr' : ¬ (req.sent_num < 0 ∨ req.sent_num > max_valid_index ((ss.disk f).getD [])) := by
      omega
    have hb := begin_of_in_range ss f req.sent_num hfree hr
    simp only [run_session, hb, session_result, hr', if_false]
    refine ⟨commit_log_ids _ _ _ _ hlog, ?_, ?_⟩
    · rw [(commit_cases _ _ _ _).2]
      simp [hlocks]
    · have het : effective_target { ss with sentence_locks_head :=
          ⟨f, req.sent_num⟩ :: ss.sentence_locks_head } ⟨f, req.sent_num, ss.next_log_id⟩
          = req.sent_num := effective_target_of_old_entries _ _ hlog
      cases ha : fold_updates ((ss.disk f).getD []) req.sent_num req.updates with
      | none =>
        rw [commit_of_apply_none _ _ _ _ (by rw [het, apply_updates_eq_fold]; exact ha)]
        exact create_undo_backup_same _ _
      | some final =>
        rw [commit_of_success _ _ _ final (by rw [het, apply_updates_eq_fold]; exact ha)]
        simp [unlock_sentence, log_modification_disk]
  · have hr2 : req.sent_num < 0 ∨ req.sent_num > max_valid_index ((ss.disk f).getD []) := by
      omega
    have hb := begin_of_out_of_range ss f req.sent_num hfree hr2
    simp only [run_session, hb, session_result, hr2, if_true]
    exact ⟨hlog, hlocks, trivial⟩

theorem run_sessions_spec (f : String) (reqs : List WriteRequest) :
    ∀ ss : StorageServer, (∀ e ∈ ss.mod_log_head, e.id < ss.next_log_id) →
      ss.sentence_locks_head = [] →
      (reqs.foldl (run_session f) ss).disk f = reqs.foldl session_result (ss.disk f) := by
  induction reqs with
  | nil => intro ss _ _; rfl
  | cons req reqs ih =>
    intro ss hlog hlocks
    obtain ⟨h1, h2, h3⟩ := run_session_spec f ss req hlog hlocks
    simp only [List.foldl_cons]
    rw [ih _ h1 h2, h3]

/-- C3. Determinism of a single-writer commit: when every log entry is older
than the session (none was appended since it started), the shift is 0 and the
commit writes the left fold of `apply_single_update` at the requested index over
the buffered updates, starting from the content read at commit time (and writes
nothing when the fold fails); hence the file after a sequence of sessions that do
not overlap is a function of the file before and of the requests alone. -/
theorem single_writer_commit (ss : StorageServer) (sess : WriteSession)
    (updates : List UpdateNode) (reqs : List WriteRequest) :
    ((∀ e ∈ ss.mod_log_head, e.id < sess.start_log_id) →
        get_sentence_shift ss sess.filename sess.sent_num sess.start_log_id = 0 ∧
        (handle_ss_write_commit ss sess updates true).ss.disk sess.filename =
          match fold_updates ((get_file_content ss.disk sess.filename).getD []) sess.sent_num
            updates with
          | some final => some final
          | none => ss.disk sess.filename) ∧
      ((∀ e ∈ ss.mod_log_head, e.id < ss.next_log_id) → ss.sentence_locks_head = [] →
        (reqs.foldl (run_session sess.filename) ss).disk sess.filename
          = reqs.foldl session_result (ss.disk sess.filename)) := by
  refine ⟨fun h => ⟨?_, ?_⟩, run_sessions_spec sess.filename reqs ss⟩
  · simp [get_sentence_shift, shift_loop_of_old_entries _ _ _ _ h]
  · have het := effective_target_of_old_entries ss sess h
    simp only [get_file_content]
    cases ha : fold_updates ((ss.disk sess.filename).getD []) sess.sent_num updates with
    | none =>
      rw [commit_of_apply_none _ _ _ _ (by rw [het, apply_updates_eq_fold]; exact ha)]
      exact create_undo_backup_same _ _
    | some final =>
      rw [commit_of_success _ _ _ final (by rw [het, apply_updates_eq_fold]; exact ha)]
      simp [unlock_sentence, log_modification_disk]

set_option maxRecDepth 100000 in
theorem single_writer_commit_witness :
    get_sentence_shift S4_commit_Y.ss "a.txt" 1 1 = 0 ∧
      (handle_ss_write_commit S4_commit_Y.ss ⟨"a.txt", 1, 1⟩
          [⟨0, "x".toList⟩, ⟨3, "y.".toList⟩] true).ss.disk "a.txt"
        = some "start. x A. y. B. C.".toList ∧
      ((["p.", "q"].map fun w => (⟨0, [⟨0, w.toList⟩]⟩ : WriteRequest)).foldl
          (run_session "a.txt") (ss_create (example_disk "A.".toList))).disk "a.txt"
        = some "q p. A.".toList := by
  have h := single_writer_commit S4_commit_Y.ss ⟨"a.txt", 1, 1⟩
    [⟨0, "x".toList⟩, ⟨3, "y.".toList⟩] []
  have h2 := single_writer_commit (ss_create (example_disk "A.".toList)) ⟨"a.txt", 1, 1⟩ []
    (["p.", "q"].map fun w => (⟨0, [⟨0, w.toList⟩]⟩ : WriteRequest))
  refine ⟨(h.1 (by decide)).1, ?_, ?_⟩
  · rw [(h.1 (by decide)).2]
    decide
  · have := h2.2 (by decide) (by decide)
    rw [this]
    decide

/-! ## Exclusion between open sessions -/

theorem locksMatchSessions_begin (s : World) (f : String) (n : Int)
    (h : LocksMatchSessions s) : LocksMatchSessions (s.begin f n) := by
  obtain ⟨h1, h2, h3⟩ := h
  cases hs : (handle_ss_write_begin s.ss f n).session with
  | none =>
    have := begin_session_none s.ss f n hs
    simp only [LocksMatchSessions, World.begin, hs, this]
    exact ⟨h1, h2, h3⟩
  | some sess =>
    obtain ⟨rfl, hfree, hss⟩ := begin_session_some s.ss f n sess hs
    simp only [LocksMatchSessions, World.begin, hs, hss, List.map_cons, WriteSession.lock]
    refine ⟨List.nodup_cons.2 ⟨hfree, h1⟩, List.nodup_cons.2 ⟨?_, h2⟩, ?_⟩
    · intro hmem
      exact hfree ((h3 _).2 hmem)
    · intro k
      simp only [List.mem_cons, h3 k]

theorem locksMatchSessions_commit (s : World) (sess : WriteSession)
    (updates : List UpdateNode) (fopen_ok : Bool) (h : LocksMatchSessions s)
    (hsess : sess ∈ s.open_sessions) :
    LocksMatchSessions (s.commit sess updates fopen_ok) := by
  obtain ⟨h1, h2, h3⟩ := h
  have hopen : s.open_sessions.Nodup := List.Nodup.of_map _ h2
  simp only [LocksMatchSessions, World.commit, (commit_cases s.ss sess updates fopen_ok).2]
  refine ⟨h1.erase _, h2.sublist ((List.erase_sublist _ _).map _), ?_⟩
  intro k
  show k ∈ s.ss.sentence_locks_head.erase sess.lock ↔ _
  rw [List.Nodup.mem_erase_iff h1, h3 k]
  simp only [List.mem_map, List.Nodup.mem_erase_iff hopen]
  constructor
  · rintro ⟨hk, x, hx, rfl⟩
    exact ⟨x, ⟨fun e => hk (by rw [e]), hx⟩, rfl⟩
  · rintro ⟨x, ⟨hne, hx⟩, rfl⟩
    refine ⟨fun e => ?_, x, hx, rfl⟩
    exact hne (List.inj_on_of_nodup_map h2 hx hsess e)

theorem reachable_locksMatchSessions (s : World) (h : Reachable s) : LocksMatchSessions s := by
  induction h with
  | init disk => simp [LocksMatchSessions, ss_create]
  | begin f n _ ih => exact locksMatchSessions_begin _ f n ih
  | commit sess updates ok _ hsess ih =>
    exact locksMatchSessions_commit _ sess updates ok ih hsess

theorem shifted_overlap_reachable : Reachable shifted_overlap := by
  unfold shifted_overlap
  refine Reachable.begin _ _ (Reachable.commit _ _ _ (Reachable.begin _ _ (Reachable.begin _ _
    (Reachable.init _))) ?_)
  decide

set_option maxRecDepth 100000 in
/-- C6, counterexample. On `A. B. C.` open X on sentence 2, open Y on sentence 0
and commit `(0, "start.")`, then open Z on sentence 3: the state is reachable,
X and Z are both open on `a.txt`, and both have effective target 3. -/
theorem effective_target_not_exclusive :
    Reachable shifted_overlap ∧
      shifted_overlap.open_sessions = [⟨"a.txt", 3, 1⟩, ⟨"a.txt", 2, 0⟩] ∧
      effective_target shifted_overlap.ss ⟨"a.txt", 3, 1⟩ = 3 ∧
      effective_target shifted_overlap.ss ⟨"a.txt", 2, 0⟩ = 3 :=
  ⟨shifted_overlap_reachable, by decide, by decide, by decide⟩

/-- C6, amended. In every state reachable by session starts and commits, no two
open WRITE sessions on the same file have the same requested sentence index,
and the lock list holds exactly the requested pairs of the open sessions. -/
theorem requested_sentence_exclusive (s : World) (h : Reachable s) :
    s.open_sessions.Pairwise (fun a b => a.filename = b.filename → a.sent_num ≠ b.sent_num) ∧
      ∀ f n, (⟨f, n⟩ : SentenceLockNode) ∈ s.ss.sentence_locks_head ↔
        ∃ sess ∈ s.open_sessions, sess.filename = f ∧ sess.sent_num = n := by
  obtain ⟨_, h2, h3⟩ := reachable_locksMatchSessions s h
  constructor
  · have := (List.pairwise_map (f := WriteSession.lock) (R := (· ≠ ·))).1 h2
    refine this.imp ?_
    intro a b hab hf hn
    apply hab
    simp [WriteSession.lock, hf, hn]
  · intro f n
    rw [h3]
    simp only [List.mem_map, WriteSession.lock]
    constructor
    · rintro ⟨x, hx, e⟩
      injection e with e1 e2
      exact ⟨x, hx, e1, e2⟩
    · rintro ⟨x, hx, rfl, rfl⟩
      exact ⟨x, hx, rfl⟩

theorem requested_sentence_exclusive_witness :
    Reachable shifted_overlap ∧
      shifted_overlap.open_sessions.Pairwise
        (fun a b => a.filename = b.filename → a.sent_num ≠ b.sent_num) :=
  ⟨shifted_overlap_reachable, (requested_sentence_exclusive _ shifted_overlap_reachable).1⟩

/-! ## The text of a write, whitespace apart -/

theorem remove_whitespace_append (a b : List Char) :
    remove_whitespace (a ++ b) = remove_whitespace a ++ remove_whitespace b := by
  simp [remove_whitespace]

theorem remove_whitespace_cons_space (a : List Char) :
    remove_whitespace (' ' :: a) = remove_whitespace a := by
  have h : isspace ' ' = true := by decide
  simp [remove_whitespace, h]

theorem remove_whitespace_all_cons (a : List Char) (l : List (List Char)) :
    remove_whitespace_all (a :: l) = remove_whitespace a ++ remove_whitespace_all l := by
  simp [remove_whitespace_all]

theorem remove_whitespace_all_append (l1 l2 : List (List Char)) :
    remove_whitespace_all (l1 ++ l2) = remove_whitespace_all l1 ++ remove_whitespace_all l2 := by
  simp [remove_whitespace_all]

theorem remove_whitespace_join_sentences (l : List (List Char)) :
    remove_whitespace (join_sentences l) = remove_whitespace_all l := by
  induction l with
  | nil => rfl
  | cons s rest ih =>
    cases rest with
    | nil => simp [join_sentences, remove_whitespace_all]
    | cons next rest =>
      rw [remove_whitespace_all_cons, ← ih]
      simp only [join_sentences]
      split <;> simp [remove_whitespace_append, remove_whitespace_cons_space]

theorem remove_whitespace_join_words (l : List (List Char)) :
    remove_whitespace (join_words l) = remove_whitespace_all l := by
  induction l with
  | nil => rfl
  | cons s rest ih =>
    cases rest with
    | nil => simp [join_words, remove_whitespace_all]
    | cons next rest =>
      rw [remove_whitespace_all_cons, ← ih]
      simp only [join_words]
      split <;> simp [remove_whitespace_append, remove_whitespace_cons_space]

theorem remove_whitespace_sentences_loop (s : List Char) :
    ∀ (cur : List Char) (skip : Bool), (skip = true → cur = []) →
      remove_whitespace_all (split_into_sentences_loop cur skip s)
        = remove_whitespace cur ++ remove_whitespace s := by
  induction s with
  | nil =>
    intro cur skip _
    by_cases hc : cur = []
    · simp [split_into_sentences_loop, hc, remove_whitespace_all, remove_whitespace]
    · simp [split_into_sentences_loop, hc, remove_whitespace_all, remove_whitespace]
  | cons c rest ih =>
    intro cur skip hskip
    have hcons : remove_whitespace (c :: rest)
        = remove_whitespace [c] ++ remove_whitespace rest :=
      remove_whitespace_append [c] rest
    by_cases hd : is_delimiter c = true
    · simp only [split_into_sentences_loop, hd, if_true, remove_whitespace_all_cons]
      rw [ih [] true (fun _ => rfl), remove_whitespace_append, hcons]
      simp [remove_whitespace]
    · by_cases hw : (skip && isspace c) = true
      · simp only [split_into_sentences_loop, hd, hw, if_true, Bool.false_eq_true, if_false]
        rw [ih [] true (fun _ => rfl)]
        simp only [Bool.and_eq_true] at hw
        rw [hskip hw.1]
        simp [remove_whitespace, hw.2]
      · simp only [split_into_sentences_loop, hd, hw, Bool.false_eq_true, if_false]
        rw [ih (cur ++ [c]) false (by simp), remove_whitespace_append, hcons,
          List.append_assoc]

theorem remove_whitespace_split_into_sentences (s : List Char) :
    remove_whitespace_all (split_into_sentences s) = remove_whitespace s := by
  rw [split_into_sentences, remove_whitespace_sentences_loop s [] false (by simp)]
  rfl

theorem remove_whitespace_words_loop (s : List Char) :
    ∀ cur : List Char,
      remove_whitespace_all (split_into_words_loop cur s)
        = remove_whitespace cur ++ remove_whitespace s := by
  induction s with
  | nil =>
    intro cur
    by_cases hc : cur = []
    · simp [split_into_words_loop, hc, remove_whitespace_all, remove_whitespace]
    · simp [split_into_words_loop, hc, remove_whitespace_all, remove_whitespace]
  | cons c rest ih =>
    intro cur
    by_cases hw : isspace c = true
    · by_cases hc : cur = []
      · simp [split_into_words_loop, hw, hc, ih, remove_whitespace]
      · simp [split_into_words_loop, hw, hc, ih, remove_whitespace_all_cons, remove_whitespace]
    · by_cases hd : is_delimiter c = true
      · by_cases hc : cur = []
        · simp [split_into_words_loop, hw, hd, hc, ih, remove_whitespace_all_cons,
            remove_whitespace]
        · simp [split_into_words_loop, hw, hd, hc, ih, remove_whitespace_all_cons,
            remove_whitespace]
      · simp [split_into_words_loop, hw, hd, ih, remove_whitespace]

theorem remove_whitespace_split_into_words (s : List Char) :
    remove_whitespace_all (split_into_words s) = remove_whitespace s := by
  rw [split_into_words, remove_whitespace_words_loop s []]
  rfl

theorem remove_whitespace_split_string_loop (s : List Char) :
    ∀ cur : List Char,
      remove_whitespace_all (split_string_loop ' ' cur s)
        = remove_whitespace cur ++ remove_whitespace s := by
  have hsp : isspace ' ' = true := by decide
  induction s with
  | nil =>
    intro cur
    by_cases hc : cur = []
    · simp [split_string_loop, hc, remove_whitespace_all, remove_whitespace]
    · simp [split_string_loop, hc, remove_whitespace_all, remove_whitespace]
  | cons c rest ih =>
    intro cur
    by_cases hw : c = ' '
    · subst hw
      by_cases hc : cur = []
      · simp [split_string_loop, hc, ih, remove_whitespace, hsp]
      · simp [split_string_loop, hc, ih, remove_whitespace_all_cons, remove_whitespace, hsp]
    · simp only [split_string_loop, beq_iff_eq, hw, if_false]
      rw [ih, remove_whitespace_append, List.append_assoc,
        ← remove_whitespace_append [c] rest]
      rfl

theorem remove_whitespace_split_string (s : List Char) :
    remove_whitespace_all (split_string s ' ') = remove_whitespace s := by
  rw [split_string, remove_whitespace_split_string_loop s []]
  rfl

theorem remove_whitespace_all_take_drop (l : List (List Char)) (k : Nat) :
    remove_whitespace_all l
      = remove_whitespace_all (l.take k) ++ remove_whitespace_all (l.drop k) := by
  rw [← remove_whitespace_all_append, List.take_append_drop]

theorem remove_whitespace_all_set (l : List (List Char)) (k : Nat) (new : List Char)
    (hk : k < l.length) :
    remove_whitespace_all (l.set k new)
        = remove_whitespace_all (l.take k) ++ remove_whitespace new
          ++ remove_whitespace_all (l.drop (k + 1)) ∧
      remove_whitespace_all l
        = remove_whitespace_all (l.take k) ++ remove_whitespace (l.getD k [])
          ++ remove_whitespace_all (l.drop (k + 1)) := by
  constructor
  · rw [List.set_eq_take_append_cons_drop, if_pos hk, remove_whitespace_all_append,
      remove_whitespace_all_cons, List.append_assoc]
  · have h : l.getD k [] = l[k] := by
      rw [List.getD_eq_getElem?_getD, List.getElem?_eq_getElem hk]; rfl
    rw [h]
    conv_lhs => rw [← List.take_append_drop k l, List.drop_eq_getElem_cons hk]
    rw [remove_whitespace_all_append, remove_whitespace_all_cons, List.append_assoc]

theorem remove_whitespace_all_sentence (l : List (List Char)) (k j : Nat)
    (hk : k < l.length) :
    remove_whitespace_all l
      = remove_whitespace_all (l.take k)
        ++ (remove_whitespace_all ((split_into_words (l.getD k [])).take j)
          ++ remove_whitespace_all ((split_into_words (l.getD k [])).drop j))
        ++ remove_whitespace_all (l.drop (k + 1)) := by
  rw [← remove_whitespace_all_take_drop, remove_whitespace_split_into_words]
  exact (remove_whitespace_all_set l k [] hk).2

theorem insert_shape (a b w c d x : List Char) (h : x = a ++ (b ++ c) ++ d) :
    ∃ p s : List Char, a ++ (b ++ w ++ c) ++ d = p ++ w ++ s ∧ p ++ s = x :=
  ⟨a ++ b, c ++ d, by simp only [List.append_assoc], by rw [h]; simp only [List.append_assoc]⟩

theorem apply_single_update_inserts (content w result : List Char) (n i : Int)
    (h : apply_single_update content n i w = some result) :
    ∃ p s : List Char,
      remove_whitespace result = p ++ remove_whitespace w ++ s ∧
      p ++ s = remove_whitespace content := by
  by_cases hn : n < 0 ∨ n > ((split_into_sentences content).length : Int)
  · simp only [apply_single_update, hn, if_true] at h
    cases h
  · by_cases hi : i < 0 ∨ i > ((split_into_words
        ((if n = ((split_into_sentences content).length : Int)
          then split_into_sentences content ++ [[]]
          else split_into_sentences content).getD n.toNat [])).length : Int)
    · simp only [apply_single_update, hn, hi, if_true, if_false] at h
      cases h
    · simp only [apply_single_update, hn, hi, if_false, Option.some.injEq] at h
      subst h
      rw [remove_whitespace_join_sentences, remove_whitespace_split_into_sentences,
        remove_whitespace_join_sentences]
      have hlen : n.toNat <
          (if n = ((split_into_sentences content).length : Int)
            then split_into_sentences content ++ [[]]
            else split_into_sentences content).length := by
        split
        · simp only [List.length_append, List.length_singleton]
          omega
        · omega
      obtain ⟨hset, _⟩ := remove_whitespace_all_set _ n.toNat
        (join_words
          (List.take i.toNat (split_into_words
              ((if n = ((split_into_sentences content).length : Int)
                then split_into_sentences content ++ [[]]
                else split_into_sentences content).getD n.toNat []))
            ++ split_string w ' '
            ++ List.drop i.toNat (split_into_words
              ((if n = ((split_into_sentences content).length : Int)
                then split_into_sentences content ++ [[]]
                else split_into_sentences content).getD n.toNat []))))
        hlen
      have hcontent : remove_whitespace_all
          (if n = ((split_into_sentences content).length : Int)
            then split_into_sentences content ++ [[]]
            else split_into_sentences content) = remove_whitespace content := by
        split
        · rw [remove_whitespace_all_append, remove_whitespace_split_into_sentences]
          simp [remove_whitespace_all, remove_whitespace]
        · exact remove_whitespace_split_into_sentences content
      rw [hset, remove_whitespace_join_words, remove_whitespace_all_append,
        remove_whitespace_all_append, remove_whitespace_split_string]
      have hwords := remove_whitespace_all_sentence _ n.toNat i.toNat hlen
      rw [hcontent] at hwords
      exact insert_shape _ _ _ _ _ _ hwords

/-! ## Index translation across the commits of other sessions -/

theorem split_loop_append_delim (x y : List Char) (d : Char) (hd : is_delimiter d = true) :
    ∀ (cur : List Char) (skip : Bool),
      split_into_sentences_loop cur skip (x ++ d :: y)
        = split_into_sentences_loop cur skip (x ++ [d]) ++ split_into_sentences_loop [] true y := by
  induction x with
  | nil => intro cur skip; simp [split_into_sentences_loop, hd]
  | cons c x ih =>
    intro cur skip
    simp only [List.cons_append, split_into_sentences_loop]
    split
    · simp [ih]
    · split
      · exact ih _ _
      · exact ih _ _

theorem split_loop_delim_ne_nil (x : List Char) (d : Char) (hd : is_delimiter d = true) :
    ∀ (cur : List Char) (skip : Bool), split_into_sentences_loop cur skip (x ++ [d]) ≠ [] := by
  induction x with
  | nil => intro cur skip; simp [split_into_sentences_loop, hd]
  | cons c x ih =>
    intro cur skip
    simp only [List.cons_append, split_into_sentences_loop]
    split
    · simp
    · split
      · exact ih _ _
      · exact ih _ _

theorem join_sentences_cons_ne_nil (s : List Char) (l : List (List Char)) (hl : l ≠ []) :
    join_sentences (s :: l) = s ++ ' ' :: join_sentences l ∨
      join_sentences (s :: l) = s ++ join_sentences l := by
  cases l with
  | nil => exact absurd rfl hl
  | cons next rest =>
    by_cases h : first_char next = ' '
    · right; simp [join_sentences, h]
    · left; simp [join_sentences, h]

/-- Tokenizing a join whose first sentence is complete: the sentence comes out
and the tokenizer goes on, after the delimiter, with the rest of the join. -/
theorem split_join_cons_complete (q : List Char) (l : List (List Char)) (hl : l ≠ [])
    (hq : Complete q) (strict : Bool) (hh : strict = true → NoWsHead q) :
    split_into_sentences_loop [] strict (join_sentences (q :: l))
      = q :: split_into_sentences_loop [] true (join_sentences l) := by
  rcases join_sentences_cons_ne_nil q l hl with h | h
  · rw [h, split_loop_complete hq strict hh, split_loop_skip_space]
  · rw [h, split_loop_complete hq strict hh]

/-- Tokenizing a join whose first sentence is any text that ends with a
delimiter: the sentences of that text, then those of the rest of the join. -/
theorem split_join_cons_delim (x : List Char) (d : Char) (hd : is_delimiter d = true)
    (l : List (List Char)) (hl : l ≠ []) (strict : Bool) :
    split_into_sentences_loop [] strict (join_sentences ((x ++ [d]) :: l))
      = split_into_sentences_loop [] strict (x ++ [d])
        ++ split_into_sentences_loop [] true (join_sentences l) := by
  rcases join_sentences_cons_ne_nil (x ++ [d]) l hl with h | h
  · rw [h, List.append_assoc, List.singleton_append, split_loop_append_delim x _ d hd,
      split_loop_skip_space]
  · rw [h, List.append_assoc, List.singleton_append, split_loop_append_delim x _ d hd]

theorem WellFormed.of_cons {strict : Bool} {s : List Char} {t : List (List Char)}
    (h : WellFormed strict (s :: t)) (ht : t ≠ []) :
    Complete s ∧ (strict = true → NoWsHead s) ∧ WellFormed true t := by
  cases h with
  | last _ _ _ _ _ => exact absurd rfl ht
  | cons _ _ _ hc hh hrest => exact ⟨hc, hh, hrest⟩

/-- Replacing one sentence that has a successor by a text that ends with a
delimiter: the sentences before and after it are kept, and the text's own
sentences take its place. -/
theorem split_join_replace (old : List Char) (x : List Char) (d : Char)
    (hd : is_delimiter d = true) (t : List (List Char)) (ht : t ≠ []) :
    ∀ (q1 : List (List Char)) (strict : Bool), WellFormed strict (q1 ++ old :: t) →
      split_into_sentences_loop [] strict (join_sentences (q1 ++ (x ++ [d]) :: t))
        = q1 ++ split_into_sentences_loop [] (strict || !q1.isEmpty) (x ++ [d]) ++ t := by
  intro q1
  induction q1 with
  | nil =>
    intro strict h
    obtain ⟨_, _, hrest⟩ := h.of_cons ht
    simp only [List.nil_append, List.isEmpty_nil, Bool.not_true, Bool.or_false]
    rw [split_join_cons_delim x d hd t ht, split_join_wellFormed t true hrest]
  | cons q q1 ih =>
    intro strict h
    obtain ⟨hc, hh, hrest⟩ := h.of_cons (by simp)
    simp only [List.cons_append, List.isEmpty_cons, Bool.not_false, Bool.or_true]
    rw [split_join_cons_complete q _ (by simp) hc strict hh, ih true hrest]
    simp

theorem WellFormed.complete_of_mem_init {strict : Bool} :
    ∀ (q1 : List (List Char)) (old : List Char) (t : List (List Char)), t ≠ [] →
      WellFormed strict (q1 ++ old :: t) → Complete old := by
  intro q1
  induction q1 generalizing strict with
  | nil => intro old t ht h; exact (h.of_cons ht).1
  | cons q q1 ih =>
    intro old t ht h
    exact ih old t ht (h.of_cons (by simp)).2.2

theorem words_loop_complete (body : List Char) (d : Char) (hd : is_delimiter d = true) :
    ∀ cur, ∃ pre, split_into_words_loop cur (body ++ [d]) = pre ++ [[d]] := by
  induction body with
  | nil =>
    intro cur
    refine ⟨if cur = [] then [] else [cur], ?_⟩
    rw [List.nil_append, words_loop_delimiter _ _ _ hd]
    simp [split_into_words_loop]
  | cons b body ih =>
    intro cur
    simp only [List.cons_append, split_into_words_loop]
    split
    · split
      · exact ih _
      · obtain ⟨pre, hpre⟩ := ih []
        exact ⟨cur :: pre, by simp [hpre]⟩
    · split
      · split
        · obtain ⟨pre, hpre⟩ := ih []
          exact ⟨[b] :: pre, by simp [hpre]⟩
        · obtain ⟨pre, hpre⟩ := ih []
          exact ⟨cur :: [b] :: pre, by simp [hpre]⟩
      · exact ih _

theorem join_words_ends_delim (d : Char) :
    ∀ ws : List (List Char), ∃ x, join_words (ws ++ [[d]]) = x ++ [d] := by
  intro ws
  induction ws with
  | nil => exact ⟨[], by simp [join_words]⟩
  | cons w ws ih =>
    obtain ⟨x, hx⟩ := ih
    cases hws : ws ++ [[d]] with
    | nil => simp at hws
    | cons next rest =>
      rw [hws] at hx
      simp only [List.cons_append, hws, join_words]
      split
      · exact ⟨w ++ ' ' :: x, by simp [hx]⟩
      · exact ⟨w ++ x, by simp [hx]⟩

/-- An update before the last word of a complete sentence that has a successor:
the update succeeds, the sentences after the edited one are kept, and those
before it are kept with at least one sentence in place of the edited one. -/
theorem apply_single_update_ahead (content : List Char) (q s : List (List Char))
    (hsplit : split_into_sentences content = q ++ s) (hs : s ≠ []) (m : Nat)
    (hm : m < q.length) (i : Int) (hi : 0 ≤ i ∧ i < target_word_count content m)
    (w : List Char) :
    ∃ final q2, apply_single_update content m i w = some final ∧
      split_into_sentences final = q2 ++ s ∧ q.length ≤ q2.length := by
  have hwf := split_into_sentences_wellFormed content
  rw [hsplit] at hwf
  -- the sentence list around the target
  have hq : q.take m ++ q[m] :: q.drop (m + 1) = q := by
    rw [← List.drop_eq_getElem_cons hm, List.take_append_drop]
  have hlist : q ++ s = q.take m ++ q[m] :: (q.drop (m + 1) ++ s) := by
    rw [← List.cons_append, ← List.append_assoc, hq]
  have hget : (q ++ s).getD m [] = q[m] := by
    rw [List.getD_eq_getElem?_getD, List.getElem?_append_left hm, List.getElem?_eq_getElem hm]
    rfl
  have ht : q.drop (m + 1) ++ s ≠ [] := by simp [hs]
  rw [hlist] at hwf
  obtain ⟨body, d, hold, hd, _⟩ := WellFormed.complete_of_mem_init _ _ _ ht hwf
  obtain ⟨pre, hpre⟩ := words_loop_complete body d hd []
  have hwords : split_into_words ((split_into_sentences content).getD m []) = pre ++ [[d]] := by
    rw [hsplit, hget, hold]; exact hpre
  have hwc : target_word_count content m = (pre.length : Int) + 1 := by
    simp only [target_word_count, Int.toNat_ofNat, hwords]
    simp
  -- the result of the update
  have hn1 : ¬ ((m : Int) < 0 ∨ (m : Int) > ((q ++ s).length : Int)) := by
    simp; omega
  have hn2 : ¬ ((m : Int) = ((q ++ s).length : Int)) := by
    simp; omega
  have hwords2 : split_into_words ((q ++ s).getD m []) = pre ++ [[d]] := by
    rw [← hsplit]; exact hwords
  have hn3 : ¬ (i < 0 ∨ i > ((pre ++ [[d]]).length : Int)) := by
    simp; omega
  have hi2 : i.toNat ≤ pre.length := by omega
  obtain ⟨x, hx⟩ := join_words_ends_delim d
    (pre.take i.toNat ++ split_string w ' ' ++ pre.drop i.toNat)
  have hfinal : join_words ((pre ++ [[d]]).take i.toNat ++ split_string w ' '
      ++ (pre ++ [[d]]).drop i.toNat) = x ++ [d] := by
    rw [← hx, List.take_append_of_le_length hi2, List.drop_append_of_le_length hi2]
    simp
  have hset : (q ++ s).set m (x ++ [d]) = q.take m ++ (x ++ [d]) :: (q.drop (m + 1) ++ s) := by
    rw [List.set_eq_take_append_cons_drop, if_pos (by simp; omega),
      List.take_append_of_le_length (Nat.le_of_lt hm), List.drop_append_of_le_length hm]
  have happly : apply_single_update content m i w = some (join_sentences
      (split_into_sentences (join_sentences ((q ++ s).set m (x ++ [d]))))) := by
    unfold apply_single_update
    rw [hsplit]
    simp only [Int.toNat_ofNat, hn1, hn2, if_false, hwords2, hn3, hfinal]
  refine ⟨_, q.take m ++ split_into_sentences_loop [] (false || !(q.take m).isEmpty) (x ++ [d])
    ++ q.drop (m + 1), happly, ?_, ?_⟩
  · rw [split_join_split, hset]
    rw [show split_into_sentences = split_into_sentences_loop [] false from rfl,
      split_join_replace q[m] x d hd _ ht _ false hwf]
    simp
  · have h1 := split_loop_delim_ne_nil x d hd [] (false || !(q.take m).isEmpty)
    have h2 : 1 ≤ (split_into_sentences_loop [] (false || !(q.take m).isEmpty) (x ++ [d])).length :=
      List.length_pos.2 h1
    simp only [List.length_append, List.length_take, List.length_drop]
    omega

theorem apply_updates_ahead (s : List (List Char)) (hs : s ≠ []) (m : Nat)
    (updates : List UpdateNode) :
    ∀ (content : List Char) (q : List (List Char)),
      split_into_sentences content = q ++ s → m < q.length →
      inserts_before_last_word content m updates = true →
      ∃ final q2, apply_updates content m updates = some final ∧
        split_into_sentences final = q2 ++ s ∧ q.length ≤ q2.length := by
  induction updates with
  | nil => intro content q hsplit _ _; exact ⟨content, q, rfl, hsplit, le_refl _⟩
  | cons u rest ih =>
    intro content q hsplit hm hins
    simp only [inserts_before_last_word, Bool.and_eq_true, decide_eq_true_eq] at hins
    obtain ⟨⟨h0, h1⟩, hrest⟩ := hins
    obtain ⟨next, q1, hnext, hsplit1, hlen1⟩ :=
      apply_single_update_ahead content q s hsplit hs m hm u.word_idx ⟨h0, h1⟩ u.content
    rw [hnext] at hrest
    obtain ⟨final, q2, hfinal, hsplit2, hlen2⟩ := ih next q1 hsplit1 (by omega) hrest
    exact ⟨final, q2, by simp [apply_updates, hnext, hfinal], hsplit2, by omega⟩

theorem WellFormed.head_strict {strict : Bool} {s : List Char} {t : List (List Char)}
    (h : WellFormed strict (s :: t)) : strict = true → NoWsHead s := by
  cases h with
  | last _ _ _ _ hh => exact hh
  | cons _ _ _ _ hh _ => exact hh

/-- Tokenizing a join that starts with complete sentences: they come out as they
are, whatever follows them. -/
theorem split_join_keep_prefix (sx : List Char) (hc : Complete sx) (r r2 : List (List Char))
    (hr2 : r2 ≠ []) :
    ∀ (q : List (List Char)) (strict : Bool), WellFormed strict (q ++ sx :: r) →
      split_into_sentences_loop [] strict (join_sentences (q ++ sx :: r2))
        = q ++ sx :: split_into_sentences_loop [] true (join_sentences r2) := by
  intro q
  induction q with
  | nil =>
    intro strict h
    exact split_join_cons_complete sx r2 hr2 hc strict h.head_strict
  | cons a q ih =>
    intro strict h
    obtain ⟨ha, hh, hrest⟩ := h.of_cons (by simp)
    simp only [List.cons_append]
    rw [split_join_cons_complete a _ (by simp) ha strict hh, ih true hrest]

/-- The shape of a successful update: the sentence list, with an empty sentence
added for an append, gets a new sentence at the target index and is joined,
tokenized and joined again. -/
theorem apply_single_update_some (content : List Char) (m i : Int) (w final : List Char)
    (h : apply_single_update content m i w = some final) :
    ∃ (sentences : List (List Char)) (new : List Char),
      final = join_sentences (split_into_sentences (join_sentences
        (sentences.set m.toNat new))) ∧
      ((m = ((split_into_sentences content).length : Int) ∧
          sentences = split_into_sentences content ++ [[]]) ∨
        (m < ((split_into_sentences content).length : Int) ∧
          sentences = split_into_sentences content)) := by
  unfold apply_single_update at h
  by_cases h1 : m < 0 ∨ m > ((split_into_sentences content).length : Int)
  · simp [h1] at h
  · simp only [h1, if_false] at h
    by_cases he : m = ((split_into_sentences content).length : Int)
    · simp only [he, if_true] at h
      split at h
      · exact absurd h (by simp)
      · simp only [Option.some.injEq] at h
        exact ⟨_, _, by rw [he]; exact h.symm, Or.inl ⟨he, rfl⟩⟩
    · simp only [he, if_false] at h
      split at h
      · exact absurd h (by simp)
      · simp only [Option.some.injEq] at h
        exact ⟨_, _, h.symm, Or.inr ⟨by omega, rfl⟩⟩

/-- An update behind a complete sentence keeps that sentence and all the
sentences before it. -/
theorem apply_single_update_behind (content : List Char) (q : List (List Char))
    (sx : List Char) (r : List (List Char))
    (hsplit : split_into_sentences content = q ++ sx :: r) (hc : Complete sx) (m : Int)
    (hm : (q.length : Int) < m) (i : Int) (w final : List Char)
    (h : apply_single_update content m i w = some final) :
    ∃ r2, split_into_sentences final = q ++ sx :: r2 := by
  have hwf := split_into_sentences_wellFormed content
  rw [hsplit] at hwf
  obtain ⟨sentences, new, hfinal, hsent⟩ := apply_single_update_some content m i w final h
  rw [hsplit] at hsent
  have hlen : ((q ++ sx :: r).length : Int) = q.length + 1 + r.length := by
    simp; omega
  obtain ⟨j, hj⟩ : ∃ j, m.toNat = q.length + (j + 1) := ⟨m.toNat - q.length - 1, by omega⟩
  have hset : ∃ r1, r1 ≠ [] ∧ sentences.set m.toNat new = q ++ sx :: r1 := by
    rcases hsent with ⟨he, hs⟩ | ⟨he, hs⟩
    · refine ⟨(r ++ [[]]).set j new, by simp, ?_⟩
      rw [hs, hj, List.append_assoc, List.set_append_right _ _ (by omega),
        Nat.add_sub_cancel_left]
      rfl
    · refine ⟨r.set j new, ?_, ?_⟩
      · have : r ≠ [] := by
          intro hr
          subst hr
          simp at hlen he
          omega
        simpa using this
      · rw [hs, hj, List.set_append_right _ _ (by omega), Nat.add_sub_cancel_left]
        rfl
  obtain ⟨r1, hr1, hr1e⟩ := hset
  refine ⟨split_into_sentences_loop [] true (join_sentences r1), ?_⟩
  rw [hfinal, split_join_split, hr1e]
  exact split_join_keep_prefix sx hc r r1 hr1 q false hwf

theorem apply_updates_behind (q : List (List Char)) (sx : List Char) (hc : Complete sx) (m : Int)
    (hm : (q.length : Int) < m) (updates : List UpdateNode) :
    ∀ (content : List Char) (r : List (List Char)),
      split_into_sentences content = q ++ sx :: r →
      ∀ final, apply_updates content m updates = some final →
        ∃ r2, split_into_sentences final = q ++ sx :: r2 := by
  induction updates with
  | nil =>
    intro content r hsplit final h
    simp only [apply_updates, Option.some.injEq] at h
    exact ⟨r, h ▸ hsplit⟩
  | cons u rest ih =>
    intro content r hsplit final h
    simp only [apply_updates] at h
    cases hu : apply_single_update content m u.word_idx u.content with
    | none => rw [hu] at h; exact absurd h (by simp)
    | some next =>
      rw [hu] at h
      obtain ⟨r1, hr1⟩ := apply_single_update_behind content q sx r hsplit hc m hm _ _ _ hu
      exact ih next r1 hr1 final h

theorem shift_loop_append (f : String) (n k : Int) (l1 l2 : List ModificationLogNode) :
    ∀ acc, get_sentence_shift_loop f n k acc (l1 ++ l2)
      = get_sentence_shift_loop f n k (get_sentence_shift_loop f n k acc l1) l2 := by
  induction l1 with
  | nil => intro acc; rfl
  | cons e l1 ih =>
    intro acc
    simp only [List.cons_append, get_sentence_shift_loop]
    split
    · split
      · split
        · exact ih _
        · exact ih _
      · exact ih _
    · exact ih _

theorem get_sentence_shift_log_modification (st : StorageServer) (f : String) (m d n k : Int)
    (hk : k ≤ st.next_log_id) :
    get_sentence_shift (log_modification st f m d) f n k
      = get_sentence_shift st f n k + if m < n then d else 0 := by
  unfold log_modification
  split
  · rename_i h; simp [h]
  · have hge : st.next_log_id ≥ k := hk
    by_cases hm : m < n <;>
      simp [get_sentence_shift, shift_loop_append, get_sentence_shift_loop, hge, hm]

theorem get_sentence_shift_commit_state (st : StorageServer) (d2 : Disk) (f : String)
    (m delta : Int) (g : String) (j n k : Int) (hk : k ≤ st.next_log_id) :
    get_sentence_shift (unlock_sentence (log_modification { st with disk := d2 } f m delta) g j)
      f n k = get_sentence_shift st f n k + if m < n then delta else 0 := by
  have h : get_sentence_shift
      (unlock_sentence (log_modification { st with disk := d2 } f m delta) g j) f n k
      = get_sentence_shift (log_modification { st with disk := d2 } f m delta) f n k := rfl
  rw [h]
  exact (get_sentence_shift_log_modification { st with disk := d2 } f m delta n k hk).trans
    (by rw [get_sentence_shift_disk])

theorem log_modification_next_log_id_le (st : StorageServer) (f : String) (m d : Int) :
    st.next_log_id ≤ (log_modification st f m d).next_log_id := by
  unfold log_modification
  split
  · exact le_refl _
  · show st.next_log_id ≤ st.next_log_id + 1
    omega

theorem countP_delimiter_remove_whitespace (s : List Char) :
    (remove_whitespace s).countP is_delimiter = s.countP is_delimiter := by
  induction s with
  | nil => rfl
  | cons c s ih =>
    simp only [remove_whitespace] at ih ⊢
    by_cases hd : is_delimiter c = true
    · have hs := isspace_of_is_delimiter hd
      simp [List.filter, hs, hd, ih]
    · by_cases hs : isspace c = true
      · simp [List.filter, hs, hd, ih]
      · simp [List.filter, hs, hd, ih]

theorem countP_delimiter_remove_whitespace_all (l : List (List Char)) :
    (remove_whitespace_all l).countP is_delimiter
      = (l.map fun s => s.countP is_delimiter).sum := by
  induction l with
  | nil => rfl
  | cons s l ih =>
    rw [remove_whitespace_all_cons, List.countP_append, ih,
      countP_delimiter_remove_whitespace]
    rfl

theorem countP_delimiter_sentences (content : List Char) :
    content.countP is_delimiter
      = ((split_into_sentences content).map fun s => s.countP is_delimiter).sum := by
  rw [← countP_delimiter_remove_whitespace_all, remove_whitespace_split_into_sentences,
    countP_delimiter_remove_whitespace]

theorem countP_delimiter_complete (q : List (List Char)) (h : ∀ s ∈ q, Complete s) :
    (q.map fun s => s.countP is_delimiter).sum = q.length := by
  induction q with
  | nil => rfl
  | cons s q ih =>
    obtain ⟨body, d, hs, hd, hbody⟩ := h s (List.mem_cons_self _ _)
    have hzero : body.countP is_delimiter = 0 :=
      List.countP_eq_zero.2 fun c hc => by simp [hbody c hc]
    simp only [List.map_cons, List.sum_cons, List.length_cons,
      ih (fun a ha => h a (List.mem_cons_of_mem _ ha)), hs, List.countP_append, hzero]
    simp [List.countP_cons, hd]
    omega

theorem WellFormed.complete_of_mem_before {strict : Bool} (q s : List (List Char))
    (hs : s ≠ []) (h : WellFormed strict (q ++ s)) : ∀ a ∈ q, Complete a := by
  intro a ha
  obtain ⟨q1, q2, rfl⟩ := List.append_of_mem ha
  rw [List.append_assoc, List.cons_append] at h
  exact WellFormed.complete_of_mem_init q1 a (q2 ++ s) (by simp [hs]) h

theorem sentences_before_le (c1 c2 : List Char) (q1 q2 s : List (List Char)) (hs : s ≠ [])
    (h1 : split_into_sentences c1 = q1 ++ s) (h2 : split_into_sentences c2 = q2 ++ s)
    (hd : c1.countP is_delimiter ≤ c2.countP is_delimiter) : q1.length ≤ q2.length := by
  have hw1 := split_into_sentences_wellFormed c1
  have hw2 := split_into_sentences_wellFormed c2
  rw [h1] at hw1
  rw [h2] at hw2
  rw [countP_delimiter_sentences c1, countP_delimiter_sentences c2, h1, h2, List.map_append,
    List.map_append, List.sum_append, List.sum_append,
    countP_delimiter_complete q1 (hw1.complete_of_mem_before q1 s hs),
    countP_delimiter_complete q2 (hw2.complete_of_mem_before q2 s hs)] at hd
  omega

theorem apply_single_update_delimiters (content w result : List Char) (n i : Int)
    (h : apply_single_update content n i w = some result) :
    content.countP is_delimiter ≤ result.countP is_delimiter := by
  obtain ⟨p, s, hres, hcontent⟩ := apply_single_update_inserts content w result n i h
  rw [← countP_delimiter_remove_whitespace content, ← countP_delimiter_remove_whitespace result,
    hres, ← hcontent]
  simp only [List.countP_append]
  omega

theorem apply_updates_delimiters (m : Int) (updates : List UpdateNode) :
    ∀ content final : List Char, apply_updates content m updates = some final →
      content.countP is_delimiter ≤ final.countP is_delimiter := by
  induction updates with
  | nil =>
    intro content final h
    simp only [apply_updates, Option.some.injEq] at h
    rw [h]
  | cons u rest ih =>
    intro content final h
    simp only [apply_updates] at h
    cases hu : apply_single_update content m u.word_idx u.content with
    | none => rw [hu] at h; exact absurd h (by simp)
    | some next =>
      rw [hu] at h
      exact le_trans (apply_single_update_delimiters content _ next m _ hu) (ih next final h)

theorem after_commit_delimiters (st : StorageServer) (c : SessionCommit) :
    ((st.disk c.sess.filename).getD []).countP is_delimiter
      ≤ (((after_commit st c).disk c.sess.filename).getD []).countP is_delimiter := by
  obtain ⟨sess, updates, bok, ok⟩ := c
  simp only [after_commit]
  cases ha : apply_updates ((st.disk sess.filename).getD []) (effective_target st sess)
      updates with
  | none =>
    rw [commit_at_of_apply_none st sess updates bok ok ha]
    simp only [create_undo_backup_file, le_refl]
  | some final =>
    cases ok with
    | false =>
      rw [commit_at_of_write_failure st sess updates bok final ha]
      simp only [create_undo_backup_file, le_refl]
    | true =>
      rw [commit_at_of_success st sess updates bok final ha]
      simp only [unlock_sentence, log_modification_disk, Function.update_same,
        Option.getD_some]
      exact apply_updates_delimiters _ updates _ final ha

theorem after_commit_shift (st : StorageServer) (c : SessionCommit) (n k : Int)
    (hk : k ≤ st.next_log_id) :
    get_sentence_shift (after_commit st c) c.sess.filename n k
      = get_sentence_shift st c.sess.filename n k
        + (if effective_target st c.sess < n then
            ((file_sentences (after_commit st c) c.sess.filename).length : Int)
              - (file_sentences st c.sess.filename).length
          else 0) := by
  obtain ⟨sess, updates, bok, ok⟩ := c
  simp only [after_commit]
  have hfailed : ∀ locks : List SentenceLockNode,
      get_sentence_shift { st with
          disk := create_undo_backup st.disk sess.filename (sess.filename ++ ".undo") bok
          sentence_locks_head := locks } sess.filename n k
        = get_sentence_shift st sess.filename n k
          + (if effective_target st sess < n then
              ((file_sentences { st with
                  disk := create_undo_backup st.disk sess.filename (sess.filename ++ ".undo")
                    bok
                  sentence_locks_head := locks } sess.filename).length : Int)
                - (file_sentences st sess.filename).length
            else 0) := by
    intro locks
    have hshift : get_sentence_shift { st with
          disk := create_undo_backup st.disk sess.filename (sess.filename ++ ".undo") bok
          sentence_locks_head := locks } sess.filename n k
        = get_sentence_shift st sess.filename n k := rfl
    rw [hshift]
    simp only [file_sentences, get_file_content, create_undo_backup_file]
    split <;> omega
  cases ha : apply_updates ((st.disk sess.filename).getD []) (effective_target st sess)
      updates with
  | none => rw [commit_at_of_apply_none st sess updates bok ok ha]; exact hfailed _
  | some final =>
    cases ok with
    | false => rw [commit_at_of_write_failure st sess updates bok final ha]; exact hfailed _
    | true =>
      rw [commit_at_of_success st sess updates bok final ha,
        get_sentence_shift_commit_state _ _ _ _ _ _ _ _ _ hk]
      simp only [file_sentences, get_file_content, unlock_sentence, log_modification_disk,
        Function.update_same, Option.getD_some]

theorem after_commit_log (st : StorageServer) (c : SessionCommit)
    (h : ∀ e ∈ st.mod_log_head, e.id < st.next_log_id) :
    (∀ e ∈ (after_commit st c).mod_log_head, e.id < (after_commit st c).next_log_id) ∧
      st.next_log_id ≤ (after_commit st c).next_log_id := by
  obtain ⟨sess, updates, bok, ok⟩ := c
  simp only [after_commit]
  cases ha : apply_updates ((st.disk sess.filename).getD []) (effective_target st sess)
      updates with
  | none => rw [commit_at_of_apply_none st sess updates bok ok ha]; exact ⟨h, le_refl _⟩
  | some final =>
    cases ok with
    | false =>
      rw [commit_at_of_write_failure st sess updates bok final ha]; exact ⟨h, le_refl _⟩
    | true =>
      rw [commit_at_of_success st sess updates bok final ha]
      exact ⟨log_modification_ids _ _ _ _ h, log_modification_next_log_id_le _ _ _ _⟩

theorem tracks_after_commit (f : String) (n : Nat) (k : Int) (sx : List Char)
    (st : StorageServer) (c : SessionCommit) (h : Tracks f n k sx st)
    (hkeep : keeps_in_place ⟨f, n, k⟩ st c = true) :
    Tracks f n k sx (after_commit st c) := by
  obtain ⟨q, r, hsplit, hshift, hnq, hlog, hk⟩ := h
  simp only [keeps_in_place, Bool.and_eq_true, Bool.or_eq_true, decide_eq_true_eq] at hkeep
  obtain ⟨⟨hf, hplace⟩, hcount⟩ := hkeep
  have hp : effective_target st ⟨f, n, k⟩ = (q.length : Int) := by
    simp only [effective_target]
    exact hshift
  have hnew := after_commit_shift st c n k hk
  have hdel := after_commit_delimiters st c
  rw [hf] at hnew hdel
  obtain ⟨hlog2, hnext⟩ := after_commit_log st c hlog
  rw [hp] at hplace hcount
  simp only [Int.toNat_ofNat, hsplit, List.length_append, List.length_cons] at hplace hcount hnew
  by_cases ht : effective_target st c.sess < (q.length : Int)
  · rw [if_pos ht, decide_eq_true_eq] at hplace
    have hk2 : q.length + (r.length + 1) - q.length = r.length + 1 := by omega
    rw [hk2] at hplace
    have hold : last_sentences (r.length + 1) (q ++ sx :: r) = sx :: r := by
      simp only [last_sentences, List.length_append, List.length_cons]
      rw [show q.length + (r.length + 1) - (r.length + 1) = q.length by omega]
      simp
    rw [hold] at hplace
    simp only [last_sentences] at hplace
    have hafter := List.take_append_drop
      ((file_sentences (after_commit st c) f).length - (r.length + 1))
      (file_sentences (after_commit st c) f)
    rw [hplace] at hafter
    have hlen := congrArg List.length hafter
    simp only [List.length_append, List.length_cons, List.length_take] at hlen
    have hle := sentences_before_le ((st.disk f).getD []) (((after_commit st c).disk f).getD [])
      q _ (sx :: r) (by simp) hsplit hafter.symm hdel
    rw [List.length_take] at hle
    refine ⟨_, r, hafter.symm, ?_, by rw [List.length_take]; omega, hlog2, le_trans hk hnext⟩
    rw [hnew, List.length_take]
    rcases hcount with (hc | hc) | hc
    · rw [hc]
      split <;> omega
    · rw [if_pos hc]
      omega
    · omega
  · rw [if_neg ht, decide_eq_true_eq] at hplace
    have hold : (q ++ sx :: r).take (q.length + 1) = q ++ [sx] := by
      rw [List.take_append_eq_append_take]
      simp
    rw [hold] at hplace
    have hafter := List.take_append_drop (q.length + 1) (file_sentences (after_commit st c) f)
    rw [hplace, List.append_assoc, List.singleton_append] at hafter
    refine ⟨q, _, hafter.symm, ?_, hnq, hlog2, le_trans hk hnext⟩
    have hn : ¬ effective_target st c.sess < (n : Int) := by omega
    rw [hnew, if_neg hn]
    omega

theorem tracks_run_commits (f : String) (n : Nat) (k : Int) (sx : List Char)
    (commits : List SessionCommit) :
    ∀ st : StorageServer, Tracks f n k sx st →
      leave_in_place ⟨f, n, k⟩ st commits = true →
      Tracks f n k sx (run_commits st commits) := by
  induction commits with
  | nil => intro st h _; exact h
  | cons c rest ih =>
    intro st h hgood
    simp only [leave_in_place, Bool.and_eq_true] at hgood
    exact ih _ (tracks_after_commit f n k sx st c h hgood.1) hgood.2

theorem last_sentences_append (q s : List (List Char)) :
    last_sentences s.length (q ++ s) = s := by
  simp [last_sentences]

theorem keeps_in_place_of_unchanged (mine : WriteSession) (st : StorageServer)
    (c : SessionCommit) (hf : c.sess.filename = mine.filename)
    (h : file_sentences (after_commit st c) mine.filename = file_sentences st mine.filename) :
    keeps_in_place mine st c = true := by
  simp [keeps_in_place, hf, h]

theorem after_commit_of_failed (st : StorageServer) (c : SessionCommit)
    (hfail : (handle_ss_write_commit_at c.sess.filename (c.sess.filename ++ ".undo")
      c.backup_ok st c.sess c.updates c.fopen_ok).reply ≠ "200 OK: Write Successful!") :
    file_sentences (after_commit st c) c.sess.filename = file_sentences st c.sess.filename := by
  obtain ⟨sess, updates, bok, ok⟩ := c
  simp only [after_commit] at hfail ⊢
  cases ha : apply_updates ((st.disk sess.filename).getD []) (effective_target st sess)
      updates with
  | none =>
    rw [commit_at_of_apply_none st sess updates bok ok ha]
    simp only [file_sentences, get_file_content, create_undo_backup_file]
  | some final =>
    cases ok with
    | false =>
      rw [commit_at_of_write_failure st sess updates bok final ha]
      simp only [file_sentences, get_file_content, create_undo_backup_file]
    | true =>
      rw [commit_at_of_success st sess updates bok final ha] at hfail
      exact absurd rfl hfail

theorem keeps_in_place_of_failed (mine : WriteSession) (st : StorageServer)
    (c : SessionCommit) (hf : c.sess.filename = mine.filename)
    (hfail : (handle_ss_write_commit_at c.sess.filename (c.sess.filename ++ ".undo")
      c.backup_ok st c.sess c.updates c.fopen_ok).reply ≠ "200 OK: Write Successful!") :
    keeps_in_place mine st c = true :=
  keeps_in_place_of_unchanged mine st c hf (hf ▸ after_commit_of_failed st c hfail)

theorem keeps_in_place_of_ahead (f : String) (n : Nat) (k : Int) (sx : List Char)
    (q r : List (List Char)) (st : StorageServer) (c : SessionCommit)
    (hsplit : file_sentences st f = q ++ sx :: r)
    (hp : effective_target st ⟨f, n, k⟩ = q.length) (hnq : n ≤ q.length)
    (hf : c.sess.filename = f) (h0 : 0 ≤ effective_target st c.sess)
    (hn : effective_target st c.sess < n)
    (hins : inserts_before_last_word ((st.disk f).getD []) (effective_target st c.sess)
      c.updates = true) :
    keeps_in_place ⟨f, n, k⟩ st c = true := by
  by_cases hreply : (handle_ss_write_commit_at c.sess.filename (c.sess.filename ++ ".undo")
      c.backup_ok st c.sess c.updates c.fopen_ok).reply = "200 OK: Write Successful!"
  swap
  · exact keeps_in_place_of_failed _ st c hf hreply
  obtain ⟨sess, updates, bok, ok⟩ := c
  simp only at hf h0 hn hins hreply
  subst hf
  have hm : effective_target st sess = ((effective_target st sess).toNat : Int) := by omega
  have hmq : (effective_target st sess).toNat < q.length := by omega
  rw [hm] at hins
  simp only [file_sentences, get_file_content] at hsplit
  obtain ⟨final, q2, hfinal, hsplit2, _⟩ :=
    apply_updates_ahead (sx :: r) (by simp) _ updates _ q hsplit hmq hins
  rw [← hm] at hfinal
  have hafter : file_sentences (after_commit st ⟨sess, updates, bok, ok⟩) sess.filename
      = q2 ++ sx :: r := by
    have hw := commit_at_written st sess updates bok ok hreply
    simp only [after_commit, file_sentences, get_file_content, hw, hfinal, Option.getD_some,
      hsplit2]
  have hbefore : file_sentences st sess.filename = q ++ sx :: r := by
    simp only [file_sentences, get_file_content, hsplit]
  have hlt : effective_target st sess < (q.length : Int) := by omega
  have hk : (q ++ sx :: r).length - q.length = (sx :: r).length := by simp
  simp only [keeps_in_place, hp, hafter, hbefore, hlt, hn, if_true, Int.toNat_ofNat, hk,
    last_sentences_append, decide_True, Bool.and_self, Bool.or_true, Bool.true_or]

theorem keeps_in_place_of_behind (f : String) (n : Nat) (k : Int) (sx : List Char)
    (hc : Complete sx) (q r : List (List Char)) (st : StorageServer) (c : SessionCommit)
    (hsplit : file_sentences st f = q ++ sx :: r)
    (hp : effective_target st ⟨f, n, k⟩ = q.length) (hf : c.sess.filename = f)
    (hbehind : effective_target st ⟨f, n, k⟩ < effective_target st c.sess) :
    keeps_in_place ⟨f, n, k⟩ st c = true := by
  by_cases hreply : (handle_ss_write_commit_at c.sess.filename (c.sess.filename ++ ".undo")
      c.backup_ok st c.sess c.updates c.fopen_ok).reply = "200 OK: Write Successful!"
  swap
  · exact keeps_in_place_of_failed _ st c hf hreply
  obtain ⟨sess, updates, bok, ok⟩ := c
  simp only at hf hbehind hreply
  subst hf
  rw [hp] at hbehind
  have hw := commit_at_written st sess updates bok ok hreply
  simp only [file_sentences, get_file_content] at hsplit
  cases hfinal : apply_updates ((st.disk sess.filename).getD []) (effective_target st sess)
      updates with
  | none =>
    rw [commit_at_of_apply_none st sess updates bok ok hfinal] at hreply
    exact absurd (show "500 ERROR: Invalid update application during commit."
      = "200 OK: Write Successful!" from hreply) (by decide)
  | some final =>
    obtain ⟨r2, hsplit2⟩ :=
      apply_updates_behind q sx hc _ hbehind updates _ r hsplit final hfinal
    have hafter : file_sentences (after_commit st ⟨sess, updates, bok, ok⟩) sess.filename
        = q ++ sx :: r2 := by
      simp only [after_commit, file_sentences, get_file_content, hw, hfinal, Option.getD_some,
        hsplit2]
    have hbefore : file_sentences st sess.filename = q ++ sx :: r := by
      simp only [file_sentences, get_file_content, hsplit]
    have hlt : ¬ effective_target st sess < (q.length : Int) := by omega
    have hge : (q.length : Int) ≤ effective_target st sess := by omega
    have htake : ∀ t : List (List Char), (q ++ sx :: t).take (q.length + 1) = q ++ [sx] := by
      intro t
      rw [List.take_append_eq_append_take]
      simp
    simp only [keeps_in_place, hp, hafter, hbefore, hlt, hge, if_false, Int.toNat_ofNat, htake,
      decide_True, Bool.and_self, Bool.or_true]

theorem WellFormed.complete_of_ends_with_delimiter {s : List Char} :
    ∀ {l : List (List Char)} {strict : Bool}, WellFormed strict l → s ∈ l →
      ends_with_delimiter s = true → Complete s := by
  intro l
  induction l with
  | nil => intro _ _ hmem; simp at hmem
  | cons a l ih =>
    intro strict h hmem hend
    cases h with
    | last _ _ hne hnd _ =>
      simp only [List.mem_singleton] at hmem
      subst hmem
      simp only [ends_with_delimiter] at hend
      split at hend
      · rename_i c hlast
        have := hnd c (List.mem_of_getLast?_eq_some hlast)
        simp [this] at hend
      · simp at hend
    | cons _ _ _ hca _ hrest =>
      rcases List.mem_cons.1 hmem with rfl | hmem
      · exact hca
      · exact ih hrest hmem hend

set_option maxRecDepth 100000 in
/-- C1, counterexample. Three runs in which every other session is opened on an
index other than the one X asked for. Drift: on `A. B.`, X opens sentence 1
(`B.`) and Y opens sentence 0; Y commits `(2, "x")`; the content is then
`A. x B.`, the shift of X is 0, and the sentence at index `1 + 0` is `x B.`,
not `B.`. Gap: on `A. B. C. D.`, X opens sentence 3 (`D.`), Z sentence 2 and Y
sentence 0; Y commits `(0, "s.")` and Z commits `(0, "x.")`, which is logged at
the translated index 3 of Z; the content is `s. A. B. x. C. D.`, the shift of X
is 1, and the sentence at index `3 + 1` is `C.`, not `D.`. Overlap: on
`A. B. C.`, X opens sentence 2 (`C.`), Y opens sentence 0 and commits
`(0, "start.")`, Z opens sentence 3, which is the sentence of X, and commits
`(0, "!")`; the content is `start. A. B. ! C.`, the shift of X is 1, and the
sentence at index `2 + 1` is `!`, not `C.`. -/
theorem index_translation_fails :
    ((handle_ss_write_begin (ss_create (example_disk "A. B.".toList)) "a.txt" 1).session
        = some ⟨"a.txt", 1, 0⟩ ∧
      (split_into_sentences "A. B.".toList)[1]? = some "B.".toList ∧
      drift_started.session = some ⟨"a.txt", 0, 0⟩ ∧
      drift_commit_Y.reply = "200 OK: Write Successful!" ∧
      drift_commit_Y.ss.disk "a.txt" = some "A. x B.".toList ∧
      get_sentence_shift drift_commit_Y.ss "a.txt" 1 0 = 0 ∧
      (split_into_sentences ((drift_commit_Y.ss.disk "a.txt").getD []))[(1 +
        get_sentence_shift drift_commit_Y.ss "a.txt" 1 0).toNat]? = some "x B.".toList ∧
      "x B.".toList ≠ "B.".toList) ∧
    ((handle_ss_write_begin (ss_create (example_disk "A. B. C. D.".toList)) "a.txt" 3).session
        = some ⟨"a.txt", 3, 0⟩ ∧
      (split_into_sentences "A. B. C. D.".toList)[3]? = some "D.".toList ∧
      (handle_ss_write_begin
        (handle_ss_write_begin (ss_create (example_disk "A. B. C. D.".toList)) "a.txt" 3).ss
        "a.txt" 2).session = some ⟨"a.txt", 2, 0⟩ ∧
      gap_started.session = some ⟨"a.txt", 0, 0⟩ ∧
      gap_commit_Y.reply = "200 OK: Write Successful!" ∧
      gap_commit_Z.reply = "200 OK: Write Successful!" ∧
      effective_target gap_commit_Y.ss ⟨"a.txt", 2, 0⟩ = 3 ∧
      gap_commit_Z.ss.disk "a.txt" = some "s. A. B. x. C. D.".toList ∧
      get_sentence_shift gap_commit_Z.ss "a.txt" 3 0 = 1 ∧
      (split_into_sentences ((gap_commit_Z.ss.disk "a.txt").getD []))[(3 +
        get_sentence_shift gap_commit_Z.ss "a.txt" 3 0).toNat]? = some "C.".toList ∧
      "C.".toList ≠ "D.".toList) ∧
    (shifted_overlap.open_sessions = [⟨"a.txt", 3, 1⟩, ⟨"a.txt", 2, 0⟩] ∧
      (split_into_sentences "A. B. C.".toList)[2]? = some "C.".toList ∧
      shifted_overlap.ss.disk "a.txt" = some "start. A. B. C.".toList ∧
      effective_target shifted_overlap.ss ⟨"a.txt", 2, 0⟩ = 3 ∧
      effective_target shifted_overlap.ss ⟨"a.txt", 3, 1⟩ = 3 ∧
      overlap_commit_Z.reply = "200 OK: Write Successful!" ∧
      overlap_commit_Z.ss.disk "a.txt" = some "start. A. B. ! C.".toList ∧
      get_sentence_shift overlap_commit_Z.ss "a.txt" 2 0 = 1 ∧
      (split_into_sentences ((overlap_commit_Z.ss.disk "a.txt").getD []))[(2 +
        get_sentence_shift overlap_commit_Z.ss "a.txt" 2 0).toNat]? = some "!".toList ∧
      "!".toList ≠ "C.".toList) := by
  refine ⟨⟨?_, ?_, ?_, ?_, ?_, ?_, ?_, ?_⟩, ⟨?_, ?_, ?_, ?_, ?_, ?_, ?_, ?_, ?_, ?_, ?_⟩,
    ⟨?_, ?_, ?_, ?_, ?_, ?_, ?_, ?_, ?_, ?_⟩⟩ <;> decide

/-- C1, amended. Index translation is correct across commits that leave the
sentence of the session in place: for every file content, every WRITE session
opened on an existing sentence index `n`, and every sequence of commits on the
same file between this session's start and its own commit, each of which, at
its commit, (a) leaves the sentences from this session's sentence to the end of
the file as they were when its translated index is below the translated index
of this session, (b) leaves the sentences up to and including this session's
sentence as they were when its translated index is the translated index of this
session or above it, and (c) changes the number of sentences only if its
translated index is below `n`, or is the translated index of this session or
above it, the sentence at index
`n + get_sentence_shift(log, filename, n, session_start_log_id)` of the content
at commit time is the sentence that was at index `n` when the session began. A
commit that fails, and so writes nothing, is among them. -/
theorem index_translation_in_place (ss : StorageServer) (f : String) (n : Nat)
    (content sentence : List Char) (commits : List SessionCommit)
    (hlog : ∀ e ∈ ss.mod_log_head, e.id < ss.next_log_id)
    (hfile : (get_file_content ss.disk f).getD [] = content)
    (hsentence : (split_into_sentences content)[n]? = some sentence)
    (hcommits : leave_in_place ⟨f, n, get_current_log_id ss⟩ ss commits = true) :
    0 ≤ effective_target (run_commits ss commits) ⟨f, n, get_current_log_id ss⟩ ∧
      (split_into_sentences ((get_file_content (run_commits ss commits).disk f).getD []))[
          (effective_target (run_commits ss commits) ⟨f, n, get_current_log_id ss⟩).toNat]?
        = some sentence := by
  have hlt : n < (split_into_sentences content).length := by
    by_contra hcon
    rw [List.getElem?_eq_none (by omega)] at hsentence
    simp at hsentence
  have hget : (split_into_sentences content)[n] = sentence := by
    rw [List.getElem?_eq_getElem hlt] at hsentence
    exact Option.some.inj hsentence
  have hinit : Tracks f n ss.next_log_id sentence ss := by
    refine ⟨(split_into_sentences content).take n, (split_into_sentences content).drop (n + 1),
      ?_, ?_, ?_, hlog, le_refl _⟩
    · simp only [file_sentences]
      rw [hfile, ← hget, ← List.drop_eq_getElem_cons hlt, List.take_append_drop]
    · simp [get_sentence_shift, shift_loop_of_old_entries _ _ _ _ hlog, List.length_take]
      omega
    · simp [List.length_take]; omega
  obtain ⟨q, r, hsplit, hshift, _, _, _⟩ := tracks_run_commits f n ss.next_log_id sentence
    commits ss hinit hcommits
  simp only [file_sentences] at hsplit
  simp only [get_current_log_id, effective_target]
  rw [hshift, hsplit]
  refine ⟨by omega, ?_⟩
  simp only [Int.toNat_ofNat]
  rw [List.getElem?_append_right (le_refl _)]
  simp

set_option maxRecDepth 100000 in
/-- Witness for C1: X is open on sentence 2 (`C.`) of `A. B. C. D.` while four
sessions commit: `(2, "x.")` on sentence 1 puts a whole sentence before `C.`,
`(2, "y")` on sentence 0 puts a word after its delimiter, `(9, "z")` fails,
and `(0, "end.")` appends a sentence; `C.` is then at index `2 + 1`. -/
theorem index_translation_in_place_witness :
    (split_into_sentences "A. B. C. D.".toList)[2]? = some "C.".toList ∧
      leave_in_place ⟨"a.txt", (2 : Nat), 0⟩
        (ss_create (example_disk "A. B. C. D.".toList)) commits_in_place = true ∧
      (run_commits (ss_create (example_disk "A. B. C. D.".toList)) commits_in_place).disk "a.txt"
        = some "A. y B. x. C. D. end.".toList ∧
      effective_target (run_commits (ss_create (example_disk "A. B. C. D.".toList))
        commits_in_place) ⟨"a.txt", (2 : Nat), 0⟩ = 3 ∧
      (split_into_sentences ((get_file_content (run_commits
        (ss_create (example_disk "A. B. C. D.".toList)) commits_in_place).disk "a.txt").getD []))[
          (effective_target (run_commits (ss_create (example_disk "A. B. C. D.".toList))
            commits_in_place) ⟨"a.txt", (2 : Nat), 0⟩).toNat]?
        = some "C.".toList :=
  ⟨by decide, by decide, by decide, by decide,
    (index_translation_in_place (ss_create (example_disk "A. B. C. D.".toList)) "a.txt" 2
      "A. B. C. D.".toList "C.".toList commits_in_place
      (by decide) (by decide) (by decide) (by decide)).2⟩

/-! ## The log in reachable states -/

/-- In every reachable state the log ids are below the id of the next entry,
which is what the theorems on the shift assume of the log. -/
theorem reachable_log_ids (s : World) (h : Reachable s) :
    ∀ e ∈ s.ss.mod_log_head, e.id < s.ss.next_log_id := by
  induction h with
  | init disk => intro e he; simp [ss_create] at he
  | @begin s f n _ ih =>
    cases hs : (handle_ss_write_begin s.ss f n).session with
    | none =>
      have := begin_session_none s.ss f n hs
      simp only [World.begin, this]
      exact ih
    | some sess =>
      obtain ⟨_, _, hss⟩ := begin_session_some s.ss f n sess hs
      simp only [World.begin, hss]
      exact ih
  | commit sess updates ok _ _ ih => exact commit_log_ids _ sess updates ok ih

/-! ## Joining sentences -/

theorem first_char_ne_space_iff (s : List Char) :
    (first_char s != ' ') = !starts_with_space s := by
  cases s with
  | nil => simp [first_char, starts_with_space]
  | cons c s => simp [first_char, starts_with_space, bne]

/-- C11, counterexample. The next sentence starts with a tab, which is
whitespace, and `join_sentences` still inserts a space before it. -/
theorem join_sentences_space_before_tab :
    join_sentences ["a.".toList, ['\t', 'b']] = ['a', '.', ' ', '\t', 'b'] ∧
      join_with_space_unless starts_with_whitespace ["a.".toList, ['\t', 'b']]
        = ['a', '.', '\t', 'b'] ∧
      join_sentences ["a.".toList, ['\t', 'b']]
        ≠ join_with_space_unless starts_with_whitespace ["a.".toList, ['\t', 'b']] := by
  decide

/-- C11, amended. `join_sentences` concatenates the sentences with exactly one
space between successive sentences, except that it inserts no space when the next
sentence already begins with a space character; a tab, a newline or any other
whitespace byte at the start of the next sentence does not suppress the space. -/
theorem join_sentences_space_rule (sentences : List (List Char)) :
    join_sentences sentences = join_with_space_unless starts_with_space sentences := by
  induction sentences with
  | nil => rfl
  | cons s rest ih =>
    cases rest with
    | nil => simp [join_sentences, join_with_space_unless]
    | cons next rest =>
      simp only [join_sentences, first_char_ne_space_iff, ih]
      by_cases h : starts_with_space next = true <;> simp [join_with_space_unless, h]

/-! ## Appending a sentence -/

theorem split_string_loop_words (delim : Char) (str : List Char) :
    ∀ (cur : List Char), (∀ c ∈ cur, c ≠ delim) →
      ∀ w ∈ split_string_loop delim cur str,
        w ≠ [] ∧ ∀ c ∈ w, c ≠ delim ∧ (c ∈ cur ∨ c ∈ str) := by
  induction str with
  | nil =>
    intro cur hcur w hw
    by_cases hc : cur = []
    · simp [split_string_loop, hc] at hw
    · simp only [split_string_loop, hc, if_false, List.mem_singleton] at hw
      subst hw
      exact ⟨hc, fun c hcm => ⟨hcur c hcm, Or.inl hcm⟩⟩
  | cons a str ih =>
    intro cur hcur w hw
    simp only [split_string_loop] at hw
    by_cases ha : (a == delim) = true
    · simp only [ha, if_true] at hw
      by_cases hc : cur = []
      · simp only [hc, if_true] at hw
        obtain ⟨h1, h2⟩ := ih [] (by simp) w hw
        exact ⟨h1, fun c hcm => ⟨(h2 c hcm).1, by
          rcases (h2 c hcm).2 with h | h
          · simp at h
          · exact Or.inr (List.mem_cons_of_mem _ h)⟩⟩
      · simp only [hc, if_false, List.mem_cons] at hw
        rcases hw with rfl | hw
        · exact ⟨hc, fun c hcm => ⟨hcur c hcm, Or.inl hcm⟩⟩
        · obtain ⟨h1, h2⟩ := ih [] (by simp) w hw
          exact ⟨h1, fun c hcm => ⟨(h2 c hcm).1, by
            rcases (h2 c hcm).2 with h | h
            · simp at h
            · exact Or.inr (List.mem_cons_of_mem _ h)⟩⟩
    · simp only [ha, Bool.false_eq_true, if_false] at hw
      have hne : a ≠ delim := by simpa using ha
      obtain ⟨h1, h2⟩ := ih (cur ++ [a]) (by
        intro c hcm
        simp only [List.mem_append, List.mem_singleton] at hcm
        rcases hcm with h | h
        · exact hcur c h
        · exact h ▸ hne) w hw
      refine ⟨h1, fun c hcm => ⟨(h2 c hcm).1, ?_⟩⟩
      rcases (h2 c hcm).2 with h | h
      · simp only [List.mem_append, List.mem_singleton] at h
        rcases h with h | h
        · exact Or.inl h
        · exact Or.inr (h ▸ List.mem_cons_self _ _)
      · exact Or.inr (List.mem_cons_of_mem _ h)

theorem join_words_head (w : List Char) (rest : List (List Char)) :
    ∃ tail, join_words (w :: rest) = w ++ tail := by
  cases rest with
  | nil => exact ⟨[], by simp [join_words]⟩
  | cons next rest =>
    simp only [join_words]
    split
    · exact ⟨_, rfl⟩
    · exact ⟨_, rfl⟩

theorem split_loop_skip_eq (x : List Char) (h : NoWsHead x) :
    split_into_sentences_loop [] true x = split_into_sentences_loop [] false x := by
  cases x with
  | nil => rfl
  | cons c x =>
    have hc : isspace c = false := h c rfl
    simp [split_into_sentences_loop, hc]

/-- The sentence the words of an update text join to does not start with
whitespace when the only whitespace of the text is the space. -/
theorem join_words_split_string_noWsHead (w : List Char)
    (hw : ∀ c ∈ w, isspace c = true → c = ' ') :
    NoWsHead (join_words (split_string w ' ')) := by
  intro c hc
  cases hws : split_string w ' ' with
  | nil => rw [hws] at hc; simp [join_words] at hc
  | cons first rest =>
    rw [hws] at hc
    obtain ⟨tail, htail⟩ := join_words_head first rest
    rw [htail] at hc
    have hmem : first ∈ split_string_loop ' ' [] w := by
      have : first ∈ split_string w ' ' := by rw [hws]; simp
      exact this
    obtain ⟨hne, hall⟩ := split_string_loop_words ' ' w [] (by simp) first hmem
    cases first with
    | nil => exact absurd rfl hne
    | cons a first =>
      simp only [List.cons_append, List.head?_cons, Option.some.injEq] at hc
      subst hc
      obtain ⟨h1, h2⟩ := hall a (by simp)
      have h3 : a ∈ w := by
        rcases h2 with h | h
        · simp at h
        · exact h
      by_contra hsp
      exact h1 (hw a h3 (by simpa using hsp))

theorem split_join_append_last (l : List (List Char)) (n : List Char)
    (hwf : WellFormed false l)
    (hlast : ∀ last, l.getLast? = some last → ends_with_delimiter last = true)
    (hn : NoWsHead n) :
    split_into_sentences (join_sentences (l ++ [n])) = l ++ split_into_sentences n := by
  rcases List.eq_nil_or_concat l with h | ⟨q, sx, h⟩
  · subst h
    simp [join_sentences]
  · subst h
    simp only [List.concat_eq_append] at hwf hlast ⊢
    have hc : Complete sx :=
      hwf.complete_of_ends_with_delimiter (by simp) (hlast sx (by simp))
    have := split_join_keep_prefix sx hc [] [n] (by simp) q false hwf
    simp only [List.append_assoc, List.singleton_append]
    rw [show split_into_sentences = split_into_sentences_loop [] false from rfl, this]
    simp [join_sentences, split_loop_skip_eq n hn]

/-- C12. Appending a sentence keeps the existing ones: when the content is
empty or its last sentence ends with a delimiter, and the update text has at
least one word and no whitespace other than spaces, the update at index
`count`, word 0, succeeds and the sentences of its result are those of the
content followed by those of the joined words of the text; S1 gives
`hello world.` (one sentence) and S2 gives `hello world. bye.`. -/
theorem append_keeps_sentences (content w : List Char)
    (hcontent : content = [] ∨ ∃ last, (split_into_sentences content).getLast? = some last ∧
      ends_with_delimiter last = true)
    (hword : split_string w ' ' ≠ []) (hspace : ∀ c ∈ w, isspace c = true → c = ' ') :
    (∃ result, apply_single_update content (split_into_sentences content).length 0 w
          = some result ∧
        split_into_sentences result
          = split_into_sentences content
            ++ split_into_sentences (join_words (split_string w ' '))) ∧
      apply_single_update [] 0 0 "hello world.".toList = some "hello world.".toList ∧
      (split_into_sentences "hello world.".toList).length = 1 ∧
      apply_single_update "hello world.".toList 1 0 "bye.".toList
        = some "hello world. bye.".toList := by
  refine ⟨?_, by decide, by decide, by decide⟩
  have _ := hword
  have hlast : ∀ last, (split_into_sentences content).getLast? = some last →
      ends_with_delimiter last = true := by
    intro last hl
    rcases hcontent with h | ⟨last2, h1, h2⟩
    · subst h
      simp [split_into_sentences, split_into_sentences_loop] at hl
    · rw [h1] at hl
      exact Option.some.inj hl ▸ h2
  refine ⟨join_sentences (split_into_sentences (join_sentences
    (split_into_sentences content ++ [join_words (split_string w ' ')]))), ?_, ?_⟩
  · unfold apply_single_update
    simp [split_into_words, split_into_words_loop]
  · rw [split_join_split]
    exact split_join_append_last _ _ (split_into_sentences_wellFormed content) hlast
      (join_words_split_string_noWsHead w hspace)

theorem append_keeps_sentences_witness :
    (∃ result, apply_single_update "A. B!".toList
          (split_into_sentences "A. B!".toList).length 0 "so what? x".toList = some result ∧
        split_into_sentences result
          = ["A.".toList, "B!".toList, "so what?".toList, "x".toList]) := by
  obtain ⟨result, h1, h2⟩ := (append_keeps_sentences "A. B!".toList "so what? x".toList
    (Or.inr ⟨"B!".toList, by decide, by decide⟩) (by decide) (by decide)).1
  refine ⟨result, h1, ?_⟩
  rw [h2]
  decide

/-! ## Statistics of scenario S1 -/

set_option maxRecDepth 100000 in
/-- C13, counterexample. After scenario S1 the file holds `hello world.` and the
word count of the INFO_UPDATE message is 2, not 3: `get_word_count` treats the
`.` as a separator. -/
theorem S1_word_count_not_three :
    S1_commit.ss.disk "a.txt" = some "hello world.".toList ∧
      S1_commit.info_update.map (fun m => m.words) = some 2 ∧
      S1_commit.info_update ≠ some ⟨"a.txt", 12, 3, 12⟩ := by
  decide

set_option maxRecDepth 100000 in
/-- C13, amended. After scenario S1 (file content `hello world.`), the
statistics the storage server computes for its INFO_UPDATE message are size 12,
words 2 (`hello` and `world`; the `.` ends a word and is not counted) and
chars 12. -/
theorem S1_statistics :
    S1_commit.reply = "200 OK: Write Successful!" ∧
      S1_commit.ss.disk "a.txt" = some "hello world.".toList ∧
      S1_commit.info_update = some ⟨"a.txt", 12, 2, 12⟩ ∧
      get_word_count S1_commit.ss.disk "a.txt" = 2 ∧
      get_char_count S1_commit.ss.disk "a.txt" = 12 := by
  decide

/-! ## Undo -/

theorem handle_ss_undo_of_backup (ss : StorageServer) (f : String) (backup : List Char)
    (h : ss.disk (f ++ ".undo") = some backup) :
    (handle_ss_undo ss f true).reply = "200 OK: Undo Successful!" ∧
      (handle_ss_undo ss f true).ss.disk f = some backup ∧
      (handle_ss_undo ss f true).ss.disk (f ++ ".undo") = none ∧
      (∀ g, g ≠ f → g ≠ f ++ ".undo" → (handle_ss_undo ss f true).ss.disk g = ss.disk g) ∧
      (handle_ss_undo ss f true).ss.mod_log_head = ss.mod_log_head ∧
      (handle_ss_undo ss f true).ss.next_log_id = ss.next_log_id := by
  simp only [handle_ss_undo, perform_undo, h, if_true]
  refine ⟨by trivial, ?_, ?_, ?_, by trivial, by trivial⟩
  · simp [Function.update, (undo_path_ne f).symm]
  · simp [Function.update]
  · intro g h1 h2
    simp [Function.update, h1, h2]

theorem handle_ss_undo_of_no_backup (ss : StorageServer) (f : String) (rename_ok : Bool)
    (h : ss.disk (f ++ ".undo") = none) :
    handle_ss_undo ss f rename_ok = ⟨"404 ERROR: No undo history.", ss, none⟩ := by
  simp [handle_ss_undo, perform_undo, h]

/-- C14. Undo after a commit: for every existing file with content `C` and
every WRITE session, with any buffered updates, that commits successfully on
it, an UNDO issued next replies `200` and leaves the file content equal to `C`
when the commit could write the backup `<filename>.undo`.  When it could not
(`create_undo_backup` returns `0`, which the commit does not look at), the
commit replies `200` all the same and the UNDO replies `404` and leaves the
content the session wrote. -/
theorem undo_rewinds_session (ss : StorageServer) (sess : WriteSession)
    (updates : List UpdateNode) (backup_ok fopen_ok : Bool) (content : List Char)
    (hfile : ss.disk sess.filename = some content)
    (hcommit : (handle_ss_write_commit_at sess.filename (sess.filename ++ ".undo") backup_ok
      ss sess updates fopen_ok).reply = "200 OK: Write Successful!") :
    (backup_ok = true →
      (handle_ss_undo (handle_ss_write_commit_at sess.filename (sess.filename ++ ".undo")
          backup_ok ss sess updates fopen_ok).ss sess.filename true).reply
        = "200 OK: Undo Successful!" ∧
      (handle_ss_undo (handle_ss_write_commit_at sess.filename (sess.filename ++ ".undo")
          backup_ok ss sess updates fopen_ok).ss sess.filename true).ss.disk sess.filename
        = some content) ∧
    (backup_ok = false →
      (handle_ss_undo (handle_ss_write_commit_at sess.filename (sess.filename ++ ".undo")
          backup_ok ss sess updates fopen_ok).ss sess.filename true).reply
        = "404 ERROR: No undo history." ∧
      (handle_ss_undo (handle_ss_write_commit_at sess.filename (sess.filename ++ ".undo")
          backup_ok ss sess updates fopen_ok).ss sess.filename true).ss.disk sess.filename
        = apply_updates content (effective_target ss sess) updates) := by
  have hb := commit_at_backup ss sess updates backup_ok fopen_ok
  have hw := commit_at_written ss sess updates backup_ok fopen_ok hcommit
  rw [hfile] at hw
  constructor
  · intro hok
    subst hok
    rw [create_undo_backup_written ss.disk sess.filename content hfile] at hb
    have h := handle_ss_undo_of_backup _ sess.filename content hb
    exact ⟨h.1, h.2.1⟩
  · intro hok
    subst hok
    rw [create_undo_backup_failed] at hb
    rw [handle_ss_undo_of_no_backup _ sess.filename true hb]
    exact ⟨rfl, hw⟩

set_option maxRecDepth 100000 in
theorem undo_rewinds_session_witness :
    (S5_commit.reply = "200 OK: Write Successful!" ∧
      S5_commit.ss.disk "a.txt" = some "oh hello world. again. bye".toList ∧
      (handle_ss_undo S5_commit.ss "a.txt" true).reply = "200 OK: Undo Successful!" ∧
      (handle_ss_undo S5_commit.ss "a.txt" true).ss.disk "a.txt"
        = some "hello world.".toList) ∧
    (S5_commit_without_backup.reply = "200 OK: Write Successful!" ∧
      (handle_ss_undo S5_commit_without_backup.ss "a.txt" true).reply
        = "404 ERROR: No undo history." ∧
      (handle_ss_undo S5_commit_without_backup.ss "a.txt" true).ss.disk "a.txt"
        = some "oh hello world. again. bye".toList) := by
  have h := (undo_rewinds_session S3_server ⟨"a.txt", 0, 0⟩
    [⟨0, "oh".toList⟩, ⟨4, "again. bye".toList⟩] true true "hello world.".toList
    (by decide) (by decide)).1 rfl
  have h2 := (undo_rewinds_session S3_server ⟨"a.txt", 0, 0⟩
    [⟨0, "oh".toList⟩, ⟨4, "again. bye".toList⟩] false true "hello world.".toList
    (by decide) (by decide)).2 rfl
  exact ⟨⟨by decide, by decide, h.1, h.2⟩, by decide, h2.1, h2.2.trans (by decide)⟩

/-- C15. Undo is single-shot: an UNDO on a file whose `.undo` backup does not
exist replies `404` and changes nothing; after an UNDO that replied `200` the
backup no longer exists, so a second UNDO right after replies `404` and leaves
the file as the first UNDO left it. -/
theorem undo_single_shot (ss : StorageServer) (f : String) (rename_ok retry_ok : Bool) :
    (ss.disk (f ++ ".undo") = none →
        (handle_ss_undo ss f rename_ok).reply = "404 ERROR: No undo history." ∧
        (handle_ss_undo ss f rename_ok).ss = ss) ∧
      ((handle_ss_undo ss f rename_ok).reply = "200 OK: Undo Successful!" →
        (handle_ss_undo ss f rename_ok).ss.disk (f ++ ".undo") = none ∧
        (handle_ss_undo (handle_ss_undo ss f rename_ok).ss f retry_ok).reply
          = "404 ERROR: No undo history." ∧
        (handle_ss_undo (handle_ss_undo ss f rename_ok).ss f retry_ok).ss
          = (handle_ss_undo ss f rename_ok).ss) := by
  constructor
  · intro h
    rw [handle_ss_undo_of_no_backup ss f rename_ok h]
    exact ⟨rfl, rfl⟩
  · intro h
    have hgone : (handle_ss_undo ss f rename_ok).ss.disk (f ++ ".undo") = none := by
      cases hb : ss.disk (f ++ ".undo") with
      | none => rw [handle_ss_undo_of_no_backup ss f rename_ok hb]; exact hb
      | some backup =>
        cases rename_ok with
        | true => exact (handle_ss_undo_of_backup ss f backup hb).2.2.1
        | false =>
          have h404 : (handle_ss_undo ss f false).reply = "404 ERROR: No undo history." := by
            simp [handle_ss_undo, perform_undo, hb]
          rw [h404] at h
          exact absurd h (by decide)
    rw [handle_ss_undo_of_no_backup _ f retry_ok hgone]
    exact ⟨hgone, rfl, rfl⟩

set_option maxRecDepth 100000 in
theorem undo_single_shot_witness :
    S3_server.disk ("a.txt" ++ ".undo") = none ∧
      (handle_ss_undo S3_server "a.txt" true).reply = "404 ERROR: No undo history." ∧
      (handle_ss_undo S5_commit.ss "a.txt" true).reply = "200 OK: Undo Successful!" ∧
      (handle_ss_undo (handle_ss_undo S5_commit.ss "a.txt" true).ss "a.txt" true).reply
        = "404 ERROR: No undo history." := by
  have h1 := (undo_single_shot S3_server "a.txt" true true).1 (by decide)
  have h2 := (undo_single_shot S5_commit.ss "a.txt" true true).2 (by decide)
  exact ⟨by decide, h1.1, by decide, h2.2.1⟩

/-! ## The deltas of the log and the sentence count -/

theorem log_delta_sum_log_modification (st : StorageServer) (g f : String) (m d : Int) :
    log_delta_sum (log_modification st g m d) f
      = log_delta_sum st f + if g = f then d else 0 := by
  unfold log_modification
  split
  · rename_i h; simp [h]
  · by_cases hg : g = f <;> simp [log_delta_sum, List.filter_append, hg, List.filter]

theorem write_undo_write_created : CreatedThen "a.txt" true write_undo_write := by
  unfold write_undo_write
  exact CreatedThen.commit _ _ true _ (by decide) (CreatedThen.undo _ _ rfl
    (CreatedThen.commit _ _ true _ (by decide)
      (CreatedThen.created _ (by decide) (by simp [ss_create]))))

theorem commit_delta_sum (f : String) (hname : ∀ g : String, g ++ ".undo" ≠ f)
    (ss : StorageServer) (sess : WriteSession) (updates : List UpdateNode)
    (backup_ok fopen_ok : Bool)
    (h : log_delta_sum ss f = sentence_count ss f) :
    log_delta_sum (handle_ss_write_commit_at sess.filename (sess.filename ++ ".undo")
        backup_ok ss sess updates fopen_ok).ss f
      = sentence_count (handle_ss_write_commit_at sess.filename (sess.filename ++ ".undo")
        backup_ok ss sess updates fopen_ok).ss f := by
  have hbackup : create_undo_backup ss.disk sess.filename (sess.filename ++ ".undo")
      backup_ok f = ss.disk f :=
    create_undo_backup_apart _ _ f backup_ok (hname sess.filename).symm
  have hfailed : ∀ locks : List SentenceLockNode,
      log_delta_sum { ss with
          disk := create_undo_backup ss.disk sess.filename (sess.filename ++ ".undo")
            backup_ok
          sentence_locks_head := locks } f
        = sentence_count { ss with
          disk := create_undo_backup ss.disk sess.filename (sess.filename ++ ".undo")
            backup_ok
          sentence_locks_head := locks } f := by
    intro locks
    simp only [sentence_count, get_file_content, hbackup]
    exact h
  cases ha : apply_updates ((ss.disk sess.filename).getD []) (effective_target ss sess)
      updates with
  | none => rw [commit_at_of_apply_none ss sess updates backup_ok fopen_ok ha]; exact hfailed _
  | some final =>
    cases fopen_ok with
    | false =>
      rw [commit_at_of_write_failure ss sess updates backup_ok final ha]; exact hfailed _
    | true =>
      rw [commit_at_of_success ss sess updates backup_ok final ha]
      have hsum : ∀ (st : StorageServer) (g : String) (j : Int),
          log_delta_sum (unlock_sentence st g j) f = log_delta_sum st f := fun _ _ _ => rfl
      have hdisk : ∀ (d : Disk), log_delta_sum { ss with disk := d } f = log_delta_sum ss f :=
        fun _ => rfl
      rw [hsum, log_delta_sum_log_modification, hdisk, h]
      simp only [sentence_count, get_file_content, unlock_sentence, log_modification_disk]
      by_cases hg : sess.filename = f
      · subst hg
        simp [Function.update]
      · have hg2 : f ≠ sess.filename := fun e => hg e.symm
        simp [Function.update, hg, hg2, hbackup]

theorem handle_ss_undo_log (ss : StorageServer) (g : String) (rename_ok : Bool) :
    (handle_ss_undo ss g rename_ok).ss.mod_log_head = ss.mod_log_head := by
  unfold handle_ss_undo
  simp only []
  split <;> rfl

theorem undo_all_delta_sum (f : String) (undos : List (String × Bool)) :
    ∀ ss : StorageServer, log_delta_sum (undo_all ss undos) f = log_delta_sum ss f := by
  induction undos with
  | nil => intro ss; rfl
  | cons u rest ih =>
    intro ss
    obtain ⟨g, ok⟩ := u
    simp only [undo_all]
    rw [ih]
    simp only [log_delta_sum, handle_ss_undo_log]

set_option maxRecDepth 100000 in
/-- C16, counterexample. On a file just created, `a.` is written and undone and
then `b.` is written: the state is reachable by WRITE commits and UNDOs, the log
entries of the file sum to 2, and the file has one sentence (and had none right
after creation). Three more states show the conditions on the file and on the
names: after a write, a DELETE and a second creation the entries of the file
sum to 1 and the file has no sentence; a file named as the backup of another
file gets two sentences from a commit on that file, with no log entry of its
own; and a write on `a.txt` by a session that names it `./a.txt` gives the file
one sentence and logs it under `./a.txt`, so the entries of `a.txt` sum to 0. -/
theorem delta_sum_after_undo :
    CreatedThen "a.txt" true write_undo_write ∧
      write_undo_write.disk "a.txt" = some "b.".toList ∧
      log_delta_sum write_undo_write "a.txt" = 2 ∧
      sentence_count write_undo_write "a.txt" = 1 ∧
      sentence_count (ss_listen_to_nm_create (ss_create (example_disk [])) "a.txt" true).2 "a.txt"
        = 0 ∧
      (log_delta_sum write_delete_create "a.txt" = 1 ∧
        sentence_count write_delete_create "a.txt" = 0) ∧
      (log_delta_sum write_beside_backup "a.txt.undo" = 0 ∧
        sentence_count write_beside_backup "a.txt.undo" = 2) ∧
      (write_by_path.disk "a.txt" = some "a.".toList ∧
        log_delta_sum write_by_path "a.txt" = 0 ∧
        log_delta_sum write_by_path "./a.txt" = 1 ∧
        sentence_count write_by_path "a.txt" = 1) :=
  ⟨write_undo_write_created, by decide, by decide, by decide, by decide,
    ⟨by decide, by decide⟩, ⟨by decide, by decide⟩,
    ⟨by decide, by decide, by decide, by decide⟩⟩

/-- C16, amended. In every state the storage server can reach from the creation
of an empty file `f`, whose name is a plain file name (no `/`) and not the
`.undo` backup name of a file and which has no log entry when it is created, by
WRITE commits that name their files by plain file names, followed by UNDOs (no
WRITE commit after an UNDO), the sum of `sentence_delta` over the log entries of
`f` equals the sentence count of `f` after the last WRITE commit minus its
sentence count right after creation, which is 0. -/
theorem delta_sum_writes_then_undos (f : String) (ss : StorageServer)
    (undos : List (String × Bool))
    (hname : ∀ g : String, g ++ ".undo" ≠ f) (h : CreatedThen f false ss) :
    log_delta_sum (undo_all ss undos) f = sentence_count ss f - 0 ∧
      ∀ (before : StorageServer),
        sentence_count (ss_listen_to_nm_create before f true).2 f = 0 := by
  refine ⟨?_, fun before => by simp [sentence_count, ss_listen_to_nm_create, get_file_content,
    split_into_sentences, split_into_sentences_loop]⟩
  rw [sub_zero, undo_all_delta_sum]
  induction h with
  | created ss0 _ hlog =>
    have hfilter : (ss0.mod_log_head.filter fun e => e.filename = f) = [] := by
      rw [List.filter_eq_nil_iff]
      intro e he
      simpa using hlog e he
    simp [log_delta_sum, sentence_count, ss_listen_to_nm_create, get_file_content, hfilter,
      split_into_sentences, split_into_sentences_loop]
  | commit sess updates bok ok _ _ ih => exact commit_delta_sum f hname _ sess updates bok ok ih
  | undo g ok hundo _ _ => exact absurd hundo (by decide)

theorem undo_name_ne_example : ∀ g : String, g ++ ".undo" ≠ "a.txt" := by
  intro g h
  have hdata := congrArg String.data h
  rw [String.data_append] at hdata
  have hlen := congrArg List.length hdata
  have h5 : (".undo" : String).data.length = 5 := by decide
  have h5b : ("a.txt" : String).data.length = 5 := by decide
  rw [List.length_append, h5, h5b] at hlen
  have hg : g.data = [] := List.length_eq_zero.1 (by omega)
  rw [hg] at hdata
  exact absurd hdata (by decide)

set_option maxRecDepth 100000 in
/-- Witness for C16: two writes give `a. b! c.`, three sentences, and the UNDO
that follows brings back `a. b.` while the log entries still sum to 3. -/
theorem delta_sum_writes_then_undos_witness :
    CreatedThen "a.txt" false write_write ∧
      write_write.disk "a.txt" = some "a. b! c.".toList ∧
      (undo_all write_write [("a.txt", true)]).disk "a.txt" = some "a. b.".toList ∧
      log_delta_sum (undo_all write_write [("a.txt", true)]) "a.txt"
        = sentence_count write_write "a.txt" - 0 ∧
      sentence_count write_write "a.txt" = 3 := by
  have hreach : CreatedThen "a.txt" false write_write := by
    unfold write_write
    exact CreatedThen.commit _ _ true _ (by decide) (CreatedThen.commit _ _ true _ (by decide)
      (CreatedThen.created _ (by decide) (by simp [ss_create])))
  exact ⟨hreach, by decide, by decide,
    (delta_sum_writes_then_undos "a.txt" write_write [("a.txt", true)] undo_name_ne_example
      hreach).1, by decide⟩

/-! ## Access lists -/

theorem add_access_loop_eq_none_iff (username : String) (perm : Char) (head : List AccessNode) :
    add_access_loop username perm head = none ↔ username ∉ access_usernames head := by
  induction head with
  | nil => simp [add_access_loop, access_usernames]
  | cons curr next ih =>
    by_cases h : curr.username = username
    · simp [add_access_loop, access_usernames, h]
    · have h2 : ¬ username = curr.username := fun e => h e.symm
      simp only [access_usernames] at ih
      simp [add_access_loop, access_usernames, h, h2, ih]

theorem add_access_loop_usernames (username : String) (perm : Char) (head : List AccessNode) :
    ∀ updated, add_access_loop username perm head = some updated →
      access_usernames updated = access_usernames head := by
  induction head with
  | nil => intro updated h; simp [add_access_loop] at h
  | cons curr next ih =>
    intro updated h
    by_cases hc : curr.username = username
    · simp only [add_access_loop, hc, if_true, Option.some.injEq] at h
      subst h
      simp [access_usernames, hc]
    · simp only [add_access_loop, hc, if_false, Option.map_eq_some'] at h
      obtain ⟨u, hu, rfl⟩ := h
      have := ih u hu
      simp only [access_usernames] at this
      simp [access_usernames, this]

theorem add_access_nodup (head : List AccessNode) (username : String) (perm : Char)
    (h : (access_usernames head).Nodup) :
    (access_usernames (add_access head username perm)).Nodup := by
  unfold add_access
  cases hl : add_access_loop username perm head with
  | none =>
    have hn := (add_access_loop_eq_none_iff username perm head).1 hl
    simp only [access_usernames, List.map_cons, List.nodup_cons]
    exact ⟨hn, h⟩
  | some updated =>
    simp only
    rw [add_access_loop_usernames username perm head updated hl]
    exact h

theorem remove_access_sublist (head : List AccessNode) (username : String) :
    (remove_access head username).Sublist head := by
  induction head with
  | nil => simp [remove_access]
  | cons curr next ih =>
    by_cases hc : curr.username = username
    · simp [remove_access, hc]
    · simp only [remove_access, hc, if_false]
      exact ih.cons₂ curr

theorem remove_access_nodup (head : List AccessNode) (username : String)
    (h : (access_usernames head).Nodup) :
    (access_usernames (remove_access head username)).Nodup :=
  List.Nodup.sublist ((remove_access_sublist head username).map _) h

theorem get_access_add_access_loop (username : String) (perm : Char) (head : List AccessNode) :
    ∀ updated, add_access_loop username perm head = some updated →
      get_access updated username = perm ∧
      ∀ other, other ≠ username → get_access updated other = get_access head other := by
  induction head with
  | nil => intro updated h; simp [add_access_loop] at h
  | cons curr next ih =>
    intro updated h
    by_cases hc : curr.username = username
    · simp only [add_access_loop, hc, if_true, Option.some.injEq] at h
      subst h
      refine ⟨by simp [get_access, hc], ?_⟩
      intro other ho
      have : ¬ username = other := fun e => ho e.symm
      simp [get_access, hc, this]
    · simp only [add_access_loop, hc, if_false, Option.map_eq_some'] at h
      obtain ⟨u, hu, rfl⟩ := h
      obtain ⟨h1, h2⟩ := ih u hu
      refine ⟨by simp [get_access, hc, h1], ?_⟩
      intro other ho
      simp only [get_access]
      rw [h2 other ho]

theorem get_access_add_access_same (head : List AccessNode) (username : String) (perm : Char) :
    get_access (add_access head username perm) username = perm := by
  unfold add_access
  cases hl : add_access_loop username perm head with
  | none => simp [get_access]
  | some updated => exact (get_access_add_access_loop username perm head updated hl).1

theorem get_access_add_access_other (head : List AccessNode) (username other : String)
    (perm : Char) (h : other ≠ username) :
    get_access (add_access head username perm) other = get_access head other := by
  unfold add_access
  cases hl : add_access_loop username perm head with
  | none =>
    have : ¬ username = other := fun e => h e.symm
    simp [get_access, this]
  | some updated => exact (get_access_add_access_loop username perm head updated hl).2 other h

theorem add_access_loop_idem (username : String) (perm : Char) (head : List AccessNode) :
    ∀ updated, add_access_loop username perm head = some updated →
      add_access_loop username perm updated = some updated := by
  induction head with
  | nil => intro updated h; simp [add_access_loop] at h
  | cons curr next ih =>
    intro updated h
    by_cases hc : curr.username = username
    · simp only [add_access_loop, hc, if_true, Option.some.injEq] at h
      subst h
      simp [add_access_loop, hc]
    · simp only [add_access_loop, hc, if_false, Option.map_eq_some'] at h
      obtain ⟨u, hu, rfl⟩ := h
      simp [add_access_loop, hc, ih u hu]

theorem add_access_idem (head : List AccessNode) (username : String) (perm : Char) :
    add_access (add_access head username perm) username perm = add_access head username perm := by
  cases hl : add_access_loop username perm head with
  | none =>
    have e : add_access head username perm = ⟨username, perm⟩ :: head := by
      simp [add_access, hl]
    rw [e]
    simp [add_access, add_access_loop]
  | some updated =>
    have e : add_access head username perm = updated := by simp [add_access, hl]
    rw [e]
    simp [add_access, add_access_loop_idem username perm head updated hl]

/-- C20: on an access list that lists no user twice, `add_access` and
`remove_access` give a list that lists no user twice; after `add_access` of user
`u` with permission `p`, `get_access` of `u` is `p` and `get_access` of every
other user is what it was; and adding the same grant a second time changes
nothing. -/
theorem access_list_no_duplicates (head : List AccessNode) (u : String) (p : Char)
    (h : (access_usernames head).Nodup) :
    (access_usernames (add_access head u p)).Nodup ∧
    (access_usernames (remove_access head u)).Nodup ∧
    get_access (add_access head u p) u = p ∧
    (∀ v, v ≠ u → get_access (add_access head u p) v = get_access head v) ∧
    add_access (add_access head u p) u p = add_access head u p :=
  ⟨add_access_nodup head u p h, remove_access_nodup head u h,
    get_access_add_access_same head u p,
    fun v hv => get_access_add_access_other head u v p hv,
    add_access_idem head u p⟩

/-- Witness for C20: bob's grant in the example list is changed to `R`. -/
theorem access_list_no_duplicates_witness :
    (access_usernames example_access_list).Nodup ∧
    ((access_usernames (add_access example_access_list "bob" 'R')).Nodup ∧
    (access_usernames (remove_access example_access_list "bob")).Nodup ∧
    get_access (add_access example_access_list "bob" 'R') "bob" = 'R' ∧
    (∀ v, v ≠ "bob" →
      get_access (add_access example_access_list "bob" 'R') v
        = get_access example_access_list v) ∧
    add_access (add_access example_access_list "bob" 'R') "bob" 'R'
      = add_access example_access_list "bob" 'R') :=
  ⟨by decide, access_list_no_duplicates example_access_list "bob" 'R' (by decide)⟩

/-! ## Access check -/

theorem get_access_eq_lookup (head : List AccessNode) (user : String) :
    get_access head user
      = ((head.map fun node => (node.username, node.permission)).lookup user).getD
          (Char.ofNat 0) := by
  induction head with
  | nil => simp [get_access]
  | cons curr next ih =>
    by_cases hc : curr.username = user
    · have : (user == curr.username) = true := by simp [hc]
      simp [get_access, hc, List.lookup]
    · have h2 : (user == curr.username) = false := by
        simp only [beq_eq_false_iff_ne, ne_eq]
        exact fun e => hc e.symm
      simp only [get_access, hc, if_false, List.map_cons, List.lookup, h2]
      exact ih

theorem get_access_eq_iff_maps (head : List AccessNode) (user : String) (perm : Char)
    (hperm : perm ≠ Char.ofNat 0) :
    get_access head user = perm ↔ access_list_maps head user perm := by
  rw [get_access_eq_lookup, access_list_maps]
  cases (head.map fun node => (node.username, node.permission)).lookup user with
  | none =>
    simp only [Option.getD_none]
    constructor
    · intro h; exact absurd h.symm hperm
    · intro h; cases h
  | some q => simp

theorem check_access_eq_true_iff (metadata : FileMetadata) (user : String) (required : Char)
    (hreq : required = 'R' ∨ required = 'W') :
    check_access metadata user required = true ↔
      (user = metadata.owner ∨ access_list_maps metadata.access_list_head user 'W' ∨
        (required = 'R' ∧ access_list_maps metadata.access_list_head user 'R')) := by
  have hR : ('R' : Char) ≠ Char.ofNat 0 := by decide
  have hW : ('W' : Char) ≠ Char.ofNat 0 := by decide
  have hRW : ('R' : Char) ≠ 'W' := by decide
  rw [← get_access_eq_iff_maps _ _ _ hR, ← get_access_eq_iff_maps _ _ _ hW]
  unfold check_access
  by_cases ho : metadata.owner = user
  · simp [ho]
  · have ho2 : ¬ user = metadata.owner := fun e => ho e.symm
    rcases hreq with rfl | rfl
    · by_cases h1 : get_access metadata.access_list_head user = 'R'
      · simp [ho, ho2, h1]
      · by_cases h2 : get_access metadata.access_list_head user = 'W'
        · simp [ho, ho2, h2]
        · simp [ho, ho2, h1, h2, hRW]
    · by_cases h2 : get_access metadata.access_list_head user = 'W'
      · simp [ho, ho2, h2]
      · simp [ho, ho2, h2, hRW.symm]

/-- C17: for a required permission `R` or `W`, `check_access` returns true
exactly when the user is the owner of the file, or the access list maps the user
to `W`, or the required permission is `R` and the access list maps the user to
`R`. -/
theorem check_access_iff (metadata : FileMetadata) (user : String) (required : Char)
    (hreq : required = 'R' ∨ required = 'W') :
    check_access metadata user required = true ↔
      (user = metadata.owner ∨ access_list_maps metadata.access_list_head user 'W' ∨
        (required = 'R' ∧ access_list_maps metadata.access_list_head user 'R')) :=
  check_access_eq_true_iff metadata user required hreq

/-- Witness for C17: carol, who holds an `R` grant on alice's file, asks for
`R`. -/
theorem check_access_iff_witness :
    ('R' = 'R' ∨ 'R' = 'W') ∧
    (check_access (example_metadata example_access_list) "carol" 'R' = true ↔
      ("carol" = (example_metadata example_access_list).owner ∨
        access_list_maps (example_metadata example_access_list).access_list_head "carol" 'W' ∨
        ('R' = 'R' ∧
          access_list_maps (example_metadata example_access_list).access_list_head "carol" 'R'))) :=
  ⟨by decide, check_access_iff (example_metadata example_access_list) "carol" 'R' (by decide)⟩

/-! ## Routing of READ, STREAM, WRITE and UNDO -/

theorem find_ss_eq_none_iff (ip : String) (client_port : Int) (l : List StorageServerInfo) :
    find_ss ip client_port l = none ↔ ¬ ∃ ss ∈ l, ss.ip = ip ∧ ss.client_port = client_port := by
  induction l with
  | nil => simp [find_ss]
  | cons ss next ih =>
    by_cases h : ss.ip = ip ∧ ss.client_port = client_port
    · simp only [find_ss, h, and_self, if_true]
      constructor
      · intro e; cases e
      · intro e; exact absurd ⟨ss, List.mem_cons_self _ _, h⟩ e
    · simp only [find_ss, h, if_false, ih]
      constructor
      · rintro e ⟨t, ht, h2⟩
        rcases List.mem_cons.1 ht with rfl | ht
        · exact h h2
        · exact e ⟨t, ht, h2⟩
      · rintro e ⟨t, ht, h2⟩
        exact e ⟨t, List.mem_cons_of_mem _ ht, h2⟩

theorem read_write_stream_of_no_file (nm : NameServer) (u cmd f : String) (rest : List String)
    (now : Int) (h : ht_get nm.file_table f = none) :
    (handle_read_write_stream nm u (cmd :: f :: rest) now).reply
      = "404 ERROR: File not found." := by
  simp [handle_read_write_stream, h]

theorem read_write_stream_of_denied (nm : NameServer) (u cmd f : String) (rest : List String)
    (now : Int) (meta : FileMetadata) (h : ht_get nm.file_table f = some meta)
    (hd : check_access meta u (if cmd = "WRITE" ∨ cmd = "UNDO" then 'W' else 'R') = false) :
    (handle_read_write_stream nm u (cmd :: f :: rest) now).reply
      = "401 ERROR: "
        ++ String.singleton (if cmd = "WRITE" ∨ cmd = "UNDO" then 'W' else 'R')
        ++ " access denied." := by
  simp only [handle_read_write_stream, h, hd, if_true]

theorem read_write_stream_of_offline (nm : NameServer) (u cmd f : String) (rest : List String)
    (now : Int) (meta : FileMetadata) (h : ht_get nm.file_table f = some meta)
    (ha : check_access meta u (if cmd = "WRITE" ∨ cmd = "UNDO" then 'W' else 'R') = true)
    (hs : find_ss meta.ss_ip meta.ss_client_port nm.ss_list_head = none) :
    (handle_read_write_stream nm u (cmd :: f :: rest) now).reply
      = "503 ERROR: Storage server for this file is offline." := by
  simp [handle_read_write_stream, h, ha, hs]

theorem read_write_stream_of_online (nm : NameServer) (u cmd f : String) (rest : List String)
    (now : Int) (meta : FileMetadata) (ss : StorageServerInfo)
    (h : ht_get nm.file_table f = some meta)
    (ha : check_access meta u (if cmd = "WRITE" ∨ cmd = "UNDO" then 'W' else 'R') = true)
    (hs : find_ss meta.ss_ip meta.ss_client_port nm.ss_list_head = some ss) :
    (handle_read_write_stream nm u (cmd :: f :: rest) now).reply
      = "202 OK " ++ meta.ss_ip ++ ":" ++ toString meta.ss_client_port := by
  simp [handle_read_write_stream, h, ha, hs]

theorem required_permission_eq (cmd : String) (perm : Char)
    (h : required_permission cmd = some perm) :
    (if cmd = "WRITE" ∨ cmd = "UNDO" then 'W' else 'R') = perm ∧ (perm = 'R' ∨ perm = 'W') ∧
      (cmd = "WRITE" ∨ cmd = "UNDO" → perm = 'W') := by
  unfold required_permission at h
  by_cases hw : cmd = "WRITE" ∨ cmd = "UNDO"
  · simp only [hw, if_true, Option.some.injEq] at h
    subst h
    simp [hw]
  · by_cases hr : cmd = "READ" ∨ cmd = "STREAM"
    · simp only [hw, hr, if_true, if_false, Option.some.injEq] at h
      subst h
      simp [hw]
    · simp [hw, hr] at h

theorem reply_status_202 (ip port : String) :
    reply_status ("202 OK " ++ ip ++ ":" ++ port) = "202" := by
  simp [reply_status, String.data_append]

theorem reply_status_401 (perm : Char) :
    reply_status ("401 ERROR: " ++ String.singleton perm ++ " access denied.") = "401" := by
  simp [reply_status, String.data_append]

/-- C18: for a READ, STREAM, WRITE or UNDO request of user `u` on file `f`, with
`perm` the permission the command requires (`W` for WRITE and UNDO, `R` for READ
and STREAM): the reply has status 202 exactly when `f` has metadata,
`check_access` holds of `u` and `perm`, and a live storage server has the ip and
port of the metadata, and the reply is then `202 OK <ip>:<port>` with that ip and
port; without metadata the reply is the 404 message, with metadata and without
access the 401 message, with access and without a live storage server the 503
message. So a user who is not the owner and is mapped to neither `R` nor `W` gets
no 202 reply, nor does, for WRITE or UNDO, a user who is not the owner and is
mapped to `R`. -/
theorem routing_authorised (nm : NameServer) (u cmd f : String) (rest : List String)
    (now : Int) (perm : Char) (hcmd : required_permission cmd = some perm) :
    (reply_status (handle_read_write_stream nm u (cmd :: f :: rest) now).reply = "202" ↔
      ∃ meta, ht_get nm.file_table f = some meta ∧ check_access meta u perm = true ∧
        storage_server_live nm meta.ss_ip meta.ss_client_port) ∧
    (∀ meta, ht_get nm.file_table f = some meta → check_access meta u perm = true →
      storage_server_live nm meta.ss_ip meta.ss_client_port →
      (handle_read_write_stream nm u (cmd :: f :: rest) now).reply
        = "202 OK " ++ meta.ss_ip ++ ":" ++ toString meta.ss_client_port) ∧
    (ht_get nm.file_table f = none →
      (handle_read_write_stream nm u (cmd :: f :: rest) now).reply
        = "404 ERROR: File not found.") ∧
    (∀ meta, ht_get nm.file_table f = some meta → check_access meta u perm = false →
      (handle_read_write_stream nm u (cmd :: f :: rest) now).reply
        = "401 ERROR: " ++ String.singleton perm ++ " access denied.") ∧
    (∀ meta, ht_get nm.file_table f = some meta → check_access meta u perm = true →
      ¬ storage_server_live nm meta.ss_ip meta.ss_client_port →
      (handle_read_write_stream nm u (cmd :: f :: rest) now).reply
        = "503 ERROR: Storage server for this file is offline.") ∧
    (∀ meta, ht_get nm.file_table f = some meta → u ≠ meta.owner →
      ¬ access_list_maps meta.access_list_head u 'R' →
      ¬ access_list_maps meta.access_list_head u 'W' →
      reply_status (handle_read_write_stream nm u (cmd :: f :: rest) now).reply ≠ "202") ∧
    (∀ meta, ht_get nm.file_table f = some meta → u ≠ meta.owner →
      access_list_maps meta.access_list_head u 'R' → (cmd = "WRITE" ∨ cmd = "UNDO") →
      reply_status (handle_read_write_stream nm u (cmd :: f :: rest) now).reply ≠ "202") := by
  obtain ⟨hperm, hRW, hWU⟩ := required_permission_eq cmd perm hcmd
  have h404 : ht_get nm.file_table f = none →
      (handle_read_write_stream nm u (cmd :: f :: rest) now).reply
        = "404 ERROR: File not found." :=
    read_write_stream_of_no_file nm u cmd f rest now
  have h401 : ∀ meta, ht_get nm.file_table f = some meta → check_access meta u perm = false →
      (handle_read_write_stream nm u (cmd :: f :: rest) now).reply
        = "401 ERROR: " ++ String.singleton perm ++ " access denied." := by
    intro meta hm hd
    rw [← hperm] at hd ⊢
    exact read_write_stream_of_denied nm u cmd f rest now meta hm hd
  have h503 : ∀ meta, ht_get nm.file_table f = some meta → check_access meta u perm = true →
      ¬ storage_server_live nm meta.ss_ip meta.ss_client_port →
      (handle_read_write_stream nm u (cmd :: f :: rest) now).reply
        = "503 ERROR: Storage server for this file is offline." := by
    intro meta hm ha hl
    rw [← hperm] at ha
    exact read_write_stream_of_offline nm u cmd f rest now meta hm ha
      ((find_ss_eq_none_iff _ _ _).2 hl)
  have h202 : ∀ meta, ht_get nm.file_table f = some meta → check_access meta u perm = true →
      storage_server_live nm meta.ss_ip meta.ss_client_port →
      (handle_read_write_stream nm u (cmd :: f :: rest) now).reply
        = "202 OK " ++ meta.ss_ip ++ ":" ++ toString meta.ss_client_port := by
    intro meta hm ha hl
    rw [← hperm] at ha
    cases hs : find_ss meta.ss_ip meta.ss_client_port nm.ss_list_head with
    | none => exact absurd hl ((find_ss_eq_none_iff _ _ _).1 hs)
    | some ss => exact read_write_stream_of_online nm u cmd f rest now meta ss hm ha hs
  have hiff : reply_status (handle_read_write_stream nm u (cmd :: f :: rest) now).reply = "202" ↔
      ∃ meta, ht_get nm.file_table f = some meta ∧ check_access meta u perm = true ∧
        storage_server_live nm meta.ss_ip meta.ss_client_port := by
    constructor
    · intro hs
      cases hm : ht_get nm.file_table f with
      | none =>
        rw [h404 hm] at hs
        exact absurd hs (by decide)
      | some meta =>
        cases ha : check_access meta u perm with
        | false =>
          rw [h401 meta hm ha, reply_status_401] at hs
          exact absurd hs (by decide)
        | true =>
          by_cases hl : storage_server_live nm meta.ss_ip meta.ss_client_port
          · exact ⟨meta, rfl, ha, hl⟩
          · rw [h503 meta hm ha hl] at hs
            exact absurd hs (by decide)
    · rintro ⟨meta, hm, ha, hl⟩
      rw [h202 meta hm ha hl, reply_status_202]
  have hdenied : ∀ meta, ht_get nm.file_table f = some meta → check_access meta u perm = false →
      reply_status (handle_read_write_stream nm u (cmd :: f :: rest) now).reply ≠ "202" := by
    intro meta hm hd
    rw [h401 meta hm hd, reply_status_401]
    decide
  refine ⟨hiff, h202, h404, h401, h503, ?_, ?_⟩
  · intro meta hm ho hR hW
    apply hdenied meta hm
    cases ha : check_access meta u perm with
    | false => rfl
    | true =>
      rcases (check_access_eq_true_iff meta u perm hRW).1 ha with h | h | ⟨_, h⟩
      · exact absurd h ho
      · exact absurd h hW
      · exact absurd h hR
  · intro meta hm ho hR hcmdW
    apply hdenied meta hm
    have hp : perm = 'W' := hWU hcmdW
    cases ha : check_access meta u perm with
    | false => rfl
    | true =>
      rcases (check_access_eq_true_iff meta u perm hRW).1 ha with h | h | ⟨h, _⟩
      · exact absurd h ho
      · unfold access_list_maps at h hR
        rw [hR] at h
        exact absurd h (by decide)
      · rw [hp] at h
        exact absurd h (by decide)

set_option maxRecDepth 100000 in
/-- Witness for C18: bob, who holds a `W` grant on alice's file `a.txt`, gets the
location of the file for a WRITE while the storage server of the file is live;
the statement is then taken at carol, who holds an `R` grant. -/
theorem routing_authorised_witness :
    required_permission "WRITE" = some 'W' ∧
    (handle_read_write_stream (example_nm example_access_list [example_ss]) "bob"
      ["WRITE", "a.txt", "0"] 7).reply = "202 OK 10.0.0.1:9001" ∧
    (reply_status (handle_read_write_stream (example_nm example_access_list [example_ss])
        "carol" ["WRITE", "a.txt", "0"] 7).reply = "202" ↔
      ∃ meta, ht_get (example_nm example_access_list [example_ss]).file_table "a.txt"
          = some meta ∧ check_access meta "carol" 'W' = true ∧
        storage_server_live (example_nm example_access_list [example_ss])
          meta.ss_ip meta.ss_client_port) :=
  ⟨by decide, by decide,
    (routing_authorised (example_nm example_access_list [example_ss]) "carol" "WRITE" "a.txt"
      ["0"] 7 'W' (by decide)).1⟩

/-! ## Owner operations -/

/-- C19: on a file that has metadata, a DELETE, an ADDACCESS (with flag `-R` or
`-W`) or a REMACCESS of a user who is not the owner of the file, whatever the
access list grants that user, is answered with a 401 message, changes nothing in
the state of the name server (file table with its access lists, trie, storage
servers) and sends nothing to a storage server. -/
theorem owner_operations_strict (nm : NameServer) (u f target flag : String)
    (rest : List String) (now : Int) (meta : FileMetadata)
    (hfile : ht_get nm.file_table f = some meta) (howner : u ≠ meta.owner)
    (hflag : flag = "-R" ∨ flag = "-W") :
    handle_create_delete nm u ("DELETE" :: f :: rest) false now
      = ⟨"401 ERROR: Only the owner can delete a file.", nm, []⟩ ∧
    handle_access nm u ["ADDACCESS", flag, f, target]
      = ⟨"401 ERROR: Only the owner can change permissions.", nm, []⟩ ∧
    handle_access nm u ["REMACCESS", f, target]
      = ⟨"401 ERROR: Only the owner can change permissions.", nm, []⟩ := by
  have ho : meta.owner ≠ u := fun e => howner e.symm
  refine ⟨?_, ?_, ?_⟩
  · simp [handle_create_delete, hfile, ho]
  · rcases hflag with rfl | rfl
    · have hp : parse_access ["ADDACCESS", "-R", f, target] = Except.ok (f, target, 'R') := by
        simp [parse_access]
      simp [handle_access, hp, hfile, ho]
    · have hp : parse_access ["ADDACCESS", "-W", f, target] = Except.ok (f, target, 'W') := by
        simp [parse_access]
      simp [handle_access, hp, hfile, ho]
  · have hp : parse_access ["REMACCESS", f, target]
        = Except.ok (f, target, Char.ofNat 0) := by
      simp [parse_access]
    simp [handle_access, hp, hfile, ho]

set_option maxRecDepth 100000 in
/-- Witness for C19: bob holds a `W` grant on alice's file `a.txt`. -/
theorem owner_operations_strict_witness :
    ht_get (example_nm example_access_list [example_ss]).file_table "a.txt"
      = some (example_metadata example_access_list) ∧
    "bob" ≠ (example_metadata example_access_list).owner ∧
    check_access (example_metadata example_access_list) "bob" 'W' = true ∧
    handle_create_delete (example_nm example_access_list [example_ss]) "bob"
        ["DELETE", "a.txt"] false 7
      = ⟨"401 ERROR: Only the owner can delete a file.",
          example_nm example_access_list [example_ss], []⟩ ∧
    handle_access (example_nm example_access_list [example_ss]) "bob"
        ["ADDACCESS", "-W", "a.txt", "dave"]
      = ⟨"401 ERROR: Only the owner can change permissions.",
          example_nm example_access_list [example_ss], []⟩ ∧
    handle_access (example_nm example_access_list [example_ss]) "bob"
        ["REMACCESS", "a.txt", "dave"]
      = ⟨"401 ERROR: Only the owner can change permissions.",
          example_nm example_access_list [example_ss], []⟩ :=
  ⟨by decide, by decide, by decide,
    owner_operations_strict (example_nm example_access_list [example_ss]) "bob" "a.txt" "dave"
      "-W" [] 7 (example_metadata example_access_list) (by decide) (by decide) (Or.inr rfl)⟩

/-! ## The shift as a sum -/

theorem shift_loop_eq_spec (f : String) (n k : Int) (log : List ModificationLogNode) :
    ∀ acc, get_sentence_shift_loop f n k acc log = acc + shift_spec log f n k := by
  induction log with
  | nil => intro acc; simp [get_sentence_shift_loop, shift_spec]
  | cons e rest ih =>
    intro acc
    simp only [shift_spec] at ih
    by_cases h1 : e.id ≥ k
    · by_cases h2 : e.filename = f
      · by_cases h3 : e.original_sentence_index < n
        · have h1b : k ≤ e.id := h1
          simp [get_sentence_shift_loop, shift_spec, h1, h1b, h2, h3, ih, add_assoc]
        · have h1b : k ≤ e.id := h1
          simp [get_sentence_shift_loop, shift_spec, h1, h1b, h2, h3, ih]
      · have h1b : k ≤ e.id := h1
        simp [get_sentence_shift_loop, shift_spec, h1, h1b, h2, ih]
    · have h1b : ¬ k ≤ e.id := h1
      simp [get_sentence_shift_loop, shift_spec, h1, h1b, ih]

theorem shift_spec_skip (f : String) (n k : Int) (before after : List ModificationLogNode)
    (e : ModificationLogNode)
    (h : e.filename ≠ f ∨ e.id < k ∨ n ≤ e.original_sentence_index) :
    shift_spec (before ++ e :: after) f n k = shift_spec (before ++ after) f n k := by
  have hp : ¬ (k ≤ e.id ∧ e.filename = f ∧ e.original_sentence_index < n) := by
    rintro ⟨h1, h2, h3⟩
    rcases h with h | h | h
    · exact h h2
    · omega
    · omega
  simp only [shift_spec, List.filter_append, List.filter_cons, hp, decide_False]
  simp

/-- C26: `get_sentence_shift` is the sum of `sentence_delta` over exactly the log
entries with id at least `start_id`, the same file name and an original
sentence index below `n`; an entry of another file, with a smaller id, or with an
index at or after `n` can be taken out of the log without changing the
result. -/
theorem get_sentence_shift_sum (ss : StorageServer) (filename : String) (n start_id : Int) :
    get_sentence_shift ss filename n start_id
      = shift_spec ss.mod_log_head filename n start_id ∧
    ∀ (without : StorageServer) (before after : List ModificationLogNode)
      (e : ModificationLogNode),
      ss.mod_log_head = before ++ e :: after → without.mod_log_head = before ++ after →
      (e.filename ≠ filename ∨ e.id < start_id ∨ n ≤ e.original_sentence_index) →
      get_sentence_shift ss filename n start_id
        = get_sentence_shift without filename n start_id := by
  have hsum : ∀ s : StorageServer, get_sentence_shift s filename n start_id
      = shift_spec s.mod_log_head filename n start_id := by
    intro s
    simp [get_sentence_shift, shift_loop_eq_spec]
  refine ⟨hsum ss, ?_⟩
  intro without before after e h1 h2 he
  rw [hsum, hsum, h1, h2]
  exact shift_spec_skip filename n start_id before after e he

/-- Witness for C26: on the example log the shift of `a.txt` at index 1 from id
0 is 2, the entry of `b.txt` playing no part. -/
theorem get_sentence_shift_sum_witness :
    get_sentence_shift ⟨example_disk [], [], example_log, 3⟩ "a.txt" 1 0 = 2 ∧
    get_sentence_shift ⟨example_disk [], [], example_log, 3⟩ "a.txt" 1 0
      = get_sentence_shift ⟨example_disk [], [], [⟨0, "a.txt", 0, 2⟩, ⟨2, "a.txt", 1, 1⟩], 3⟩
          "a.txt" 1 0 :=
  ⟨by decide,
    (get_sentence_shift_sum ⟨example_disk [], [], example_log, 3⟩ "a.txt" 1 0).2
      ⟨example_disk [], [], [⟨0, "a.txt", 0, 2⟩, ⟨2, "a.txt", 1, 1⟩], 3⟩
      [⟨0, "a.txt", 0, 2⟩] [⟨2, "a.txt", 1, 1⟩] ⟨1, "b.txt", 0, 5⟩ rfl rfl
      (Or.inl (by decide))⟩
/-! ## The log is append-only -/

theorem log_modification_of_ne_zero (ss : StorageServer) (f : String) (i d : Int)
    (hd : d ≠ 0) :
    (log_modification ss f i d).mod_log_head = ss.mod_log_head ++ [⟨ss.next_log_id, f, i, d⟩] ∧
      (log_modification ss f i d).next_log_id = ss.next_log_id + 1 := by
  simp [log_modification, hd]

theorem log_modification_zero (ss : StorageServer) (f : String) (i : Int) :
    log_modification ss f i 0 = ss := by
  simp [log_modification]

theorem stepLog_of_same (s0 s1 : StorageServer) (h1 : s1.mod_log_head = s0.mod_log_head)
    (h2 : s1.next_log_id = s0.next_log_id) : StepLog s0 s1 :=
  ⟨[], by simp [LogAppended, h1], List.Pairwise.nil, by simp, le_of_eq h2.symm⟩

theorem stepLog_log_modification (ss : StorageServer) (f : String) (i d : Int) :
    StepLog ss (log_modification ss f i d) := by
  by_cases hd : d = 0
  · subst hd
    rw [log_modification_zero]
    exact stepLog_of_same ss ss rfl rfl
  · obtain ⟨h1, h2⟩ := log_modification_of_ne_zero ss f i d hd
    refine ⟨[⟨ss.next_log_id, f, i, d⟩], h1, List.pairwise_singleton _ _, ?_, by omega⟩
    intro e he
    rw [List.mem_singleton] at he
    subst he
    simp only
    omega

theorem stepLog_commit (ss : StorageServer) (sess : WriteSession) (updates : List UpdateNode)
    (fopen_ok : Bool) : StepLog ss (handle_ss_write_commit ss sess updates fopen_ok).ss := by
  cases ha : apply_updates ((ss.disk sess.filename).getD []) (effective_target ss sess)
      updates with
  | none =>
    rw [commit_of_apply_none ss sess updates fopen_ok ha]
    exact stepLog_of_same _ _ rfl rfl
  | some final =>
    cases fopen_ok with
    | false =>
      rw [commit_of_write_failure ss sess updates final ha]
      exact stepLog_of_same _ _ rfl rfl
    | true =>
      rw [commit_of_success ss sess updates final ha]
      exact stepLog_log_modification
        { ss with
          disk := Function.update
            (create_undo_backup ss.disk sess.filename (sess.filename ++ ".undo") true)
            sess.filename (some final) } _ _ _

theorem stepLog_begin (ss : StorageServer) (f : String) (n : Int) :
    StepLog ss (handle_ss_write_begin ss f n).ss := by
  cases hs : (handle_ss_write_begin ss f n).session with
  | none =>
    rw [begin_session_none ss f n hs]
    exact stepLog_of_same _ _ rfl rfl
  | some sess =>
    rw [(begin_session_some ss f n sess hs).2.2]
    exact stepLog_of_same _ _ rfl rfl

theorem stepLog_undo (ss : StorageServer) (f : String) (rename_ok : Bool) :
    StepLog ss (handle_ss_undo ss f rename_ok).ss := by
  apply stepLog_of_same
  · exact handle_ss_undo_log ss f rename_ok
  · unfold handle_ss_undo
    simp only []
    split <;> rfl

theorem stepLog_of_step (s0 s1 : StorageServer) (h : StorageServerStep s0 s1) :
    StepLog s0 s1 := by
  cases h with
  | begin f n => exact stepLog_begin s0 f n
  | commit sess updates ok => exact stepLog_commit s0 sess updates ok
  | undo f ok => exact stepLog_undo s0 f ok
  | create f ok =>
    apply stepLog_of_same <;> (unfold ss_listen_to_nm_create; split <;> rfl)
  | delete f => exact stepLog_of_same _ _ rfl rfl

theorem stepLog_trans (s0 s1 s2 : StorageServer) (h1 : StepLog s0 s1) (h2 : StepLog s1 s2) :
    StepLog s0 s2 := by
  obtain ⟨a1, e1, p1, b1, n1⟩ := h1
  obtain ⟨a2, e2, p2, b2, n2⟩ := h2
  refine ⟨a1 ++ a2, ?_, ?_, ?_, le_trans n1 n2⟩
  · simp only [LogAppended] at e1 e2 ⊢
    rw [e2, e1, List.append_assoc]
  · rw [List.pairwise_append]
    refine ⟨p1, p2, ?_⟩
    intro x hx y hy
    have := (b1 x hx).2
    have := (b2 y hy).1
    omega
  · intro e he
    rcases List.mem_append.1 he with he | he
    · have := b1 e he
      omega
    · have := b2 e he
      omega

theorem stepLog_of_reached (s0 s1 : StorageServer) (h : ReachedFrom s0 s1) : StepLog s0 s1 := by
  induction h with
  | refl => exact stepLog_of_same _ _ rfl rfl
  | tail _ hstep ih => exact stepLog_trans _ _ _ ih (stepLog_of_step _ _ hstep)

theorem logOrdered_of_stepLog (s0 s1 : StorageServer) (h0 : LogOrdered s0) (h : StepLog s0 s1) :
    LogOrdered s1 := by
  obtain ⟨added, e, p, b, n⟩ := h
  simp only [LogAppended] at e
  constructor
  · rw [e, List.pairwise_append]
    refine ⟨h0.1, p, ?_⟩
    intro x hx y hy
    have := h0.2 x hx
    have := (b y hy).1
    omega
  · intro x hx
    rw [e] at hx
    rcases List.mem_append.1 hx with hx | hx
    · have := h0.2 x hx
      omega
    · exact (b x hx).2

/-- C27: `log_modification` with a nonzero delta appends one entry whose id is the
former `next_log_id` and adds one to `next_log_id`; with a zero delta it changes
nothing; every operation of the storage server keeps the log it finds as a
prefix of the log it leaves. Hence in every state reached from the start of the
server the ids are strictly increasing along the log and all below
`next_log_id`, and with `s0` the state in which `get_current_log_id` is read, an
entry of a later log has an id at or above the value read exactly when it is one
of the entries appended since. -/
theorem log_append_only :
    (∀ (ss : StorageServer) (f : String) (i d : Int), d ≠ 0 →
      LogAppended ss (log_modification ss f i d) [⟨ss.next_log_id, f, i, d⟩] ∧
        (log_modification ss f i d).next_log_id = ss.next_log_id + 1) ∧
    (∀ (ss : StorageServer) (f : String) (i : Int), log_modification ss f i 0 = ss) ∧
    (∀ s0 s1 : StorageServer, StorageServerStep s0 s1 → ∃ added, LogAppended s0 s1 added) ∧
    (∀ (disk : Disk) (s : StorageServer), ReachedFrom (ss_create disk) s → LogOrdered s) ∧
    (∀ (disk : Disk) (s0 s1 : StorageServer), ReachedFrom (ss_create disk) s0 →
      ReachedFrom s0 s1 →
      ∃ added, LogAppended s0 s1 added ∧
        ∀ e ∈ s1.mod_log_head, (get_current_log_id s0 ≤ e.id ↔ e ∈ added)) := by
  have hinit : ∀ disk : Disk, LogOrdered (ss_create disk) := by
    intro disk
    simp [LogOrdered, ss_create]
  refine ⟨fun ss f i d hd => log_modification_of_ne_zero ss f i d hd,
    log_modification_zero, ?_, ?_, ?_⟩
  · intro s0 s1 h
    obtain ⟨added, e, _⟩ := stepLog_of_step s0 s1 h
    exact ⟨added, e⟩
  · intro disk s h
    exact logOrdered_of_stepLog _ _ (hinit disk) (stepLog_of_reached _ _ h)
  · intro disk s0 s1 h0 h1
    have hord := logOrdered_of_stepLog _ _ (hinit disk) (stepLog_of_reached _ _ h0)
    obtain ⟨added, e, _, b, _⟩ := stepLog_of_reached _ _ h1
    refine ⟨added, e, ?_⟩
    intro x hx
    simp only [LogAppended] at e
    rw [e] at hx
    simp only [get_current_log_id]
    constructor
    · intro hge
      rcases List.mem_append.1 hx with hx | hx
      · have := hord.2 x hx
        omega
      · exact hx
    · intro hx2
      exact (b x hx2).1

set_option maxRecDepth 100000 in
/-- Witness for C27, on scenario S4: the reading is taken once both writers have
started, and the commit of writer Y then appends the one entry of id 0. -/
theorem log_append_only_witness :
    S4_commit_Y.ss.mod_log_head = [⟨0, "a.txt", 0, 1⟩] ∧
    get_current_log_id S4_started.ss = 0 ∧
    ∃ added, LogAppended S4_started.ss S4_commit_Y.ss added ∧
      ∀ e ∈ S4_commit_Y.ss.mod_log_head, (get_current_log_id S4_started.ss ≤ e.id ↔ e ∈ added) :=
  ⟨by decide, by decide,
    log_append_only.2.2.2.2 (example_disk "A. B. C.".toList) S4_started.ss S4_commit_Y.ss
      (Relation.ReflTransGen.tail
        (Relation.ReflTransGen.tail Relation.ReflTransGen.refl
          (StorageServerStep.begin _ "a.txt" 2))
        (StorageServerStep.begin _ "a.txt" 0))
      (Relation.ReflTransGen.tail Relation.ReflTransGen.refl
        (StorageServerStep.commit _ ⟨"a.txt", 0, 0⟩ [⟨0, "start.".toList⟩] true))⟩

/-! ## The file table -/

theorem chain_find_filename (f : String) (l : List FileMetadata) (m : FileMetadata)
    (h : chain_find f l = some m) : m.filename = f := by
  induction l with
  | nil => simp [chain_find] at h
  | cons curr next ih =>
    by_cases hc : curr.filename = f
    · simp only [chain_find, hc, if_true, Option.some.injEq] at h
      rw [← h]; exact hc
    · simp only [chain_find, hc, if_false] at h
      exact ih h

theorem chain_find_chain_store_same (m : FileMetadata) (l : List FileMetadata)
    (h : chain_find m.filename l ≠ none) :
    chain_find m.filename (chain_store m l) = some m := by
  induction l with
  | nil => simp [chain_find] at h
  | cons curr next ih =>
    by_cases hc : curr.filename = m.filename
    · simp [chain_store, chain_find, hc]
    · simp only [chain_find, hc, if_false] at h
      simp [chain_store, chain_find, hc, ih h]

theorem chain_find_chain_store_other (m : FileMetadata) (g : String) (l : List FileMetadata)
    (h : g ≠ m.filename) :
    chain_find g (chain_store m l) = chain_find g l := by
  have h2 : ¬ m.filename = g := fun e => h e.symm
  induction l with
  | nil => simp [chain_store]
  | cons curr next ih =>
    by_cases hc : curr.filename = m.filename
    · have hg : ¬ curr.filename = g := fun e => h2 (hc.symm.trans e)
      simp [chain_store, chain_find, hc, h2, hg]
    · by_cases hg : curr.filename = g
      · simp [chain_store, chain_find, hc, hg, h]
      · simp [chain_store, chain_find, hc, hg, ih]

theorem ht_get_filename (table : HashTable) (f : String) (m : FileMetadata)
    (h : ht_get table f = some m) : m.filename = f :=
  chain_find_filename f _ m h

theorem ht_get_ht_store_same (table : HashTable) (m : FileMetadata)
    (h : ht_get table m.filename ≠ none) :
    ht_get (ht_store table m) m.filename = some m := by
  simp only [ht_get, ht_store, Function.update_same]
  exact chain_find_chain_store_same m _ h

theorem ht_get_ht_store_other (table : HashTable) (m : FileMetadata) (g : String)
    (h : g ≠ m.filename) :
    ht_get (ht_store table m) g = ht_get table g := by
  simp only [ht_get, ht_store]
  by_cases hb : hash_function g = hash_function m.filename
  · rw [hb, Function.update_same]
    exact chain_find_chain_store_other m g _ h
  · rw [Function.update_noteq hb]

theorem ht_get_ht_insert_same (table : HashTable) (m : FileMetadata)
    (h : ht_get table m.filename = none) :
    (ht_insert table m).1 = true ∧ ht_get (ht_insert table m).2 m.filename = some m := by
  simp only [ht_get] at h
  simp [ht_insert, ht_get, h, chain_find]

theorem ht_get_ht_insert_other (table : HashTable) (m : FileMetadata) (g : String)
    (h : g ≠ m.filename) :
    ht_get (ht_insert table m).2 g = ht_get table g := by
  have h2 : ¬ m.filename = g := fun e => h e.symm
  unfold ht_insert
  cases hc : chain_find m.filename (table.buckets (hash_function m.filename)) with
  | some _ => rfl
  | none =>
    simp only [ht_get]
    by_cases hb : hash_function g = hash_function m.filename
    · rw [hb, Function.update_same]
      simp [chain_find, h2]
    · rw [Function.update_noteq hb]

/-! ## ADDACCESS that names the owner -/

theorem parse_access_add (flag f target : String) (perm : Char)
    (h : flag_permission flag = some perm) :
    parse_access ["ADDACCESS", flag, f, target] = Except.ok (f, target, perm) ∧
      (perm = 'R' ∨ perm = 'W') := by
  unfold flag_permission at h
  by_cases hR : flag = "-R"
  · subst hR
    simp only [if_true, Option.some.injEq] at h
    subst h
    exact ⟨by simp [parse_access], Or.inl rfl⟩
  · by_cases hW : flag = "-W"
    · subst hW
      simp only [hR, if_true, if_false, Option.some.injEq] at h
      subst h
      exact ⟨by simp [parse_access], Or.inr rfl⟩
    · simp [hR, hW] at h

theorem handle_access_add_by_owner (nm : NameServer) (flag f target : String) (perm : Char)
    (meta : FileMetadata) (hflag : flag_permission flag = some perm)
    (hfile : ht_get nm.file_table f = some meta) :
    handle_access nm meta.owner ["ADDACCESS", flag, f, target] =
      ⟨"200 OK: Access granted.",
        with_file_table nm (ht_store nm.file_table
          (with_access_list meta (add_access meta.access_list_head target perm))),
        []⟩ := by
  simp [handle_access, (parse_access_add flag f target perm hflag).1, hfile, with_access_list,
    with_file_table]

set_option maxRecDepth 100000 in
/-- C21, counterexample. Alice owns `a.txt` and is listed with `W`; her own
`ADDACCESS -R a.txt alice` is granted and replaces her entry by `R`. -/
theorem addaccess_changes_owner_entry :
    (ht_get (example_nm [⟨"alice", 'W'⟩] [example_ss]).file_table "a.txt").map
        (fun m => (m.owner, m.access_list_head)) = some ("alice", [⟨"alice", 'W'⟩]) ∧
    (handle_access (example_nm [⟨"alice", 'W'⟩] [example_ss]) "alice"
        ["ADDACCESS", "-R", "a.txt", "alice"]).reply = "200 OK: Access granted." ∧
    (ht_get (handle_access (example_nm [⟨"alice", 'W'⟩] [example_ss]) "alice"
        ["ADDACCESS", "-R", "a.txt", "alice"]).nm.file_table "a.txt").map
        (fun m => (m.owner, m.access_list_head)) = some ("alice", [⟨"alice", 'R'⟩]) := by
  decide

/-- C21, amended. An ADDACCESS (`-R` or `-W`) of the owner whose target user is
the owner is granted: it sets the owner's entry of the access list to the
permission of the flag, adding the entry when there is none, and changes nothing
else of the metadata; the entry of every other user is as before, and
`check_access` gives for every user and permission what it gave before. -/
theorem addaccess_to_owner (nm : NameServer) (flag f : String) (perm : Char)
    (meta : FileMetadata) (hflag : flag_permission flag = some perm)
    (hfile : ht_get nm.file_table f = some meta) :
    (handle_access nm meta.owner ["ADDACCESS", flag, f, meta.owner]).reply
      = "200 OK: Access granted." ∧
    ∃ updated : FileMetadata,
      ht_get (handle_access nm meta.owner ["ADDACCESS", flag, f, meta.owner]).nm.file_table f
        = some updated ∧
      updated = with_access_list meta (add_access meta.access_list_head meta.owner perm) ∧
      get_access updated.access_list_head meta.owner = perm ∧
      (∀ v, v ≠ meta.owner →
        get_access updated.access_list_head v = get_access meta.access_list_head v) ∧
      (∀ v required, check_access updated v required = check_access meta v required) := by
  rw [handle_access_add_by_owner nm flag f meta.owner perm meta hflag hfile]
  refine ⟨rfl, _, ?_, rfl, ?_, ?_, ?_⟩
  · have hname := ht_get_filename _ _ _ hfile
    have h := ht_get_ht_store_same nm.file_table
      (with_access_list meta (add_access meta.access_list_head meta.owner perm))
      (by simp only [with_access_list, hname, hfile]; exact Option.some_ne_none _)
    simpa only [with_access_list, with_file_table, hname] using h
  · exact get_access_add_access_same _ _ _
  · intro v hv
    exact get_access_add_access_other _ _ _ _ hv
  · intro v required
    by_cases hv : meta.owner = v
    · simp [check_access, with_access_list, hv]
    · have hv2 : v ≠ meta.owner := fun e => hv e.symm
      simp only [check_access, with_access_list, hv, if_false,
        get_access_add_access_other _ _ _ _ hv2]

set_option maxRecDepth 100000 in
/-- Witness for C21: alice's `ADDACCESS -R a.txt alice` on the example list. -/
theorem addaccess_to_owner_witness :
    flag_permission "-R" = some 'R' ∧
    ht_get (example_nm example_access_list [example_ss]).file_table "a.txt"
      = some (example_metadata example_access_list) ∧
    (handle_access (example_nm example_access_list [example_ss])
        (example_metadata example_access_list).owner
        ["ADDACCESS", "-R", "a.txt", (example_metadata example_access_list).owner]).reply
      = "200 OK: Access granted." :=
  ⟨by decide, by decide,
    (addaccess_to_owner (example_nm example_access_list [example_ss]) "-R" "a.txt" 'R'
      (example_metadata example_access_list) (by decide) (by decide)).1⟩

/-! ## Round-robin selection -/

theorem get_ss_for_new_file_nil (nm : NameServer) (h : nm.ss_list_head = []) :
    get_ss_for_new_file nm = (none, nm) := by
  simp [get_ss_for_new_file, h]

theorem snapped_index_lt (nm : NameServer) (h : nm.ss_list_head ≠ []) :
    snapped_index nm < nm.ss_list_head.length := by
  have hpos : 0 < nm.ss_list_head.length := List.length_pos.2 h
  unfold snapped_index
  split
  · exact hpos
  · omega

theorem get_ss_for_new_file_cons (nm : NameServer) (h : nm.ss_list_head ≠ []) :
    (get_ss_for_new_file nm).1 = nm.ss_list_head.get? (snapped_index nm) ∧
      (get_ss_for_new_file nm).2.ss_list_head = nm.ss_list_head ∧
      (get_ss_for_new_file nm).2.file_table = nm.file_table ∧
      (get_ss_for_new_file nm).2.file_trie = nm.file_trie ∧
      (0 ≤ nm.next_ss_index →
        (get_ss_for_new_file nm).2.next_ss_index = (snapped_index nm : Int) + 1) := by
  unfold get_ss_for_new_file snapped_index
  simp only [h, if_false]
  by_cases hc : nm.next_ss_index ≥ (nm.ss_list_head.length : Int)
  · simp [hc]
  · simp only [hc, if_false]
    refine ⟨trivial, trivial, trivial, trivial, ?_⟩
    intro hn
    simp [Int.toNat_of_nonneg hn]

theorem create_picks_eq (k : Nat) :
    ∀ nm : NameServer, nm.ss_list_head ≠ [] → 0 ≤ nm.next_ss_index →
      create_picks nm k = (List.range k).map fun j =>
        nm.ss_list_head.get? ((snapped_index nm + j) % nm.ss_list_head.length) := by
  induction k with
  | zero => intro nm _ _; rfl
  | succ k ih =>
    intro nm h hidx
    obtain ⟨h1, h2, _, _, h5⟩ := get_ss_for_new_file_cons nm h
    have h5 := h5 hidx
    have hlt := snapped_index_lt nm h
    have hne : (get_ss_for_new_file nm).2.ss_list_head ≠ [] := by rw [h2]; exact h
    have hidx2 : 0 ≤ (get_ss_for_new_file nm).2.next_ss_index := by rw [h5]; omega
    have hsnap : ∀ j, (snapped_index (get_ss_for_new_file nm).2 + j) % nm.ss_list_head.length
        = (snapped_index nm + (j + 1)) % nm.ss_list_head.length := by
      intro j
      simp only [snapped_index, h5, h2]
      by_cases hc : (snapped_index nm : Int) + 1 ≥ (nm.ss_list_head.length : Int)
      · have he : snapped_index nm + 1 = nm.ss_list_head.length := by omega
        have : snapped_index nm + (j + 1) = j + nm.ss_list_head.length := by omega
        simp only [snapped_index] at hc
        simp only [hc, if_true]
        simp only [snapped_index] at this
        rw [this]
        simp
      · simp only [snapped_index] at hc
        simp only [hc, if_false]
        congr 1
        simp only [snapped_index] at *
        omega
    simp only [create_picks, List.range_succ_eq_map, List.map_cons, List.map_map]
    rw [ih _ hne hidx2, h1, h2]
    congr 1
    · simp [Nat.mod_eq_of_lt hlt]
    · apply List.map_congr_left
      intro j _
      simp only [Function.comp]
      rw [hsnap j]

theorem create_picks_rotate (nm : NameServer) (h : nm.ss_list_head ≠ [])
    (hidx : 0 ≤ nm.next_ss_index) :
    create_picks nm nm.ss_list_head.length
      = (nm.ss_list_head.rotate (snapped_index nm)).map some := by
  rw [create_picks_eq _ nm h hidx]
  apply List.ext_getElem
  · simp
  · intro j h1 h2
    have hj : j < nm.ss_list_head.length := by simpa using h1
    have hm : (snapped_index nm + j) % nm.ss_list_head.length < nm.ss_list_head.length :=
      Nat.mod_lt _ (by omega)
    simp only [List.getElem_map, List.getElem_range, List.getElem_rotate,
      List.get?_eq_getElem?, List.getElem?_eq_getElem hm, Nat.add_comm j]

/-- C22: with a counter that is not negative, as it is from `nm_create` on: when
no storage server is live `get_ss_for_new_file` returns none and a CREATE of a
new file is answered 503; when the list of live storage servers is not empty
every call returns a member of the list, and as many consecutive calls as the
list has members return each member exactly once. A call leaves the list as it
is and the counter not negative. -/
theorem round_robin_selection (nm : NameServer) (hidx : 0 ≤ nm.next_ss_index) :
    (nm.ss_list_head = [] →
      (get_ss_for_new_file nm).1 = none ∧
      ∀ (u f : String) (rest : List String) (now : Int), ht_get nm.file_table f = none →
        (handle_create_delete nm u ("CREATE" :: f :: rest) true now).reply
          = "503 ERROR: No storage servers available.") ∧
    (nm.ss_list_head ≠ [] →
      (∀ k, ∀ p ∈ create_picks nm k, ∃ ss ∈ nm.ss_list_head, p = some ss) ∧
      (create_picks nm nm.ss_list_head.length).Perm (nm.ss_list_head.map some)) ∧
    (get_ss_for_new_file nm).2.ss_list_head = nm.ss_list_head ∧
    0 ≤ (get_ss_for_new_file nm).2.next_ss_index ∧
    nm_create_empty.next_ss_index = 0 := by
  refine ⟨?_, ?_, ?_, ?_, rfl⟩
  · intro h
    rw [get_ss_for_new_file_nil nm h]
    refine ⟨rfl, ?_⟩
    intro u f rest now hf
    simp [handle_create_delete, hf, get_ss_for_new_file_nil nm h]
  · intro h
    constructor
    · intro k p hp
      rw [create_picks_eq k nm h hidx, List.mem_map] at hp
      obtain ⟨j, _, rfl⟩ := hp
      have hm : (snapped_index nm + j) % nm.ss_list_head.length < nm.ss_list_head.length :=
        Nat.mod_lt _ (List.length_pos.2 h)
      refine ⟨nm.ss_list_head[(snapped_index nm + j) % nm.ss_list_head.length],
        List.getElem_mem _, ?_⟩
      rw [List.get?_eq_getElem?]
      exact List.getElem?_eq_getElem hm
    · rw [create_picks_rotate nm h hidx]
      exact (List.rotate_perm _ _).map some
  · by_cases h : nm.ss_list_head = []
    · rw [get_ss_for_new_file_nil nm h]
    · exact (get_ss_for_new_file_cons nm h).2.1
  · by_cases h : nm.ss_list_head = []
    · rw [get_ss_for_new_file_nil nm h]; exact hidx
    · rw [(get_ss_for_new_file_cons nm h).2.2.2.2 hidx]
      omega

set_option maxRecDepth 100000 in
/-- Witness for C22: three live storage servers and the counter at 2; three calls
return the third, the first and the second server. -/
theorem round_robin_selection_witness :
    (0 : Int) ≤ 2 ∧
    create_picks ⟨ht_create, trie_create_node, example_ss_list, [], 2⟩ 3
      = [some ⟨5, "10.0.0.1", 9001⟩, some ⟨7, "10.0.0.3", 9003⟩, some ⟨6, "10.0.0.2", 9002⟩] ∧
    (create_picks ⟨ht_create, trie_create_node, example_ss_list, [], 2⟩
        (List.length example_ss_list)).Perm (example_ss_list.map some) :=
  ⟨by decide, by decide,
    ((round_robin_selection ⟨ht_create, trie_create_node, example_ss_list, [], 2⟩
      (by decide)).2.1 (by decide)).2⟩

/-! ## CREATE -/

theorem chain_store_filenames (m meta : FileMetadata) (l : List FileMetadata)
    (R : FileMetadata → FileMetadata → Prop) (hrefl : ∀ x, R x x)
    (hfind : chain_find m.filename l = some meta) (hm : R m meta) :
    List.Forall₂ R (chain_store m l) l := by
  induction l with
  | nil => exact List.Forall₂.nil
  | cons curr next ih =>
    by_cases hc : curr.filename = m.filename
    · simp only [chain_find, hc, if_true, Option.some.injEq] at hfind
      subst hfind
      simp only [chain_store, hc, if_true]
      exact List.Forall₂.cons hm (List.forall₂_same.2 fun x _ => hrefl x)
    · simp only [chain_find, hc, if_false] at hfind
      simp only [chain_store, hc, if_false]
      exact List.Forall₂.cons (hrefl curr) (ih hfind)


theorem sameButLocation_refl (m : FileMetadata) : SameButLocation m m :=
  ⟨rfl, rfl, rfl, rfl, rfl, rfl, rfl, rfl, rfl⟩

theorem sameButLocation_trans (a b c : FileMetadata) (h1 : SameButLocation a b)
    (h2 : SameButLocation b c) : SameButLocation a c := by
  obtain ⟨a1, a2, a3, a4, a5, a6, a7, a8, a9⟩ := h1
  obtain ⟨b1, b2, b3, b4, b5, b6, b7, b8, b9⟩ := h2
  exact ⟨a1.trans b1, a2.trans b2, a3.trans b3, a4.trans b4, a5.trans b5, a6.trans b6,
    a7.trans b7, a8.trans b8, a9.trans b9⟩

theorem ht_store_buckets (table : HashTable) (m meta : FileMetadata)
    (hfind : ht_get table m.filename = some meta) (hm : SameButLocation m meta) :
    ∀ i, List.Forall₂ SameButLocation ((ht_store table m).buckets i) (table.buckets i) := by
  intro i
  simp only [ht_store]
  by_cases hi : i = hash_function m.filename
  · subst hi
    rw [Function.update_same]
    exact chain_store_filenames m meta _ SameButLocation sameButLocation_refl hfind hm
  · rw [Function.update_noteq hi]
    exact List.forall₂_same.2 fun x _ => sameButLocation_refl x

theorem forall₂_trans_sameButLocation (l1 l2 l3 : List FileMetadata)
    (h1 : List.Forall₂ SameButLocation l1 l2) (h2 : List.Forall₂ SameButLocation l2 l3) :
    List.Forall₂ SameButLocation l1 l3 := by
  induction h1 generalizing l3 with
  | nil => cases h2; exact List.Forall₂.nil
  | cons hab _ ih =>
    cases h2 with
    | cons hbc hrest => exact List.Forall₂.cons (sameButLocation_trans _ _ _ hab hbc) (ih _ hrest)

theorem reconcile_files_buckets (ss_ip : String) (client_port : Int) (files : List String) :
    ∀ table : HashTable, ∀ i,
      List.Forall₂ SameButLocation ((reconcile_files ss_ip client_port table files).buckets i)
        (table.buckets i) := by
  induction files with
  | nil => intro table i; exact List.forall₂_same.2 fun x _ => sameButLocation_refl x
  | cons file rest ih =>
    intro table i
    cases hg : ht_get table file with
    | none => simp only [reconcile_files, hg]; exact ih table i
    | some meta =>
      simp only [reconcile_files, hg]
      have hname := ht_get_filename _ _ _ hg
      refine forall₂_trans_sameButLocation _ _ _ (ih _ i) ?_
      have hfn : (with_location meta ss_ip client_port).filename = file := hname
      apply ht_store_buckets table (with_location meta ss_ip client_port) meta
      · rw [hfn, hg]
      · exact ⟨rfl, rfl, rfl, rfl, rfl, rfl, rfl, rfl, rfl⟩

theorem reconcile_files_ht_get (ss_ip : String) (client_port : Int) (files : List String) :
    ∀ (table : HashTable) (g : String),
      ht_get (reconcile_files ss_ip client_port table files) g
        = (ht_get table g).map fun m =>
            if g ∈ files then with_location m ss_ip client_port else m := by
  induction files with
  | nil => intro table g; simp [reconcile_files]
  | cons file rest ih =>
    intro table g
    cases hg : ht_get table file with
    | none =>
      simp only [reconcile_files, hg, ih]
      by_cases hgf : g = file
      · subst hgf; simp [hg]
      · simp [hgf]
    | some meta =>
      have hname := ht_get_filename _ _ _ hg
      have hfn : (with_location meta ss_ip client_port).filename = file := hname
      simp only [reconcile_files, hg, ih]
      by_cases hgf : g = file
      · subst hgf
        have hs : ht_get (ht_store table (with_location meta ss_ip client_port)) g
            = some (with_location meta ss_ip client_port) := by
          have := ht_get_ht_store_same table (with_location meta ss_ip client_port)
            (by rw [hfn, hg]; exact Option.some_ne_none _)
          rwa [hfn] at this
        rw [hs, hg]
        simp only [Option.map_some', List.mem_cons, true_or, if_true]
        by_cases hr : g ∈ rest
        · simp [hr, with_location]
        · simp [hr]
      · have hs := ht_get_ht_store_other table (with_location meta ss_ip client_port) g
          (by rw [hfn]; exact hgf)
        rw [hs]
        simp [hgf]

theorem forall₂_flatMap_sameButLocation (f g : Nat → List FileMetadata)
    (h : ∀ i, List.Forall₂ SameButLocation (f i) (g i)) (l : List Nat) :
    List.Forall₂ SameButLocation (l.flatMap f) (l.flatMap g) := by
  induction l with
  | nil => exact List.Forall₂.nil
  | cons i rest ih =>
    simp only [List.flatMap_cons]
    exact List.rel_append (h i) ih

theorem filter_names_sameButLocation (username : String) (show_all : Bool)
    (l1 l2 : List FileMetadata) (h : List.Forall₂ SameButLocation l1 l2) :
    ((l1.filter fun meta => show_all || check_access meta username 'R').map
        fun meta => meta.filename)
      = (l2.filter fun meta => show_all || check_access meta username 'R').map
        fun meta => meta.filename := by
  induction h with
  | nil => rfl
  | @cons a b l1 l2 hab _ ih =>
    have hc : check_access a username 'R' = check_access b username 'R' := by
      simp only [check_access, hab.2.1, hab.2.2.1]
    by_cases hp : (show_all || check_access b username 'R') = true
    · have hp2 : (show_all || check_access a username 'R') = true := by rw [hc]; exact hp
      simp only [List.filter_cons, hp, hp2, if_true, List.map_cons, ih, hab.1]
    · have hp2 : ¬ (show_all || check_access a username 'R') = true := by rw [hc]; exact hp
      simp only [Bool.not_eq_true] at hp hp2
      simp only [List.filter_cons, hp, hp2, Bool.false_eq_true, if_false, ih]

theorem nm_handle_ss_init_accepted (nm : NameServer) (ss_sock : Int) (ss_ip : String)
    (buffer : List Char) (client_port : Int) (files : List String)
    (hmsg : parse_init_ss buffer = some (client_port, files)) :
    (nm_handle_ss_init nm ss_sock ss_ip buffer).reply = none ∧
    (nm_handle_ss_init nm ss_sock ss_ip buffer).nm.ss_list_head
      = ⟨ss_sock, ss_ip, client_port⟩ :: nm.ss_list_head ∧
    (nm_handle_ss_init nm ss_sock ss_ip buffer).nm.file_table
      = reconcile_files ss_ip client_port nm.file_table files ∧
    (nm_handle_ss_init nm ss_sock ss_ip buffer).nm.file_trie = nm.file_trie := by
  simp [nm_handle_ss_init, hmsg, add_ss]

/-- C24: when a storage server registers with an INIT_SS message that advertises
the file names `files`, the server joins the live list; every file of `files`
that has metadata gets the ip and the client port of the new server and keeps
the rest of its metadata; every file that is not in `files` keeps its metadata;
a file without metadata gets none, the names VIEW lists are the same for every
user and flag, and the trie is as before. -/
theorem reconnection_reconciliation (nm : NameServer) (ss_sock : Int) (ss_ip : String)
    (buffer : List Char) (client_port : Int) (files : List String)
    (hmsg : parse_init_ss buffer = some (client_port, files)) :
    (nm_handle_ss_init nm ss_sock ss_ip buffer).nm.ss_list_head
      = ⟨ss_sock, ss_ip, client_port⟩ :: nm.ss_list_head ∧
    (∀ g meta, g ∈ files → ht_get nm.file_table g = some meta →
      ht_get (nm_handle_ss_init nm ss_sock ss_ip buffer).nm.file_table g
        = some (with_location meta ss_ip client_port)) ∧
    (∀ g, g ∉ files →
      ht_get (nm_handle_ss_init nm ss_sock ss_ip buffer).nm.file_table g
        = ht_get nm.file_table g) ∧
    (∀ g, ht_get nm.file_table g = none →
      ht_get (nm_handle_ss_init nm ss_sock ss_ip buffer).nm.file_table g = none) ∧
    (∀ username show_all,
      view_names (nm_handle_ss_init nm ss_sock ss_ip buffer).nm username show_all
        = view_names nm username show_all) ∧
    (nm_handle_ss_init nm ss_sock ss_ip buffer).nm.file_trie = nm.file_trie := by
  obtain ⟨_, hlist, htable, htrie⟩ :=
    nm_handle_ss_init_accepted nm ss_sock ss_ip buffer client_port files hmsg
  refine ⟨hlist, ?_, ?_, ?_, ?_, htrie⟩
  · intro g meta hg hm
    rw [htable, reconcile_files_ht_get, hm]
    simp [hg]
  · intro g hg
    rw [htable, reconcile_files_ht_get]
    cases ht_get nm.file_table g <;> simp [hg]
  · intro g hm
    rw [htable, reconcile_files_ht_get, hm]
    rfl
  · intro username show_all
    simp only [view_names, htable, ht_entries]
    exact filter_names_sameButLocation username show_all _ _
      (forall₂_flatMap_sameButLocation _ _
        (reconcile_files_buckets ss_ip client_port files nm.file_table) _)

set_option maxRecDepth 100000 in
/-- Witness for C24, scenario S6: B advertises `x.txt` and `y.txt`; `x.txt` moves
to B, `y.txt` gets no metadata and VIEW lists `x.txt` alone. -/
theorem reconnection_reconciliation_witness :
    parse_init_ss "INIT_SS 9002 [x.txt,y.txt]".toList = some (9002, ["x.txt", "y.txt"]) ∧
    ht_get S6_registered.nm.file_table "x.txt"
      = some ⟨"x.txt", "alice", [⟨"alice", 'W'⟩], "10.0.0.2", 9002, 0, 0, 0, 0, 0, 0⟩ ∧
    ht_get S6_registered.nm.file_table "y.txt" = none ∧
    view_names S6_nm "bob" true = ["x.txt"] ∧
    view_names S6_registered.nm "bob" true = view_names S6_nm "bob" true :=
  ⟨by decide, by decide, by decide, by decide,
    (reconnection_reconciliation S6_nm 6 "10.0.0.2" "INIT_SS 9002 [x.txt,y.txt]".toList 9002
      ["x.txt", "y.txt"] (by decide)).2.2.2.2.1 "bob" true⟩

/-! ## A second storage server that reports a file -/

set_option maxRecDepth 100000 in
/-- C25, counterexample. The metadata of `a.txt` points to storage server A
(10.0.0.1:9001), which is live; B (10.0.0.2:9002) registers and advertises
`a.txt`; A is still live and the metadata of `a.txt` now points to B. -/
theorem second_registration_relocates :
    (ht_get (example_nm example_access_list [example_ss]).file_table "a.txt").map
        (fun m => (m.ss_ip, m.ss_client_port)) = some ("10.0.0.1", 9001) ∧
    find_ss "10.0.0.1" 9001 (example_nm example_access_list [example_ss]).ss_list_head
      = some example_ss ∧
    second_registration.nm.ss_list_head = [⟨6, "10.0.0.2", 9002⟩, example_ss] ∧
    (ht_get second_registration.nm.file_table "a.txt").map
        (fun m => (m.ss_ip, m.ss_client_port)) = some ("10.0.0.2", 9002) := by
  decide

/-- C25, amended. A second storage server that reports a file name takes the file
over: when the metadata of a file points to a storage server A that is live and
a different storage server B registers with an INIT_SS message that advertises
the file name, the `ss_ip` and `ss_client_port` of the file become those of B; A
stays in the live list. -/
theorem second_registration_takes_over (nm : NameServer) (ss_sock : Int) (ss_ip : String)
    (buffer : List Char) (client_port : Int) (files : List String) (f : String)
    (meta : FileMetadata)
    (hmsg : parse_init_ss buffer = some (client_port, files)) (hf : f ∈ files)
    (hmeta : ht_get nm.file_table f = some meta)
    (hlive : storage_server_live nm meta.ss_ip meta.ss_client_port)
    (hother : (ss_ip, client_port) ≠ (meta.ss_ip, meta.ss_client_port)) :
    (∃ moved, ht_get (nm_handle_ss_init nm ss_sock ss_ip buffer).nm.file_table f = some moved ∧
      moved = with_location meta ss_ip client_port ∧
      moved.ss_ip = ss_ip ∧ moved.ss_client_port = client_port ∧
      (moved.ss_ip, moved.ss_client_port) ≠ (meta.ss_ip, meta.ss_client_port)) ∧
    storage_server_live (nm_handle_ss_init nm ss_sock ss_ip buffer).nm
      meta.ss_ip meta.ss_client_port := by
  obtain ⟨_, hlist, htable, _⟩ :=
    nm_handle_ss_init_accepted nm ss_sock ss_ip buffer client_port files hmsg
  constructor
  · refine ⟨with_location meta ss_ip client_port, ?_, rfl, rfl, rfl, hother⟩
    rw [htable, reconcile_files_ht_get, hmeta]
    simp [hf]
  · obtain ⟨ss, hss, h1, h2⟩ := hlive
    exact ⟨ss, by rw [hlist]; exact List.mem_cons_of_mem _ hss, h1, h2⟩

set_option maxRecDepth 100000 in
/-- Witness for C25: the registration of B on the example name server. -/
theorem second_registration_takes_over_witness :
    parse_init_ss "INIT_SS 9002 [a.txt]".toList = some (9002, ["a.txt"]) ∧
    storage_server_live (example_nm example_access_list [example_ss]) "10.0.0.1" 9001 ∧
    storage_server_live second_registration.nm
      (example_metadata example_access_list).ss_ip
      (example_metadata example_access_list).ss_client_port :=
  ⟨by decide, ⟨example_ss, by decide, by decide, by decide⟩,
    (second_registration_takes_over (example_nm example_access_list [example_ss]) 6 "10.0.0.2"
      "INIT_SS 9002 [a.txt]".toList 9002 ["a.txt"] "a.txt" (example_metadata example_access_list)
      (by decide) (by decide) (by decide) ⟨example_ss, by decide, by decide, by decide⟩
      (by decide)).2⟩

/-! ## The trie after CREATE and DELETE -/

set_option maxRecDepth 100000 in
/-- C29, the code at the failing input. After `CREATE ab` and `CREATE ac` the
trie and the file table hold both names; `DELETE ab` is answered 200 and removes
`ab` from both, and `trie_search` of `ac` is then false although the file table
still holds `ac`: `trie_delete` of `ab` alone already loses `ac`. -/
theorem trie_delete_drops_sibling :
    trie_search created_ab_ac.file_trie "ab" = true ∧
    trie_search created_ab_ac.file_trie "ac" = true ∧
    deleted_ab.reply = "200 OK: File deleted successfully." ∧
    trie_search deleted_ab.nm.file_trie "ab" = false ∧
    (ht_get deleted_ab.nm.file_table "ab").isSome = false ∧
    (ht_get deleted_ab.nm.file_table "ac").isSome = true ∧
    trie_search deleted_ab.nm.file_trie "ac" = false ∧
    trie_search
      (trie_delete (trie_insert (trie_insert trie_create_node "ab") "ac") "ab") "ac" = false := by
  decide

/-! ## A write only inserts text -/

/-- C30: whenever `apply_single_update` succeeds, its result without whitespace
is the content without whitespace with the update text without whitespace
inserted at one place: it is `p ++ w' ++ s` where `p ++ s` is the content without
whitespace and `w'` the update text without whitespace. No character of the
file other than whitespace is deleted, changed or moved. -/
theorem write_only_inserts (content w result : List Char) (n i : Int)
    (h : apply_single_update content n i w = some result) :
    ∃ p s : List Char,
      remove_whitespace result = p ++ remove_whitespace w ++ s ∧
      p ++ s = remove_whitespace content :=
  apply_single_update_inserts content w result n i h

set_option maxRecDepth 100000 in
/-- Witness for C30: the update `(1, "big  old")` on sentence 1 of
`hello world. bye now.`. -/
theorem write_only_inserts_witness :
    apply_single_update "hello world. bye now.".toList 1 1 "big  old".toList
      = some "hello world. bye big old now.".toList ∧
    ∃ p s : List Char,
      remove_whitespace "hello world. bye big old now.".toList
        = p ++ remove_whitespace "big  old".toList ++ s ∧
      p ++ s = remove_whitespace "hello world. bye now.".toList :=
  ⟨by decide,
    write_only_inserts "hello world. bye now.".toList "big  old".toList
      "hello world. bye big old now.".toList 1 1 (by decide)⟩

/-! ## Persistence -/

theorem digitChar_digit (m : Nat) (h : m < 10) :
    ('0' ≤ Nat.digitChar m ∧ Nat.digitChar m ≤ '9') ∧ (Nat.digitChar m).toNat - 48 = m := by
  interval_cases m <;> decide

theorem atoi_loop_digit (acc : Int) (m : Nat) (h : m < 10) (rest : List Char) :
    atoi_loop acc (Nat.digitChar m :: rest) = atoi_loop (acc * 10 + m) rest := by
  obtain ⟨h1, h2⟩ := digitChar_digit m h
  simp only [atoi_loop, h1, and_self, if_true, h2]

theorem toDigitsCore_spec (fuel : Nat) :
    ∀ (n : Nat) (ds : List Char), n < fuel →
      ∃ body : List Char, Nat.toDigitsCore 10 fuel n ds = body ++ ds ∧ body ≠ [] ∧
        (∀ c ∈ body, '0' ≤ c ∧ c ≤ '9') ∧
        ∀ (acc : Int) (rest : List Char),
          atoi_loop acc (body ++ rest) = atoi_loop (acc * 10 ^ body.length + n) rest := by
  induction fuel with
  | zero => intro n ds h; omega
  | succ fuel ih =>
    intro n ds h
    have hmod : n % 10 < 10 := Nat.mod_lt _ (by decide)
    by_cases hq : n / 10 = 0
    · refine ⟨[Nat.digitChar (n % 10)], by simp [Nat.toDigitsCore, hq], by simp, ?_, ?_⟩
      · intro c hc
        rw [List.mem_singleton] at hc
        subst hc
        exact (digitChar_digit _ hmod).1
      · intro acc rest
        have hn : n % 10 = n := Nat.mod_eq_of_lt (by omega)
        simp only [List.singleton_append, List.length_singleton, pow_one]
        rw [atoi_loop_digit acc _ hmod, hn]
    · obtain ⟨body, h1, h2, h3, h4⟩ := ih (n / 10) (Nat.digitChar (n % 10) :: ds) (by omega)
      refine ⟨body ++ [Nat.digitChar (n % 10)], ?_, by simp, ?_, ?_⟩
      · simp only [Nat.toDigitsCore, hq, if_false, h1, List.append_assoc, List.singleton_append]
      · intro c hc
        rcases List.mem_append.1 hc with hc | hc
        · exact h3 c hc
        · rw [List.mem_singleton] at hc
          subst hc
          exact (digitChar_digit _ hmod).1
      · intro acc rest
        rw [List.append_assoc, h4, List.singleton_append, atoi_loop_digit _ _ hmod]
        congr 1
        have hdiv : (n : Int) = (n / 10 : Nat) * 10 + (n % 10 : Nat) := by
          have := Nat.div_add_mod n 10
          omega
        rw [List.length_append, List.length_singleton, pow_succ]
        rw [hdiv]
        push_cast
        ring

theorem nat_repr_spec (n : Nat) :
    ∃ body : List Char, (toString n).data = body ∧ body ≠ [] ∧
      (∀ c ∈ body, '0' ≤ c ∧ c ≤ '9') ∧ atoi_loop 0 body = n := by
  obtain ⟨body, h1, h2, h3, h4⟩ := toDigitsCore_spec (n + 1) n [] (by omega)
  refine ⟨body, ?_, h2, h3, ?_⟩
  · show (Nat.repr n).data = body
    simp only [Nat.repr, Nat.toDigits, h1, List.append_nil, List.asString]
  · have := h4 0 []
    simp only [List.append_nil, zero_mul, zero_add] at this
    rw [this]
    simp [atoi_loop]

theorem print_int_spec (n : Int) :
    print_int n ≠ [] ∧ (∀ c ∈ print_int n, c = '-' ∨ ('0' ≤ c ∧ c ≤ '9')) ∧
      atoi (print_int n) = n := by
  cases n with
  | ofNat m =>
    obtain ⟨body, h1, h2, h3, h4⟩ := nat_repr_spec m
    have hp : print_int (Int.ofNat m) = body := h1
    rw [hp]
    refine ⟨h2, fun c hc => Or.inr (h3 c hc), ?_⟩
    cases body with
    | nil => exact absurd rfl h2
    | cons c body =>
      have hc := h3 c (List.mem_cons_self _ _)
      have hsp : isspace c = false := by
        cases hs : isspace c with
        | false => rfl
        | true =>
          exfalso
          simp only [isspace, Bool.or_eq_true, beq_iff_eq] at hs
          rcases hs with ((((hs | hs) | hs) | hs) | hs) | hs <;>
            (subst hs; exact absurd hc.1 (by decide))
      have hminus : c ≠ '-' := by
        intro e; subst e; exact absurd hc.1 (by decide)
      have hplus : c ≠ '+' := by
        intro e; subst e; exact absurd hc.1 (by decide)
      unfold atoi
      simp only [List.dropWhile_cons, hsp, Bool.false_eq_true, if_false]
      split
      · rename_i heq
        simp only [List.cons.injEq] at heq
        exact absurd heq.1 hminus
      · rename_i heq
        simp only [List.cons.injEq] at heq
        exact absurd heq.1 hplus
      · exact h4
  | negSucc m =>
    obtain ⟨body, h1, h2, h3, h4⟩ := nat_repr_spec (m + 1)
    have hp : print_int (Int.negSucc m) = '-' :: body := by
      show ("-" ++ toString (m + 1)).data = '-' :: body
      rw [String.data_append, h1]
      rfl
    rw [hp]
    refine ⟨by simp, ?_, ?_⟩
    · intro c hc
      rcases List.mem_cons.1 hc with hc | hc
      · exact Or.inl hc
      · exact Or.inr (h3 c hc)
    · have hsp : isspace '-' = false := by decide
      unfold atoi
      simp only [List.dropWhile_cons, hsp, Bool.false_eq_true, if_false]
      rw [h4]
      rfl

theorem print_int_field (n : Int) (d : Char)
    (hd : d = '|' ∨ d = '\n' ∨ d = '\r') : ∀ c ∈ print_int n, c ≠ d := by
  intro c hc e
  subst e
  rcases (print_int_spec n).2.1 c hc with h | h
  · rcases hd with hd | hd | hd <;> (rw [hd] at h; exact absurd h (by decide))
  · rcases hd with hd | hd | hd <;> (rw [hd] at h; exact absurd h (by decide))

/-! ### Splitting at a separator -/

theorem split_string_loop_run (d : Char) (x : List Char) (hx : ∀ c ∈ x, c ≠ d) :
    ∀ (cur rest : List Char),
      split_string_loop d cur (x ++ rest) = split_string_loop d (cur ++ x) rest := by
  induction x with
  | nil => intro cur rest; simp
  | cons c x ih =>
    intro cur rest
    have hc : c ≠ d := hx c (List.mem_cons_self _ _)
    simp only [List.cons_append, split_string_loop, beq_iff_eq, hc, if_false, List.append_eq]
    rw [ih (fun a ha => hx a (List.mem_cons_of_mem _ ha))]
    simp

theorem split_string_field (d : Char) (x rest : List Char) (hne : x ≠ [])
    (hx : ∀ c ∈ x, c ≠ d) :
    split_string (x ++ d :: rest) d = x :: split_string rest d := by
  simp only [split_string]
  rw [split_string_loop_run d x hx]
  simp [split_string_loop, hne]

theorem split_string_last (d : Char) (x : List Char) (hne : x ≠ [])
    (hx : ∀ c ∈ x, c ≠ d) :
    split_string x d = [x] := by
  simp only [split_string]
  have := split_string_loop_run d x hx [] []
  simp only [List.append_nil, List.nil_append] at this
  rw [this]
  simp [split_string_loop, hne]

theorem split_string_nil (d : Char) : split_string [] d = [] := by
  simp [split_string, split_string_loop]

/-! ### One record -/

theorem save_record_eq (meta : FileMetadata) :
    save_record meta = record_body meta ++ ['\n'] := by
  simp [save_record, record_body, List.append_assoc]

theorem save_access_list_split (l : List AccessNode)
    (h : ∀ a ∈ l, PlainName a.username ∧ (a.permission = 'R' ∨ a.permission = 'W')) :
    split_string (save_access_list l) ';' = l.map saved_grant := by
  induction l with
  | nil => simp [save_access_list, split_string_nil]
  | cons a l ih =>
    obtain ⟨⟨hne, hplain⟩, hperm⟩ := h a (List.mem_cons_self _ _)
    have hform : save_access_list (a :: l) = saved_grant a ++ ';' :: save_access_list l := by
      simp [save_access_list, saved_grant, List.append_assoc]
    rw [hform, split_string_field ';' (saved_grant a) _ (by simp [saved_grant]),
      ih (fun b hb => h b (List.mem_cons_of_mem _ hb))]
    · rfl
    · intro c hc
      simp only [saved_grant, List.mem_append, List.mem_cons, List.mem_singleton,
        List.not_mem_nil, or_false] at hc
      rcases hc with hc | hc | hc
      · exact (hplain c hc).2.2.1
      · subst hc; decide
      · subst hc
        rcases hperm with hp | hp <;> (rw [hp]; decide)

theorem saved_grant_split (a : AccessNode)
    (h : PlainName a.username ∧ (a.permission = 'R' ∨ a.permission = 'W')) :
    split_string (saved_grant a) ',' = [a.username.data, [a.permission]] := by
  obtain ⟨⟨hne, hplain⟩, hperm⟩ := h
  have hform : saved_grant a = a.username.data ++ ',' :: [a.permission] := rfl
  rw [hform, split_string_field ',' _ _ hne (fun c hc => (hplain c hc).2.1),
    split_string_last ',' [a.permission] (by simp)]
  intro c hc
  rw [List.mem_singleton] at hc
  subst hc
  rcases hperm with hp | hp <;> (rw [hp]; decide)

theorem load_access_list_saved (l : List AccessNode)
    (h : ∀ a ∈ l, PlainName a.username ∧ (a.permission = 'R' ∨ a.permission = 'W')) :
    ∀ head : List AccessNode,
      load_access_list head (l.map saved_grant)
        = l.foldl (fun head a => add_access head a.username a.permission) head := by
  induction l with
  | nil => intro head; rfl
  | cons a l ih =>
    intro head
    simp only [List.map_cons, load_access_list, saved_grant_split a (h a (List.mem_cons_self _ _)),
      List.foldl_cons]
    rw [ih (fun b hb => h b (List.mem_cons_of_mem _ hb))]
    rfl

theorem save_access_list_chars (l : List AccessNode)
    (h : ∀ a ∈ l, PlainName a.username ∧ (a.permission = 'R' ∨ a.permission = 'W')) :
    ∀ c ∈ save_access_list l, c ≠ '|' ∧ c ≠ '\n' ∧ c ≠ '\r' := by
  induction l with
  | nil => intro c hc; simp [save_access_list] at hc
  | cons a l ih =>
    obtain ⟨⟨_, hplain⟩, hperm⟩ := h a (List.mem_cons_self _ _)
    intro c hc
    simp only [save_access_list, List.mem_append, List.mem_singleton] at hc
    rcases hc with (((hc | hc) | hc) | hc) | hc
    · exact ⟨(hplain c hc).1, (hplain c hc).2.2.2.1, (hplain c hc).2.2.2.2⟩
    · subst hc; decide
    · subst hc
      rcases hperm with hp | hp <;> (rw [hp]; decide)
    · subst hc; decide
    · exact ih (fun b hb => h b (List.mem_cons_of_mem _ hb)) c hc

theorem save_access_list_ne_nil (l : List AccessNode) (h : l ≠ []) :
    save_access_list l ≠ [] := by
  cases l with
  | nil => exact absurd rfl h
  | cons a l => simp [save_access_list]

theorem trim_newline_line (body : List Char) (h : ∀ c ∈ body, c ≠ '\n' ∧ c ≠ '\r') :
    trim_newline (body ++ ['\n']) = body := by
  induction body with
  | nil => simp [trim_newline]
  | cons c body ih =>
    obtain ⟨h1, h2⟩ := h c (List.mem_cons_self _ _)
    have := ih (fun a ha => h a (List.mem_cons_of_mem _ ha))
    simp only [trim_newline] at this
    simp [trim_newline, h1, h2, this]

theorem plainName_field (s : String) (h : PlainName s) :
    s.data ≠ [] ∧ (∀ c ∈ s.data, c ≠ '|') ∧ ∀ c ∈ s.data, c ≠ '\n' ∧ c ≠ '\r' :=
  ⟨h.1, fun c hc => (h.2 c hc).1, fun c hc => ⟨(h.2 c hc).2.2.2.1, (h.2 c hc).2.2.2.2⟩⟩

theorem print_int_line (n : Int) : ∀ c ∈ print_int n, c ≠ '\n' ∧ c ≠ '\r' :=
  fun c hc => ⟨print_int_field n '\n' (Or.inr (Or.inl rfl)) c hc,
    print_int_field n '\r' (Or.inr (Or.inr rfl)) c hc⟩

theorem record_body_line (m : FileMetadata) (h : SavableRecord m) :
    ∀ c ∈ record_body m, c ≠ '\n' ∧ c ≠ '\r' := by
  obtain ⟨hf, ho, hip, _, hacc, _⟩ := h
  have hbar : ('|' : Char) ≠ '\n' ∧ ('|' : Char) ≠ '\r' := by decide
  have hs := save_access_list_chars m.access_list_head hacc
  intro c hc
  simp only [record_body, List.mem_append, List.mem_cons] at hc
  rcases hc with hc | hc | hc | hc | hc | hc | hc | hc | hc | hc | hc | hc | hc | hc | hc | hc | hc
  · exact (plainName_field _ hf).2.2 c hc
  · rw [hc]; exact hbar
  · exact (plainName_field _ ho).2.2 c hc
  · rw [hc]; exact hbar
  · exact (plainName_field _ hip).2.2 c hc
  · rw [hc]; exact hbar
  · exact print_int_line _ c hc
  · rw [hc]; exact hbar
  · exact (hs c hc).2
  · rw [hc]; exact hbar
  · exact print_int_line _ c hc
  · rw [hc]; exact hbar
  · exact print_int_line _ c hc
  · rw [hc]; exact hbar
  · exact print_int_line _ c hc
  · rw [hc]; exact hbar
  · exact print_int_line _ c hc

theorem record_body_split (m : FileMetadata) (h : SavableRecord m) :
    split_string (record_body m) '|' =
      [m.filename.data, m.owner.data, m.ss_ip.data, print_int m.ss_client_port,
        save_access_list m.access_list_head, print_int m.size, print_int m.word_count,
        print_int m.char_count, print_int m.last_modified] := by
  obtain ⟨hf, ho, hip, hne, hacc, _⟩ := h
  have hs := save_access_list_chars m.access_list_head hacc
  have hint : ∀ n : Int, print_int n ≠ [] ∧ ∀ c ∈ print_int n, c ≠ '|' :=
    fun n => ⟨(print_int_spec n).1, print_int_field n '|' (Or.inl rfl)⟩
  unfold record_body
  rw [split_string_field '|' _ _ (plainName_field _ hf).1 (plainName_field _ hf).2.1,
    split_string_field '|' _ _ (plainName_field _ ho).1 (plainName_field _ ho).2.1,
    split_string_field '|' _ _ (plainName_field _ hip).1 (plainName_field _ hip).2.1,
    split_string_field '|' _ _ (hint _).1 (hint _).2,
    split_string_field '|' _ _ (save_access_list_ne_nil _ hne) (fun c hc => (hs c hc).1),
    split_string_field '|' _ _ (hint _).1 (hint _).2,
    split_string_field '|' _ _ (hint _).1 (hint _).2,
    split_string_field '|' _ _ (hint _).1 (hint _).2,
    split_string_last '|' _ (hint _).1 (hint _).2]

theorem load_record_saved (m : FileMetadata) (now : Int) (h : SavableRecord m) :
    load_record (trim_newline (save_record m)) now = some (loaded_record now m) := by
  rw [save_record_eq, trim_newline_line _ (record_body_line m h)]
  unfold load_record
  rw [record_body_split m h]
  simp only [save_access_list_split _ h.2.2.2.2.1, load_access_list_saved _ h.2.2.2.2.1,
    (print_int_spec _).2.2]
  rfl

/-! ### The lines of the file and the table -/

theorem fgets_lines_loop_line (x : List Char) (hx : ∀ c ∈ x, c ≠ '\n') :
    ∀ (cur rest : List Char), cur.length + x.length < BUFFER_SIZE - 1 →
      fgets_lines_loop cur (x ++ '\n' :: rest)
        = (cur ++ x ++ ['\n']) :: fgets_lines_loop [] rest := by
  induction x with
  | nil => intro cur rest _; simp [fgets_lines_loop]
  | cons c x ih =>
    intro cur rest hlen
    have hc : c ≠ '\n' := hx c (List.mem_cons_self _ _)
    simp only [List.length_cons] at hlen
    have hfull : ¬ (cur.length + 1 = BUFFER_SIZE - 1) := by omega
    simp only [List.cons_append, fgets_lines_loop, hc, hfull, or_self, if_false,
      List.append_eq]
    rw [ih (fun a ha => hx a (List.mem_cons_of_mem _ ha)) _ _
      (by simp only [List.length_append, List.length_singleton]; omega)]
    simp

theorem fgets_lines_loop_full (x : List Char) (hx : ∀ c ∈ x, c ≠ '\n') :
    ∀ (cur rest : List Char), x ≠ [] → cur.length + x.length = BUFFER_SIZE - 1 →
      fgets_lines_loop cur (x ++ rest) = (cur ++ x) :: fgets_lines_loop [] rest := by
  induction x with
  | nil => intro _ _ h; exact absurd rfl h
  | cons c x ih =>
    intro cur rest _ hlen
    have hc : c ≠ '\n' := hx c (List.mem_cons_self _ _)
    simp only [List.length_cons] at hlen
    by_cases hx0 : x = []
    · subst hx0
      have hfull : cur.length + 1 = BUFFER_SIZE - 1 := by simpa using hlen
      simp [fgets_lines_loop, hfull]
    · have hpos : 0 < x.length := List.length_pos.2 hx0
      have hfull : ¬ (cur.length + 1 = BUFFER_SIZE - 1) := by omega
      simp only [List.cons_append, fgets_lines_loop, hc, hfull, or_self, if_false,
        List.append_eq]
      rw [ih (fun a ha => hx a (List.mem_cons_of_mem _ ha)) _ _ hx0
        (by simp only [List.length_append, List.length_singleton]; omega)]
      simp

theorem trim_newline_id (body : List Char) (h : ∀ c ∈ body, c ≠ '\n' ∧ c ≠ '\r') :
    trim_newline body = body := by
  simp only [trim_newline, List.takeWhile_eq_self_iff]
  intro c hc
  simp [(h c hc).1, (h c hc).2]

theorem load_record_line_feed (now : Int) : load_record (trim_newline ['\n']) now = none := by
  simp [trim_newline, load_record, split_string, split_string_loop]

theorem nm_load_files_loop_saved (now : Int) (entries : List FileMetadata)
    (h : ∀ m ∈ entries, SavableRecord m)
    (hline : ∀ m ∈ entries, (save_record m).length ≤ BUFFER_SIZE) :
    ∀ nm : NameServer,
      (nm_load_files_loop now nm
          (fgets_lines_loop [] ((entries.map save_record).flatten))).file_table
        = entries.foldl (fun table m => (ht_insert table (loaded_record now m)).2)
            nm.file_table := by
  induction entries with
  | nil => intro nm; rfl
  | cons m rest ih =>
    intro nm
    have hm := h m (List.mem_cons_self _ _)
    have hlen := hline m (List.mem_cons_self _ _)
    have ih := ih (fun a ha => h a (List.mem_cons_of_mem _ ha))
      (fun a ha => hline a (List.mem_cons_of_mem _ ha))
    have hload := load_record_saved m now hm
    have hnl : ∀ c ∈ record_body m, c ≠ '\n' := fun c hc => (record_body_line m hm c hc).1
    rw [save_record_eq] at hlen
    simp only [List.length_append, List.length_singleton] at hlen
    simp only [List.map_cons, List.flatten_cons, save_record_eq m,
      List.append_assoc, List.singleton_append, List.foldl_cons]
    by_cases hfit : (record_body m).length < BUFFER_SIZE - 1
    · rw [fgets_lines_loop_line _ hnl [] _ (by simpa using hfit)]
      simp only [List.nil_append, nm_load_files_loop]
      rw [← save_record_eq, hload]
      exact ih _
    · have hfull : (record_body m).length = BUFFER_SIZE - 1 := by
        have : BUFFER_SIZE = 4096 := rfl
        omega
      have hne : record_body m ≠ [] := by
        intro e
        rw [e] at hfull
        exact absurd hfull (by decide)
      rw [fgets_lines_loop_full _ hnl [] _ hne (by simpa using hfull)]
      rw [save_record_eq, trim_newline_line _ (record_body_line m hm)] at hload
      have hstep : fgets_lines_loop [] ('\n' :: (rest.map save_record).flatten)
          = ['\n'] :: fgets_lines_loop [] ((rest.map save_record).flatten) := by
        simp [fgets_lines_loop]
      rw [hstep]
      simp only [List.nil_append, nm_load_files_loop,
        trim_newline_id _ (record_body_line m hm), hload, load_record_line_feed]
      exact ih _

theorem ht_insert_present (table : HashTable) (m old : FileMetadata)
    (h : ht_get table m.filename = some old) : (ht_insert table m).2 = table := by
  simp only [ht_get] at h
  simp [ht_insert, h]

theorem ht_get_foldl_insert (g : FileMetadata → FileMetadata)
    (hg : ∀ m, (g m).filename = m.filename) (f : String) (entries : List FileMetadata) :
    ∀ table : HashTable,
      ht_get (entries.foldl (fun table m => (ht_insert table (g m)).2) table) f
        = (ht_get table f).or ((entries.find? fun m => decide (m.filename = f)).map g) := by
  induction entries with
  | nil => intro table; simp
  | cons m rest ih =>
    intro table
    simp only [List.foldl_cons]
    rw [ih]
    cases hp : ht_get table (g m).filename with
    | some old =>
      rw [ht_insert_present table (g m) old hp]
      by_cases hf : m.filename = f
      · rw [hg m, hf] at hp
        simp [hp]
      · simp [List.find?_cons, hf]
    | none =>
      by_cases hf : m.filename = f
      · have hgf : (g m).filename = f := by rw [hg m, hf]
        have h1 := (ht_get_ht_insert_same table (g m) hp).2
        rw [hgf] at h1 hp
        simp [h1, hp, List.find?_cons, hf]
      · have hne : f ≠ (g m).filename := by
          rw [hg m]; exact fun e => hf e.symm
        rw [ht_get_ht_insert_other table (g m) f hne]
        simp [List.find?_cons, hf]

theorem chain_find_eq_find (f : String) (l : List FileMetadata) :
    chain_find f l = l.find? fun m => decide (m.filename = f) := by
  induction l with
  | nil => rfl
  | cons curr next ih =>
    by_cases hc : curr.filename = f
    · simp [chain_find, List.find?_cons, hc]
    · simp [chain_find, List.find?_cons, hc, ih]

theorem find_flatMap_bucket (g : Nat → List FileMetadata) (p : FileMetadata → Bool) (h : Nat)
    (hother : ∀ i, i ≠ h → ∀ m ∈ g i, p m = false) (l : List Nat) :
    (l.flatMap g).find? p = if h ∈ l then (g h).find? p else none := by
  induction l with
  | nil => rfl
  | cons i rest ih =>
    simp only [List.flatMap_cons, List.find?_append, ih, List.mem_cons]
    by_cases hi : i = h
    · subst hi
      by_cases hr : i ∈ rest
      · simp only [hr, if_true, true_or]
        cases (g i).find? p <;> rfl
      · simp only [hr, if_false, true_or, if_true]
        cases (g i).find? p <;> rfl
    · have hnone : (g i).find? p = none := by
        rw [List.find?_eq_none]
        intro m hm
        simp [hother i hi m hm]
      have hi2 : ¬ h = i := fun e => hi e.symm
      simp only [hnone, hi2, false_or]
      rfl

theorem ht_entries_find (table : HashTable) (hwf : WellFormedTable table) (f : String) :
    (ht_entries table).find? (fun m => decide (m.filename = f)) = ht_get table f := by
  have hlt : hash_function f < HT_SIZE := Nat.mod_lt _ (by decide)
  rw [ht_entries, find_flatMap_bucket table.buckets _ (hash_function f) _ (List.range HT_SIZE),
    if_pos (List.mem_range.2 hlt), ht_get, chain_find_eq_find]
  intro i hi m hm
  rw [decide_eq_false_iff_not]
  intro e
  have := hwf i m hm
  rw [e] at this
  exact hi this.symm

theorem ht_get_reloaded (nm : NameServer) (now : Int) (hwf : WellFormedTable nm.file_table)
    (hrec : ∀ m ∈ ht_entries nm.file_table, SavableRecord m)
    (hline : ∀ m ∈ ht_entries nm.file_table, (save_record m).length ≤ BUFFER_SIZE)
    (f : String) :
    ht_get (reloaded nm now).file_table f
      = (ht_get nm.file_table f).map (loaded_record now) := by
  simp only [reloaded, nm_load_files, nm_save_files, fgets_lines]
  rw [nm_load_files_loop_saved now _ hrec hline,
    ht_get_foldl_insert (loaded_record now) (fun _ => rfl), ht_entries_find _ hwf]
  have : ht_get nm_create_empty.file_table f = none := by
    simp [nm_create_empty, ht_create, ht_get, chain_find]
  rw [this]
  cases ht_get nm.file_table f <;> rfl

theorem get_access_foldl_add (u : String) (saved : List AccessNode) :
    ∀ head : List AccessNode, (access_usernames saved).Nodup →
      get_access (saved.foldl (fun head a => add_access head a.username a.permission) head) u
        = if u ∈ access_usernames saved then get_access saved u else get_access head u := by
  induction saved with
  | nil => intro head _; simp [access_usernames]
  | cons a rest ih =>
    intro head hnd
    simp only [access_usernames, List.map_cons, List.nodup_cons] at hnd
    simp only [List.foldl_cons]
    rw [ih _ hnd.2]
    by_cases hu : a.username = u
    · subst hu
      have hnot : a.username ∉ access_usernames rest := hnd.1
      have hin : a.username ∈ access_usernames (a :: rest) := by simp [access_usernames]
      rw [if_neg hnot, if_pos hin, get_access_add_access_same]
      simp [get_access]
    · have hu2 : u ≠ a.username := fun e => hu e.symm
      simp only [access_usernames, List.map_cons, List.mem_cons, hu2, false_or, get_access, hu,
        if_false, get_access_add_access_other _ _ _ _ hu2]

theorem wellFormedTable_ht_create : WellFormedTable ht_create := by
  intro i m hm
  simp [ht_create] at hm

theorem wellFormedTable_ht_insert (table : HashTable) (m : FileMetadata)
    (h : WellFormedTable table) : WellFormedTable (ht_insert table m).2 := by
  unfold ht_insert
  split
  · exact h
  · intro i x hx
    simp only at hx
    by_cases hi : i = hash_function m.filename
    · subst hi
      rw [Function.update_same] at hx
      rcases List.mem_cons.1 hx with hx | hx
      · rw [hx]
      · exact h _ x hx
    · rw [Function.update_noteq hi] at hx
      exact h i x hx

theorem wellFormedTable_ht_store (table : HashTable) (m : FileMetadata)
    (h : WellFormedTable table) : WellFormedTable (ht_store table m) := by
  intro i x hx
  simp only [ht_store] at hx
  by_cases hi : i = hash_function m.filename
  · subst hi
    rw [Function.update_same] at hx
    have hmem : ∀ l : List FileMetadata, x ∈ chain_store m l → x = m ∨ x ∈ l := by
      intro l
      induction l with
      | nil => intro hx; simp [chain_store] at hx
      | cons curr next ih =>
        intro hx
        by_cases hc : curr.filename = m.filename
        · simp only [chain_store, hc, if_true, List.mem_cons] at hx
          rcases hx with hx | hx
          · exact Or.inl hx
          · exact Or.inr (List.mem_cons_of_mem _ hx)
        · simp only [chain_store, hc, if_false, List.mem_cons] at hx
          rcases hx with hx | hx
          · exact Or.inr (by rw [hx]; exact List.mem_cons_self _ _)
          · rcases ih hx with h1 | h1
            · exact Or.inl h1
            · exact Or.inr (List.mem_cons_of_mem _ h1)
    rcases hmem _ hx with hx | hx
    · rw [hx]
    · exact h _ x hx
  · rw [Function.update_noteq hi] at hx
    exact h i x hx

theorem wellFormedTable_ht_delete (table : HashTable) (f : String)
    (h : WellFormedTable table) : WellFormedTable (ht_delete table f) := by
  intro i x hx
  simp only [ht_delete] at hx
  by_cases hi : i = hash_function f
  · subst hi
    rw [Function.update_same] at hx
    have hmem : ∀ l : List FileMetadata, x ∈ chain_delete f l → x ∈ l := by
      intro l
      induction l with
      | nil => intro hx; simp [chain_delete] at hx
      | cons curr next ih =>
        intro hx
        by_cases hc : curr.filename = f
        · simp only [chain_delete, hc, if_true] at hx
          exact List.mem_cons_of_mem _ hx
        · simp only [chain_delete, hc, if_false, List.mem_cons] at hx
          rcases hx with hx | hx
          · rw [hx]; exact List.mem_cons_self _ _
          · exact List.mem_cons_of_mem _ (ih hx)
    exact h _ x (hmem _ hx)
  · rw [Function.update_noteq hi] at hx
    exact h i x hx

/-! ### A line longer than the buffer -/

theorem split_string_loop_length (d : Char) :
    ∀ (l cur : List Char), (split_string_loop d cur l).length ≤ l.count d + 1 := by
  intro l
  induction l with
  | nil => intro cur; simp only [split_string_loop]; split <;> simp
  | cons c rest ih =>
    intro cur
    by_cases hc : c = d
    · subst hc
      simp only [split_string_loop, beq_self_eq_true, if_true, List.count_cons_self]
      split
      · exact Nat.le_succ_of_le (ih [])
      · simp only [List.length_cons]
        exact Nat.succ_le_succ (ih [])
    · have hb : (c == d) = false := by simp [hc]
      have hcount : List.count d (c :: rest) = List.count d rest := by
        simp [List.count_cons, hc]
      simp only [split_string_loop, hb, hcount, Bool.false_eq_true, if_false]
      exact ih _

theorem load_record_few_fields (line : List Char) (now : Int) (h : line.count '|' < 8) :
    load_record line now = none := by
  have hlen : (split_string line '|').length ≤ 8 := by
    have := split_string_loop_length '|' line []
    simp only [split_string]
    omega
  unfold load_record
  split
  · rename_i heq
    rw [heq] at hlen
    simp only [List.length_cons] at hlen
    omega
  · rfl

theorem trim_newline_count (l : List Char) (c : Char) :
    (trim_newline l).count c ≤ l.count c :=
  (List.takeWhile_sublist _).count_le _

theorem nm_load_files_loop_long_line (now : Int) (nm : NameServer)
    (first second rest : List Char)
    (hnl : ∀ c ∈ first ++ second, c ≠ '\n')
    (hfirst : first.length = BUFFER_SIZE - 1) (hsecond : second.length < BUFFER_SIZE - 1)
    (hc1 : first.count '|' < 8) (hc2 : second.count '|' < 8) :
    nm_load_files_loop now nm (fgets_lines_loop [] (first ++ second ++ '\n' :: rest))
      = nm_load_files_loop now nm (fgets_lines_loop [] rest) := by
  have hne : first ≠ [] := by
    intro e
    rw [e] at hfirst
    exact absurd hfirst (by decide)
  have h1 : ∀ c ∈ first, c ≠ '\n' := fun c hc => hnl c (List.mem_append_left _ hc)
  have h2 : ∀ c ∈ second, c ≠ '\n' := fun c hc => hnl c (List.mem_append_right _ hc)
  rw [List.append_assoc, fgets_lines_loop_full _ h1 [] _ hne (by simpa using hfirst),
    fgets_lines_loop_line _ h2 [] _ (by simpa using hsecond)]
  have hl1 : load_record (trim_newline first) now = none :=
    load_record_few_fields _ now (lt_of_le_of_lt (trim_newline_count _ _) hc1)
  have hl2 : load_record (trim_newline (second ++ ['\n'])) now = none := by
    apply load_record_few_fields
    refine lt_of_le_of_lt (trim_newline_count _ _) ?_
    rw [List.count_append]
    have : List.count '|' ['\n'] = 0 := by decide
    omega
  simp only [List.nil_append, nm_load_files_loop, hl1, hl2]

theorem save_access_list_length (l : List AccessNode) :
    (save_access_list l).length = (l.map fun a => a.username.data.length + 3).sum := by
  induction l with
  | nil => rfl
  | cons a l ih =>
    simp only [save_access_list, List.length_append, List.length_singleton, ih,
      List.map_cons, List.sum_cons]

theorem long_user_data (c : Char) : (long_user c).data = List.replicate 250 c := rfl

theorem long_access_list_savable (users : List Char)
    (h : ∀ c ∈ users, c ≠ '|' ∧ c ≠ ',' ∧ c ≠ ';' ∧ c ≠ '\n' ∧ c ≠ '\r') :
    ∀ a ∈ long_access_list users,
      PlainName a.username ∧ (a.permission = 'R' ∨ a.permission = 'W') := by
  intro a ha
  simp only [long_access_list, List.mem_cons, List.mem_map] at ha
  rcases ha with ha | ⟨c, hc, ha⟩
  · subst ha
    decide
  · subst ha
    refine ⟨⟨?_, ?_⟩, Or.inl rfl⟩
    · intro e
      have hlen := congrArg List.length e
      rw [long_user_data, List.length_replicate] at hlen
      exact absurd hlen (by decide)
    · intro x hx
      rw [long_user_data] at hx
      rw [List.eq_of_mem_replicate hx]
      exact h c hc

theorem long_access_list_length (users : List Char) :
    (save_access_list (long_access_list users)).length = 8 + 253 * users.length := by
  rw [save_access_list_length]
  have h5 : ("alice" : String).data.length = 5 := by decide
  simp only [long_access_list, List.map_cons, List.sum_cons, h5, List.map_map]
  have hmap : (users.map ((fun a : AccessNode => a.username.data.length + 3) ∘
      fun c => (⟨long_user c, 'R'⟩ : AccessNode))) = users.map fun _ => 253 := by
    apply List.map_congr_left
    intro c _
    simp only [Function.comp, long_user_data, List.length_replicate]
  have hsum : ∀ l : List Char, (l.map fun _ => 253).sum = 253 * l.length := by
    intro l
    induction l with
    | nil => rfl
    | cons c rest ih =>
      simp only [List.map_cons, List.sum_cons, List.length_cons, ih]
      omega
  rw [hmap, hsum]

theorem ht_entries_nm_of_record (m : FileMetadata) :
    ht_entries (nm_of_record m).file_table = [m] := by
  have key : ∀ (i n : Nat),
      (List.range n).flatMap (Function.update (fun _ => ([] : List FileMetadata)) i [m])
        = if i < n then [m] else [] := by
    intro i n
    induction n with
    | zero => simp
    | succ n ih =>
      rw [List.range_succ, List.flatMap_append, ih]
      by_cases h1 : i < n
      · have h2 : n ≠ i := by omega
        have h3 : i < n + 1 := by omega
        simp [h1, h3, Function.update, h2]
      · by_cases h2 : i = n
        · subst h2
          simp
        · have h3 : ¬ i < n + 1 := by omega
          have h4 : n ≠ i := fun e => h2 e.symm
          simp [h1, h3, Function.update, h4]
  have hlt : hash_function m.filename < HT_SIZE := Nat.mod_lt _ (by decide)
  simp only [nm_of_record, ht_entries, ht_insert, ht_create, chain_find]
  rw [key, if_pos hlt]

theorem long_record_body :
    record_body long_record
      = ['a', '.', 't', 'x', 't', '|', 'a', 'l', 'i', 'c', 'e', '|', '1', '0', '.', '0', '.',
          '0', '.', '1', '|', '9', '0', '0', '1', '|']
        ++ (save_access_list (long_access_list "bcdefghijklmnopqr".toList)
          ++ ['|', '0', '|', '0', '|', '0', '|', '0']) := by
  have h9001 : print_int 9001 = ['9', '0', '0', '1'] := by decide
  have h0 : print_int 0 = ['0'] := by decide
  simp only [record_body, long_record, example_metadata, h9001, h0, List.append_assoc,
    List.singleton_append, List.cons_append, List.nil_append]

set_option maxRecDepth 100000 in
theorem long_record_lost (now : Int) :
    ht_get (reloaded (nm_of_record long_record) now).file_table "a.txt" = none := by
  have husers : ∀ c ∈ "bcdefghijklmnopqr".toList,
      c ≠ '|' ∧ c ≠ ',' ∧ c ≠ ';' ∧ c ≠ '\n' ∧ c ≠ '\r' := by decide
  have hchars := save_access_list_chars _ (long_access_list_savable _ husers)
  have hlen : (save_access_list (long_access_list "bcdefghijklmnopqr".toList)).length
      = 4309 := by
    rw [long_access_list_length]
    decide
  have hrec := long_record_body
  generalize save_access_list (long_access_list "bcdefghijklmnopqr".toList) = acc
    at hchars hlen hrec
  have hform : save_record long_record
      = (['a', '.', 't', 'x', 't', '|', 'a', 'l', 'i', 'c', 'e', '|', '1', '0', '.', '0', '.',
            '0', '.', '1', '|', '9', '0', '0', '1', '|'] ++ acc.take 4069)
          ++ (acc.drop 4069 ++ ['|', '0', '|', '0', '|', '0', '|', '0'])
          ++ '\n' :: [] := by
    rw [save_record_eq, hrec, List.append_assoc _ (acc.take 4069),
      ← List.append_assoc (acc.take 4069), List.take_append_drop]
  have hbars : List.count '|' acc = 0 :=
    List.count_eq_zero.2 fun hmem => (hchars _ hmem).1 rfl
  simp only [reloaded, nm_load_files, nm_save_files, fgets_lines, ht_entries_nm_of_record,
    List.map_cons, List.map_nil, List.flatten_cons, List.flatten_nil, List.append_nil]
  rw [hform, nm_load_files_loop_long_line]
  · simp [fgets_lines_loop, nm_load_files_loop, nm_create_empty, ht_create, ht_get, chain_find]
  · intro c hc
    rcases List.mem_append.1 hc with hc | hc
    on_goal 1 => rcases List.mem_append.1 hc with hc | hc
    on_goal 3 => rcases List.mem_append.1 hc with hc | hc
    · exact (by decide : ∀ c ∈ ['a', '.', 't', 'x', 't', '|', 'a', 'l', 'i', 'c', 'e', '|', '1',
        '0', '.', '0', '.', '0', '.', '1', '|', '9', '0', '0', '1', '|'], c ≠ '\n') c hc
    · exact (hchars c (List.mem_of_mem_take hc)).2.1
    · exact (hchars c (List.mem_of_mem_drop hc)).2.1
    · exact (by decide : ∀ c ∈ ['|', '0', '|', '0', '|', '0', '|', '0'], c ≠ '\n') c hc
  · rw [List.length_append, List.length_take, hlen]
    decide
  · rw [List.length_append, List.length_drop, hlen]
    decide
  · have ht : List.count '|' (acc.take 4069) ≤ List.count '|' acc :=
      (List.take_sublist _ _).count_le _
    have h4 : List.count '|' ['a', '.', 't', 'x', 't', '|', 'a', 'l', 'i', 'c', 'e', '|', '1',
        '0', '.', '0', '.', '0', '.', '1', '|', '9', '0', '0', '1', '|'] = 4 := by decide
    rw [List.count_append, h4]
    omega
  · have ht : List.count '|' (acc.drop 4069) ≤ List.count '|' acc :=
      (List.drop_sublist _ _).count_le _
    have h4 : List.count '|' ['|', '0', '|', '0', '|', '0', '|', '0'] = 4 := by decide
    rw [List.count_append, h4]
    omega

theorem long_record_savable : SavableRecord long_record := by
  have husers : ∀ c ∈ "bcdefghijklmnopqr".toList,
      c ≠ '|' ∧ c ≠ ',' ∧ c ≠ ';' ∧ c ≠ '\n' ∧ c ≠ '\r' := by decide
  have hnodup : "bcdefghijklmnopqr".toList.Nodup := by decide
  refine ⟨by decide, by decide, by decide, ?_, long_access_list_savable _ husers, ?_⟩
  · simp [long_record, example_metadata, long_access_list]
  · have hnames : access_usernames long_record.access_list_head
        = "alice" :: "bcdefghijklmnopqr".toList.map long_user := by
      simp only [access_usernames, long_record, example_metadata, long_access_list,
        List.map_cons, List.map_map]
      rfl
    rw [hnames, List.nodup_cons]
    constructor
    · intro hmem
      obtain ⟨c, _, hc⟩ := List.mem_map.1 hmem
      have hlen := congrArg (fun s : String => s.data.length) hc
      simp only [long_user_data, List.length_replicate] at hlen
      exact absurd hlen (by decide)
    · refine hnodup.map ?_
      intro c d h
      have hdata := congrArg String.data h
      rw [long_user_data, long_user_data] at hdata
      exact (List.replicate_right_inj (by decide)).1 hdata

theorem long_record_length : (save_record long_record).length = 4344 := by
  rw [save_record_eq, long_record_body]
  simp only [List.length_append, long_access_list_length, List.length_cons, List.length_nil]
  decide

set_option maxRecDepth 100000 in
/-- C28, counterexample. Alice creates `a.txt` and removes her own entry: the
saved line has an empty access field and the load drops the file. When she
grants herself `R` instead, the load gives her entry `R`, not `W`. The names
hold none of the separators. Three more tables show the conditions on the
records: a user listed twice, a user with the empty name, and an empty ip. The
last table shows the condition on the length of a line: alice shares `a.txt`
with 17 users whose names have 250 bytes each, the record is savable and its
line has 4344 bytes, `fgets` returns it in two pieces of 5 fields each, and the
load drops the file. -/
theorem persistence_not_round_trip :
    PlainName "a.txt" ∧ PlainName "alice" ∧
    (ht_get owner_unlisted.file_table "a.txt").map (fun m => (m.owner, m.access_list_head))
      = some ("alice", []) ∧
    nm_save_files owner_unlisted = "a.txt|alice|10.0.0.1|9001||0|0|0|7\n".toList ∧
    ht_get (reloaded owner_unlisted 9).file_table "a.txt" = none ∧
    (ht_get owner_reads.file_table "a.txt").map (fun m => (m.owner, m.access_list_head))
      = some ("alice", [⟨"alice", 'R'⟩]) ∧
    (ht_get (reloaded owner_reads 9).file_table "a.txt").map
        (fun m => get_access m.access_list_head m.owner) = some 'R' ∧
    (ht_get (reloaded (nm_of_record (example_metadata [⟨"bob", 'R'⟩, ⟨"bob", 'W'⟩])) 9).file_table
        "a.txt").map (fun m => get_access m.access_list_head "bob") = some 'W' ∧
    (ht_get (reloaded (nm_of_record (example_metadata [⟨"", 'R'⟩, ⟨"alice", 'W'⟩])) 9).file_table
        "a.txt").map (fun m => get_access m.access_list_head "") = some (Char.ofNat 0) ∧
    ht_get (reloaded (nm_of_record
        ⟨"a.txt", "alice", [⟨"alice", 'W'⟩], "", 9001, 0, 0, 0, 0, 0, 0⟩) 9).file_table "a.txt"
      = none ∧
    (SavableRecord long_record ∧
      WellFormedTable (nm_of_record long_record).file_table ∧
      (save_record long_record).length = 4344 ∧
      (ht_get (nm_of_record long_record).file_table "a.txt").isSome = true ∧
      ht_get (reloaded (nm_of_record long_record) 9).file_table "a.txt" = none) := by
  refine ⟨?_, ?_, ?_, ?_, ?_, ?_, ?_, ?_, ?_, ?_, long_record_savable,
    wellFormedTable_ht_insert _ _ wellFormedTable_ht_create, long_record_length, ?_,
    long_record_lost 9⟩ <;> decide

/-- C28, amended. For every metadata table (each record in the bucket of its
file name) whose file names, user names and ips are not empty and hold none of
`|`, `,`, `;` or a line break, whose access lists are not empty and list
every user once, with `R` or `W`, and whose records are each saved as a line of
at most `BUFFER_SIZE` (4096) bytes, line feed included: loading with `nm_load_files` the text
`nm_save_files` wrote gives a table with the same set of file names, and for
each file the same owner, ip, port, size, word count, char count and
`last_modified` and the same permission for every listed user; an owner who is
not listed gets the entry `W`, a user who is neither listed nor the owner gets
none, and the entry of the owner is `W` unless the saved list gives the owner
`R`. -/
theorem persistence_round_trip (nm : NameServer) (now : Int)
    (hwf : WellFormedTable nm.file_table)
    (hrec : ∀ m ∈ ht_entries nm.file_table, SavableRecord m)
    (hline : ∀ m ∈ ht_entries nm.file_table, (save_record m).length ≤ BUFFER_SIZE) :
    (∀ f, (ht_get (reloaded nm now).file_table f).isSome
      = (ht_get nm.file_table f).isSome) ∧
    ∀ f m, ht_get nm.file_table f = some m →
      ∃ m', ht_get (reloaded nm now).file_table f = some m' ∧
        m'.filename = m.filename ∧ m'.owner = m.owner ∧ m'.ss_ip = m.ss_ip ∧
        m'.ss_client_port = m.ss_client_port ∧ m'.size = m.size ∧
        m'.word_count = m.word_count ∧ m'.char_count = m.char_count ∧
        m'.last_modified = m.last_modified ∧
        (∀ u, u ∈ access_usernames m.access_list_head →
          get_access m'.access_list_head u = get_access m.access_list_head u) ∧
        (∀ u, u ∉ access_usernames m.access_list_head →
          get_access m'.access_list_head u = if u = m.owner then 'W' else Char.ofNat 0) ∧
        (get_access m.access_list_head m.owner ≠ 'R' →
          get_access m'.access_list_head m.owner = 'W') := by
  constructor
  · intro f
    rw [ht_get_reloaded nm now hwf hrec hline f]
    cases ht_get nm.file_table f <;> rfl
  · intro f m hm
    have hmem : m ∈ ht_entries nm.file_table := by
      have := ht_entries_find nm.file_table hwf f
      rw [hm] at this
      exact List.mem_of_find?_eq_some this
    obtain ⟨_, _, _, _, hacc, hnd⟩ := hrec m hmem
    have hload : ∀ u, get_access (loaded_record now m).access_list_head u
        = if u ∈ access_usernames m.access_list_head then get_access m.access_list_head u
          else if u = m.owner then 'W' else Char.ofNat 0 := by
      intro u
      simp only [loaded_record, load_grants]
      rw [get_access_foldl_add u _ _ hnd]
      by_cases hu : u ∈ access_usernames m.access_list_head
      · simp only [hu, if_true]
      · simp only [hu, if_false]
        by_cases ho : u = m.owner
        · subst ho
          simp [add_access, add_access_loop, get_access]
        · have ho2 : ¬ m.owner = u := fun e => ho e.symm
          simp [add_access, add_access_loop, get_access, ho, ho2]
    refine ⟨loaded_record now m, ?_, rfl, rfl, rfl, rfl, rfl, rfl, rfl, rfl, ?_, ?_, ?_⟩
    · rw [ht_get_reloaded nm now hwf hrec hline f, hm]
      rfl
    · intro u hu
      rw [hload u, if_pos hu]
    · intro u hu
      rw [hload u, if_neg hu]
    · intro hR
      rw [hload m.owner]
      by_cases ho : m.owner ∈ access_usernames m.access_list_head
      · rw [if_pos ho]
        simp only [access_usernames, List.mem_map] at ho
        obtain ⟨a, ha, hau⟩ := ho
        have hperm : ∀ l : List AccessNode,
            (∀ b ∈ l, PlainName b.username ∧ (b.permission = 'R' ∨ b.permission = 'W')) →
            m.owner ∈ access_usernames l →
            get_access l m.owner = 'R' ∨ get_access l m.owner = 'W' := by
          intro l
          induction l with
          | nil => intro _ hin; simp [access_usernames] at hin
          | cons b l ih =>
            intro hl hin
            by_cases hb : b.username = m.owner
            · simp only [get_access, hb, if_true]
              exact (hl b (List.mem_cons_self _ _)).2
            · simp only [get_access, hb, if_false]
              apply ih (fun c hc => hl c (List.mem_cons_of_mem _ hc))
              simp only [access_usernames, List.map_cons, List.mem_cons] at hin
              rcases hin with hin | hin
              · exact absurd hin.symm hb
              · exact hin
        rcases hperm _ hacc (by
          simp only [access_usernames, List.mem_map]; exact ⟨a, ha, hau⟩) with h | h
        · exact absurd h hR
        · exact h
      · rw [if_neg ho]
        simp

set_option maxRecDepth 100000 in
/-- Witness for C28: the example file, owned by alice and shared with bob (`W`)
and carol (`R`). -/
theorem persistence_round_trip_witness :
    WellFormedTable (nm_of_record (example_metadata example_access_list)).file_table ∧
    (∀ m ∈ ht_entries (nm_of_record (example_metadata example_access_list)).file_table,
      SavableRecord m) ∧
    (∀ m ∈ ht_entries (nm_of_record (example_metadata example_access_list)).file_table,
      (save_record m).length ≤ BUFFER_SIZE) ∧
    ht_get (reloaded (nm_of_record (example_metadata example_access_list)) 9).file_table "a.txt"
      = some ⟨"a.txt", "alice", [⟨"carol", 'R'⟩, ⟨"bob", 'W'⟩, ⟨"alice", 'R'⟩],
          "10.0.0.1", 9001, 0, 0, 0, 9, 0, 9⟩ ∧
    ∀ f, (ht_get (reloaded (nm_of_record (example_metadata example_access_list)) 9).file_table
        f).isSome
      = (ht_get (nm_of_record (example_metadata example_access_list)).file_table f).isSome :=
  ⟨wellFormedTable_ht_insert _ _ wellFormedTable_ht_create, by decide, by decide, by decide,
    (persistence_round_trip (nm_of_record (example_metadata example_access_list)) 9
      (wellFormedTable_ht_insert _ _ wellFormedTable_ht_create) (by decide) (by decide)).1⟩

end DCFS
